import Mathlib

/-!
Verification of the Fibonacci heap implementation in `src/fibonacci_heap.rs`.

The Rust heap stores nodes behind shared mutable handles
(`FibonacciNodeType<K, V>`) reachable from a value-keyed hash map, a root
map and a `min` pointer.  We embed this shallowly: since every node carries
a unique identifying value (the specified usage contract), a handle is
modelled by the node's value, and the single source of truth for node
fields is a value-keyed association-list store that models the
`hash_map: HashMap<V, FibonacciNodeType<K, V>>` index.  Every read or
write that the Rust code performs through a handle becomes a lookup or an
update of this store.  Hash-map iteration order is unspecified in Rust; we
refine it to association-list order.

Rust panics are modelled by `Option`: out-of-bounds indexing of the degree
array in `consolidate`, the `self.min.clone().unwrap()` in `decrease_key`,
unbounded recursion in `cascading_cut` (fuel exhaustion), and reads through
handles that dangle (which cannot happen in the Rust code and never occur
in reachable states of the model) all return `none`.
-/

set_option linter.unusedSectionVars false

namespace FibHeap

/-- Model of one heap node, translated from the elided node module.
Modelled from the spec: `fibonacci_node.rs` is not part of the sources, so
the node is taken from spec section 3: a key (priority), a value (unique
identity), an optional parent reference, a children collection (order kept
as insertion order; the spec says sibling order is never semantically
relevant), and a mark bit.  The degree always equals the size of the
children collection, so `rank()` is modelled as `children.length`. -/
structure FibNode (K V : Type) where
  key : K
  value : V
  parent : Option V
  children : List V
  marked : Bool
deriving Repr, DecidableEq

/-- The node store: models `hash_map: HashMap<V, FibonacciNodeType<K, V>>`,
which (for distinct values) contains every live node exactly once.  All
shared-handle reads and writes go through this store. -/
abbrev Store (K V : Type) := List (V × FibNode K V)

variable {K V : Type} [DecidableEq V]

/-- Lookup by value: models `HashMap::get`. -/
def Store.find? : Store K V → V → Option (FibNode K V)
  | [], _ => none
  | e :: s, v => if e.1 = v then some e.2 else Store.find? s v

/-- Insert or replace: models `HashMap::insert`. -/
def Store.ins : Store K V → V → FibNode K V → Store K V
  | [], v, n => [(v, n)]
  | e :: s, v, n => if e.1 = v then (v, n) :: s else e :: Store.ins s v n

/-- Update the node stored for `v` in place (a write through a shared
handle); a no-op when `v` is absent (a dangling handle, which never occurs
in the Rust code). -/
def Store.upd : Store K V → V → (FibNode K V → FibNode K V) → Store K V
  | [], _, _ => []
  | e :: s, v, f => if e.1 = v then (e.1, f e.2) :: s else e :: Store.upd s v f

/-- Remove the entry for `v`: models `HashMap::remove`. -/
def Store.erase : Store K V → V → Store K V
  | [], _ => []
  | e :: s, v => if e.1 = v then s else e :: Store.erase s v

/-- The set (list) of values present in the store. -/
def Store.domV (s : Store K V) : List V := s.map Prod.fst

/-- Write through a handle: `node.set_key(k)`. -/
def setKey (s : Store K V) (v : V) (k : K) : Store K V :=
  s.upd v (fun n => { n with key := k })

/-- Write through a handle: `node.set_parent(p)`.  Modelled from the spec:
a plain setter (spec section 4.2 lists clearing the parent and clearing
the mark as separate actions of `cut`, so `set_parent` does not touch the
mark bit). -/
def setParent (s : Store K V) (v : V) (p : Option V) : Store K V :=
  s.upd v (fun n => { n with parent := p })

/-- Write through a handle: `node.set_marked(b)`. -/
def setMarked (s : Store K V) (v : V) (b : Bool) : Store K V :=
  s.upd v (fun n => { n with marked := b })

/-- Write through a handle: `x.add_child(y)`.  Modelled from the spec: the
child joins `x`'s children collection; we keep insertion order, which is
the order in which children were linked. -/
def addChild (s : Store K V) (x y : V) : Store K V :=
  s.upd x (fun n => { n with children := n.children ++ [y] })

/-- Write through a handle: `y.remove_child(x)`.  Modelled from the spec:
removes `x` from `y`'s children collection (children are identified by
their unique value). -/
def removeChild (s : Store K V) (y x : V) : Store K V :=
  s.upd y (fun n => { n with children := n.children.erase x })

/-- The heap structure, translated from `FibonacciHeap<K, V>`.  The Rust
field `roots` is an `Option<HashMap<V, _>>` only so that `consolidate` can
take temporary ownership; outside `consolidate` it is always `Some`, so we
model it as the plain list of root values.  `size: i32` is modelled as
`Int`. -/
structure FibonacciHeap (K V : Type) where
  hash_map : Store K V
  roots : List V
  min : Option V
  size : Int
deriving Repr, DecidableEq

/-- Insert into the root map (`self.roots.insert(value, node)`): keyed by
value, so inserting a value already present replaces (keeps) it. -/
def insertRoot (r : List V) (v : V) : List V := if v ∈ r then r else r ++ [v]

/-- Remove from the root map (`self.roots.remove(&value)`). -/
def removeRoot (r : List V) (v : V) : List V := r.filter (fun w => w ≠ v)

/-- Translated from `FibonacciHeap::new`. -/
def FibonacciHeap.new (K V : Type) : FibonacciHeap K V :=
  { hash_map := [], roots := [], min := none, size := 0 }

variable [LinearOrder K]
/-- Translated from `FibonacciHeap::insert`.  The only handle read is
`m.get_key()` on the current minimum; it is a lookup in the updated store
(for distinct values the new entry never shadows `m`). -/
def insert (h : FibonacciHeap K V) (key : K) (value : V) :
    Option (FibonacciHeap K V) :=
  let node : FibNode K V :=
    { key := key, value := value, parent := none, children := [], marked := false }
  let hm := h.hash_map.ins value node
  match h.min with
  | some m => do
      let rts := insertRoot h.roots value
      let mn ← Store.find? hm m
      some { hash_map := hm, roots := rts,
             min := if node.key < mn.key then some value else h.min,
             size := h.size + 1 }
  | none =>
      some { hash_map := hm, roots := insertRoot [] value,
             min := some value, size := h.size + 1 }

/-- Translated from `FibonacciHeap::minimum`. -/
def minimum (h : FibonacciHeap K V) : Option (Option (K × V)) :=
  match h.min with
  | none => some none
  | some m => do
      let mn ← Store.find? h.hash_map m
      some (some (mn.key, mn.value))

/-- Translated from `FibonacciHeap::heap_link`: makes `y` a child of `x`.
Only node fields change, so it acts on the store. -/
def heap_link (s : Store K V) (y x : V) : Store K V :=
  setMarked (setParent (addChild s x y) y (some x)) y false

/-- Translated from `FibonacciHeap::cut`: detaches child `x` from parent
`y` and makes it a root. -/
def cut (h : FibonacciHeap K V) (x y : V) : FibonacciHeap K V :=
  { h with
    hash_map := setMarked (setParent (removeChild h.hash_map y x) x none) x false,
    roots := insertRoot h.roots x }

/-- Translated from `FibonacciHeap::cascading_cut`.  The Rust function
recurses up the parent chain; the model carries explicit fuel and returns
`none` if the fuel runs out (which models non-termination and never
happens in reachable states, where parent chains are acyclic). -/
def cascading_cut (fuel : Nat) (h : FibonacciHeap K V) (y : V) :
    Option (FibonacciHeap K V) :=
  match fuel with
  | 0 => none
  | fuel + 1 =>
    match Store.find? h.hash_map y with
    | none => none
    | some yn =>
      match yn.parent with
      | none => some h
      | some z =>
        if yn.marked = false then some { h with hash_map := setMarked h.hash_map y true }
        else cascading_cut fuel (cut h y z) z

/-- Result of `decrease_key`: models `Result<(), ()>`. -/
inductive DKResult where
  | ok
  | err
deriving Repr, DecidableEq

/-- Translated from `FibonacciHeap::decrease_key`.  The outer `Option` is
the panic monad: the unguarded `self.min.clone().unwrap()` at the end of
the Rust function is the `h2.min` bind. -/
def decrease_key (h : FibonacciHeap K V) (value : V) (key : K) :
    Option (DKResult × FibonacciHeap K V) :=
  match Store.find? h.hash_map value with
  | none => some (.err, h)
  | some x0 =>
    if x0.key < key then some (.err, h)
    else
      let h1 : FibonacciHeap K V := { h with hash_map := setKey h.hash_map value key }
      do
        let h2 ←
          match x0.parent with
          | none => some h1
          | some yv => do
              let xn ← Store.find? h1.hash_map value
              let yn ← Store.find? h1.hash_map yv
              if xn.key < yn.key then
                cascading_cut h1.hash_map.length (cut h1 value yv) yv
              else some h1
        let m ← h2.min
        let mn ← Store.find? h2.hash_map m
        let xn2 ← Store.find? h2.hash_map value
        some (if xn2.key < mn.key then (.ok, { h2 with min := some value })
              else (.ok, h2))

/-- Lucas numbers, used to decide `φ^k ≤ n` by integer arithmetic
(`φ^k = (luc k + fib k * sqrt 5) / 2`). -/
def luc : Nat → Nat
  | 0 => 2
  | 1 => 1
  | n + 2 => luc (n + 1) + luc n

/-- Integer test for the real inequality `φ^k ≤ n`. -/
def phiPowLeB (k n : Nat) : Bool :=
  decide (luc k ≤ 2 * n) &&
    decide (5 * Nat.fib k * Nat.fib k ≤ (2 * n - luc k) ^ 2)

/-- The same test with `luc k` replaced by its closed form
`2 * fib (k+1) - fib k` (see `luc_eq_fib`), so that the kernel can
evaluate it in time linear in `k`; used to settle the finitely many
instances of the degree-margin lemma by `decide`. -/
def phiPowLeBF (k n : Nat) : Bool :=
  decide (2 * Nat.fib (k + 1) - Nat.fib k ≤ 2 * n) &&
    decide (5 * Nat.fib k * Nat.fib k ≤
      (2 * n - (2 * Nat.fib (k + 1) - Nat.fib k)) ^ 2)

/-- Greatest `k ≤ n` with `φ^k ≤ n`, i.e. the exact `floor(log_φ n)` for
`n ≥ 1`.  The source computes the corresponding quantity at
fibonacci_heap.rs:159-160 as `(self.size as f64).log(base) as usize`
with `f64` arithmetic of unspecified precision, which can return one
less than the exact floor when `log_φ(size)` is barely above an integer
(e.g. at `size = 599074578`, the Lucas number `L_42`).  This definition
is the exact-arithmetic instance that makes `consolidate` executable;
the in-bounds result for the degree array does not depend on this
choice: it is proved for every array length that covers the achievable
degrees (see `consolidateWith` and the degree-margin lemma
`phiPow_margin`). -/
def logPhiFloor (n : Nat) : Nat :=
  Nat.findGreatest (fun k => phiPowLeB k n = true) n

/-- Degree-array length used by the executable model:
`floor(log_φ(size)) + 1`, the exact-arithmetic reading of the source's
`(self.size as f64).log(base) as usize + 1`. -/
def arrayLen (size : Int) : Nat := logPhiFloor size.toNat + 1

/-- Translated from the inner `loop` of `consolidate`: repeatedly merge
the tree rooted at `x` (of degree `d`) with the occupant of degree slot
`d`.  `none` models the Rust index panic when `d` is out of bounds of the
degree array.  The explicit fuel only bounds the number of loop
iterations, which the caller chooses larger than the array can ever
require; running out of fuel also yields `none`. -/
def consolidateRoot : Nat → Store K V → List (Option V) → V → Nat →
    Option (Store K V × List (Option V))
  | 0, _, _, _, _ => none
  | fuel + 1, S, arr, x, d =>
    if hd : d < arr.length then
      match arr.get ⟨d, hd⟩ with
      | none => some (S, arr.set d (some x))
      | some y => do
          let xn ← Store.find? S x
          let yn ← Store.find? S y
          let x' := if yn.key < xn.key then y else x
          let y' := if yn.key < xn.key then x else y
          consolidateRoot fuel (heap_link S y' x') (arr.set d none) x' (d + 1)
    else none

/-- Translated from the outer `for (_, root) in roots` loop of
`consolidate`. -/
def consolidateRoots (S : Store K V) (arr : List (Option V)) :
    List V → Option (Store K V × List (Option V))
  | [] => some (S, arr)
  | r :: rs => do
      let rn ← Store.find? S r
      let (S', arr') ← consolidateRoot (arr.length + 1) S arr r rn.children.length
      consolidateRoots S' arr' rs

/-- Translated from the final `for i in 0..log_n` scan of `consolidate`:
rebuilds the root map and recomputes `min` from the degree array. -/
def rebuild (S : Store K V) :
    List (Option V) → List V → Option V → Option (List V × Option V)
  | [], rts, mn => some (rts, mn)
  | none :: rest, rts, mn => rebuild S rest rts mn
  | some v :: rest, rts, mn =>
    match mn with
    | none => rebuild S rest (insertRoot rts v) (some v)
    | some m => do
        let vn ← Store.find? S v
        let mnn ← Store.find? S m
        rebuild S rest (insertRoot rts v)
          (if vn.key < mnn.key then some v else some m)

/-- Translated from `FibonacciHeap::consolidate`, with the length of the
degree array passed explicitly, so that theorems can range over every
length the source's unspecified-precision `f64` log computation at
fibonacci_heap.rs:159-160 can produce.  Reads `self.size` before
`extract_min` decrements it, exactly as the source does. -/
def consolidateWith (L : Nat) (h : FibonacciHeap K V) :
    Option (FibonacciHeap K V) := do
  let arr0 : List (Option V) := List.replicate L none
  let (S', arr') ← consolidateRoots h.hash_map arr0 h.roots
  let (roots', min') ← rebuild S' arr' [] none
  some { hash_map := S', roots := roots', min := min', size := h.size }

/-- The executable instance of `consolidateWith`, at the exact-arithmetic
array length `arrayLen h.size`. -/
def consolidate (h : FibonacciHeap K V) : Option (FibonacciHeap K V) :=
  consolidateWith (arrayLen h.size) h

/-- Translated from `FibonacciHeap::extract_min`.  The provisional
minimum picked before `consolidate` is the last root the iteration sees
(`R2.getLast?` in list order); `consolidate` recomputes `min` from
scratch, so it is never observed.  The extracted node is removed from the
index and `size` is decremented only after `consolidate`, as in the
source. -/
def extract_min (h : FibonacciHeap K V) :
    Option (Option (K × V) × FibonacciHeap K V) :=
  match h.min with
  | none => some (none, h)
  | some zv => do
      let z ← Store.find? h.hash_map zv
      let S1 := z.children.foldl (fun s c => setParent s c none) h.hash_map
      let R1 := z.children.foldl (fun r c => insertRoot r c) h.roots
      let R2 := removeRoot R1 zv
      if R2.isEmpty then
        some (some (z.key, z.value),
          { hash_map := Store.erase S1 zv, roots := R2, min := none,
            size := h.size - 1 })
      else do
        let h2 ← consolidate
          { hash_map := S1, roots := R2, min := R2.getLast?, size := h.size }
        some (some (z.key, z.value),
          { h2 with hash_map := Store.erase h2.hash_map zv, size := h.size - 1 })

/-- One public heap operation, for describing operation sequences. -/
inductive Op (K V : Type) where
  | ins (key : K) (value : V)
  | extr
  | dec (value : V) (key : K)
  | peek
deriving Repr, DecidableEq

/-- The observable output of one operation. -/
inductive Out (K V : Type) where
  | done
  | peeked (p : Option (K × V))
  | popped (p : Option (K × V))
  | dres (ok : Bool)
deriving Repr, DecidableEq

/-- Run one operation. -/
def stepOut (h : FibonacciHeap K V) : Op K V → Option (Out K V × FibonacciHeap K V)
  | .ins k v => (insert h k v).map (fun h' => (.done, h'))
  | .extr => (extract_min h).map (fun p => (.popped p.1, p.2))
  | .dec v k =>
      (decrease_key h v k).map (fun p => (.dres (p.1 = DKResult.ok), p.2))
  | .peek => (minimum h).map (fun p => (.peeked p, h))

/-- Run a sequence of operations from a given heap, collecting outputs. -/
def runFrom (h : FibonacciHeap K V) :
    List (Op K V) → Option (List (Out K V) × FibonacciHeap K V)
  | [] => some ([], h)
  | op :: ops => do
      let (o, h') ← stepOut h op
      let (os, h'') ← runFrom h' ops
      some (o :: os, h'')

/-- Run a sequence of operations from the empty heap. -/
def run (ops : List (Op K V)) : Option (List (Out K V) × FibonacciHeap K V) :=
  runFrom (FibonacciHeap.new K V) ops

/-- Values inserted by a sequence of operations. -/
def insValues : List (Op K V) → List V
  | [] => []
  | .ins _ v :: ops => v :: insValues ops
  | _ :: ops => insValues ops

/-- Number of `insert` operations in a sequence. -/
def insCount : List (Op K V) → Nat
  | [] => 0
  | .ins _ _ :: ops => insCount ops + 1
  | _ :: ops => insCount ops

/-- Values returned by successful extractions among a list of outputs. -/
def poppedValues : List (Out K V) → List V
  | [] => []
  | .popped (some p) :: os => p.2 :: poppedValues os
  | _ :: os => poppedValues os

/-- Number of extractions that returned a pair. -/
def popCount : List (Out K V) → Nat
  | [] => 0
  | .popped (some _) :: os => popCount os + 1
  | _ :: os => popCount os

/-- The (key, value) contents of a store, in store order. -/
def storeContents (s : Store K V) : List (K × V) :=
  s.map (fun e => (e.2.key, e.2.value))

/-- Repeatedly call `extract_min` until it reports an empty heap,
collecting the returned pairs.  The fuel only needs to cover the number of
live nodes, since each successful extraction removes one. -/
def drain : Nat → FibonacciHeap K V → Option (List (K × V))
  | 0, h => do
      let (p, _) ← extract_min h
      match p with
      | none => some []
      | some _ => none
  | fuel + 1, h => do
      let (p, h') ← extract_min h
      match p with
      | none => some []
      | some kv => do
          let rest ← drain fuel h'
          some (kv :: rest)

/-- Follow parent links from `v` up to the root, with fuel.  Returns the
list of visited values, starting at `v` and ending at the root. -/
def chainToRoot (s : Store K V) : Nat → V → Option (List V)
  | 0, _ => none
  | fuel + 1, v =>
    (s.find? v).bind (fun n =>
      match n.parent with
      | none => some [v]
      | some p => (chainToRoot s fuel p).map (fun l => v :: l))

/-- Longest prefix of `l` up to and including the first occurrence of `y`
(all of `l` if `y` does not occur).  Describes how parent chains shrink
when `y`'s parent link is cleared. -/
def upTo (y : V) : List V → List V
  | [] => []
  | a :: l => if a = y then [a] else a :: upTo y l

/-- Degree credit of a child (CLRS Lemma 19.1): the `i`-th child in link
order has degree at least `i` if unmarked and at least `i - 1` if marked. -/
def fibCond (s : Store K V) (c : V) (i : Nat) : Prop :=
  ∀ cn : FibNode K V, s.find? c = some cn →
    i ≤ (if cn.marked then cn.children.length + 1 else cn.children.length)

/-- `FibSeq s l i`: the children list `l`, starting at link position `i`,
satisfies the degree discipline. -/
def FibSeq (s : Store K V) : List V → Nat → Prop
  | [], _ => True
  | c :: l, i => fibCond s c i ∧ FibSeq s l (i + 1)

/-- Like `fibCond` but with one unit of slack at the exception value `w`
(a node that has just lost a child and not yet been handled by
`cascading_cut`). -/
def fibCondX (s : Store K V) (w c : V) (i : Nat) : Prop :=
  ∀ cn : FibNode K V, s.find? c = some cn →
    i ≤ (if cn.marked then cn.children.length + 1 else cn.children.length) +
        (if c = w then 1 else 0)

/-- `FibSeq` with one unit of slack at the exception value `w`. -/
def FibSeqX (s : Store K V) (w : V) : List V → Nat → Prop
  | [], _ => True
  | c :: l, i => fibCondX s w c i ∧ FibSeqX s w l (i + 1)

/-- Structural well-formedness of the node store relative to a current
root set `R` and a set `D` of detached nodes (nodes still present in the
store but already disconnected, as the extracted minimum is while
`consolidate` runs).  For `D = []` this is the steady-state structural
invariant. -/
structure StructWF (S : Store K V) (R D : List V) : Prop where
  domNodup : S.domV.Nodup
  valEq : ∀ v n, S.find? v = some n → n.value = v
  acyc : ∀ v ∈ S.domV, ∃ l, chainToRoot S S.length v = some l ∧ l.Nodup
  rootsNodup : R.Nodup
  rootsSub : ∀ r ∈ R, r ∈ S.domV
  rootsParent : ∀ r ∈ R, ∀ n, S.find? r = some n → n.parent = none
  rootsLive : ∀ r ∈ R, r ∉ D
  deadSub : ∀ z ∈ D, z ∈ S.domV
  deadParent : ∀ z ∈ D, ∀ n, S.find? z = some n → n.parent = none
  deadUnref : ∀ z ∈ D, ∀ u n, S.find? u = some n → z ∉ n.children ∧ n.parent ≠ some z
  pnr : ∀ v n, S.find? v = some n → v ∉ D → n.parent = none → v ∈ R
  childParent : ∀ v n, S.find? v = some n → v ∉ D → ∀ c ∈ n.children,
      ∃ cn, S.find? c = some cn ∧ cn.parent = some v
  parentChild : ∀ v n p, S.find? v = some n → v ∉ D → n.parent = some p →
      ∃ pn, S.find? p = some pn ∧ v ∈ pn.children
  childrenNodup : ∀ v n, S.find? v = some n → v ∉ D → n.children.Nodup

/-- The min-heap property: every live node has key at most the keys of
its children. -/
def HeapOrd (S : Store K V) (D : List V) : Prop :=
  ∀ v n, S.find? v = some n → v ∉ D → ∀ c ∈ n.children, ∀ cn,
    S.find? c = some cn → n.key ≤ cn.key

/-- The children degree discipline at every live node. -/
def FibInv (S : Store K V) (D : List V) : Prop :=
  ∀ v n, S.find? v = some n → v ∉ D → FibSeq S n.children 0

/-- Full mid-operation well-formedness. -/
structure MidWF (S : Store K V) (R D : List V) : Prop where
  str : StructWF S R D
  ord : HeapOrd S D
  fib : FibInv S D

/-- Steady-state well-formedness of a whole heap value. -/
structure HeapWF (h : FibonacciHeap K V) : Prop where
  mid : MidWF h.hash_map h.roots []
  minNone : h.min = none → h.hash_map = []
  minSome : ∀ m, h.min = some m → m ∈ h.roots ∧
      ∀ v n, h.hash_map.find? v = some n →
        ∃ mn, h.hash_map.find? m = some mn ∧ mn.key ≤ n.key
  sizeEq : h.size = (h.hash_map.length : Int)

/-- `HeapOrd` with one allowed violation: the parent-child pair
`(py, cx)`. -/
def HeapOrdX (S : Store K V) (D : List V) (py cx : V) : Prop :=
  ∀ v n, S.find? v = some n → v ∉ D → ∀ c ∈ n.children, ∀ cn,
    S.find? c = some cn → (v = py ∧ c = cx) ∨ n.key ≤ cn.key

/-- The children degree discipline with one unit of slack at `w`. -/
def FibInvX (S : Store K V) (D : List V) (w : V) : Prop :=
  ∀ v n, S.find? v = some n → v ∉ D → FibSeqX S w n.children 0

/-- The store part of `cut` (the node-field writes performed by
`FibonacciHeap::cut` on child `x` and parent `y`). -/
def cutStore (S : Store K V) (x y : V) : Store K V :=
  setMarked (setParent (removeChild S y x) x none) x false

/-- The canonical parent chain of `u` (empty if none exists). -/
def chainL (S : Store K V) (u : V) : List V :=
  (chainToRoot S S.length u).getD []

/-- The set of nodes whose parent chain passes through `v`: the subtree
rooted at `v`. -/
def subtreeF (S : Store K V) (v : V) : Finset V :=
  S.domV.toFinset.filter (fun u => v ∈ chainL S u)

/-- The subtree of the `j`-th child of a node (empty if out of range). -/
def childSub (S : Store K V) (n : FibNode K V) (j : Nat) : Finset V :=
  if h : j < n.children.length then subtreeF S (n.children.get ⟨j, h⟩) else ∅

/-- The root values held in the degree array during consolidation. -/
def arrRoots (arr : List (Option V)) : List V := arr.filterMap id

/-- Invariant carried through the consolidation loops: the conceptual
root set is the array occupants plus the pending roots, the three heap
invariants hold for it, and each occupied slot `i` holds a root of degree
exactly `i`. -/
structure ConsCtx (S : Store K V) (arr : List (Option V)) (pend : List V)
    (D : List V) : Prop where
  str : StructWF S (arrRoots arr ++ pend) D
  ord : HeapOrd S D
  fib : FibInv S D
  slot : ∀ i (hi : i < arr.length), ∀ u, arr.get ⟨i, hi⟩ = some u →
    ∃ un, S.find? u = some un ∧ un.children.length = i

/-! ### Association-list store lemmas -/

/-- The heap state on which `extract_min` invokes `consolidate`: minimum
node `z` (value `zv`) has had its children promoted to parent-less roots,
`zv` is removed from the root set, the provisional minimum is the last
root seen, and `size` is still the pre-decrement size.  Translated from
the body of `FibonacciHeap::extract_min` just before `self.consolidate()`. -/
def midHeap (h : FibonacciHeap K V) (z : FibNode K V) (zv : V) :
    FibonacciHeap K V :=
  { hash_map := z.children.foldl (fun s c => setParent s c none) h.hash_map,
    roots := removeRoot (z.children.foldl (fun r c => insertRoot r c) h.roots) zv,
    min := (removeRoot (z.children.foldl (fun r c => insertRoot r c) h.roots)
      zv).getLast?,
    size := h.size }

/-- A concrete operation sequence on which `extract_min` promotes a
marked child to the root set: after the final extraction the surviving
root is a node that was marked by a `decrease_key` cascade and was then
promoted by `extract_min` without having its mark cleared. -/
def ops3 : List (Op Int Nat) :=
  [Op.ins 1 10, Op.ins 3 1, Op.ins 7 2, Op.extr, Op.ins 5 3, Op.ins 0 11,
   Op.extr, Op.ins 6 4, Op.ins 0 12, Op.extr, Op.dec 4 2, Op.extr, Op.extr]

/-- Executable check that, after running `ops3`, some node of the root
set has its mark bit set. -/
def C3check : Bool :=
  match run ops3 with
  | some (_, hf) => hf.roots.any (fun r =>
      match hf.hash_map.find? r with
      | some n => n.marked
      | none => false)
  | none => false

/-- The operation sequence of the worked example in spec section 8,
used as a concrete input for the claim theorems. -/
def opsW : List (Op Int Nat) :=
  [Op.ins 5 0, Op.ins 3 1, Op.ins 8 2, Op.peek, Op.extr, Op.peek,
   Op.dec 2 1, Op.peek]

theorem Store.find?_eq_none {s : Store K V} {v : V} :
    s.find? v = none ↔ v ∉ s.domV := by
  induction s with
  | nil => simp [Store.find?, Store.domV]
  | cons e s ih =>
    by_cases h : e.1 = v
    · simp only [Store.find?, if_pos h, Store.domV, List.map_cons, List.mem_cons]
      constructor
      · intro hc; cases hc
      · intro hc; exact absurd (Or.inl h.symm) hc
    · simp only [Store.find?, if_neg h, Store.domV, List.map_cons, List.mem_cons] at ih ⊢
      rw [ih]
      constructor
      · intro hc hor
        rcases hor with hor | hor
        · exact h hor.symm
        · exact hc hor
      · intro hc hm; exact hc (Or.inr hm)

theorem Store.find?_isSome {s : Store K V} {v : V} :
    (s.find? v).isSome ↔ v ∈ s.domV := by
  rcases hf : s.find? v with _ | n
  · rw [Store.find?_eq_none] at hf
    simp [hf]
  · have : v ∈ s.domV := by
      by_contra hc
      rw [← Store.find?_eq_none] at hc
      rw [hf] at hc
      cases hc
    simp [this]

theorem Store.mem_domV_of_find? {s : Store K V} {v : V} {n : FibNode K V}
    (h : s.find? v = some n) : v ∈ s.domV := by
  have h2 : (s.find? v).isSome ↔ v ∈ s.domV := Store.find?_isSome
  rw [h] at h2
  simpa using h2

theorem Store.find?_ins (s : Store K V) (v : V) (n : FibNode K V) (w : V) :
    (s.ins v n).find? w = if w = v then some n else s.find? w := by
  induction s with
  | nil =>
    by_cases h : w = v
    · simp [Store.ins, Store.find?, h]
    · rw [if_neg h]
      simp only [Store.ins, Store.find?]
      rw [if_neg (fun hh => h hh.symm)]
  | cons e s ih =>
    by_cases h1 : e.1 = v
    · by_cases h2 : w = v
      · simp [Store.ins, if_pos h1, Store.find?, h2]
      · simp only [Store.ins, if_pos h1, Store.find?, if_neg h2]
        rw [if_neg (fun hh => h2 hh.symm), if_neg (by rw [h1]; exact fun hh => h2 hh.symm)]
    · simp only [Store.ins, if_neg h1, Store.find?]
      by_cases h2 : e.1 = w
      · rw [if_pos h2, if_pos h2, if_neg (fun hh => h1 (h2.trans hh))]
      · rw [if_neg h2, if_neg h2, ih]

theorem Store.find?_upd (s : Store K V) (v : V) (f : FibNode K V → FibNode K V) (w : V) :
    (s.upd v f).find? w = if w = v then (s.find? v).map f else s.find? w := by
  induction s with
  | nil => simp [Store.upd, Store.find?]
  | cons e s ih =>
    by_cases h1 : e.1 = v
    · by_cases h2 : w = v
      · subst h2
        simp [Store.upd, Store.find?, h1]
      · have h2b : ¬v = w := fun hh => h2 hh.symm
        simp [Store.upd, Store.find?, h1, h2, h2b]
    · by_cases h2 : e.1 = w
      · have h1b : ¬w = v := fun hh => h1 (h2.trans hh)
        simp [Store.upd, Store.find?, h1, h2, h1b]
      · simp [Store.upd, Store.find?, h1, h2, ih]

theorem Store.find?_erase (s : Store K V) (v : V) (w : V)
    (hnd : s.domV.Nodup) :
    (s.erase v).find? w = if w = v then none else s.find? w := by
  induction s with
  | nil => simp [Store.erase, Store.find?]
  | cons e s ih =>
    simp only [Store.domV, List.map_cons, List.nodup_cons] at hnd
    by_cases h1 : e.1 = v
    · by_cases h2 : w = v
      · subst h2
        have hrw : Store.erase (e :: s) w = s := by simp [Store.erase, h1]
        rw [hrw, if_pos rfl, Store.find?_eq_none]
        rw [← h1]
        exact fun hm => hnd.1 (by simpa [Store.domV] using hm)
      · have h2b : ¬e.1 = w := fun hh => h2 ((hh.symm.trans h1))
        have h2c : ¬v = w := fun hh => h2 hh.symm
        simp [Store.erase, Store.find?, h1, h2, h2b, h2c]
    · by_cases h2 : e.1 = w
      · have h1b : ¬w = v := fun hh => h1 (h2.trans hh)
        simp [Store.erase, Store.find?, h1, h2, h1b]
      · simp [Store.erase, Store.find?, h1, h2, ih hnd.2]

theorem Store.domV_upd (s : Store K V) (v : V) (f : FibNode K V → FibNode K V) :
    (s.upd v f).domV = s.domV := by
  induction s with
  | nil => simp [Store.upd]
  | cons e s ih =>
    by_cases h : e.1 = v <;> simp [Store.upd, Store.domV, h] <;>
      simpa [Store.domV] using ih

theorem Store.length_upd (s : Store K V) (v : V) (f : FibNode K V → FibNode K V) :
    (s.upd v f).length = s.length := by
  induction s with
  | nil => simp [Store.upd]
  | cons e s ih =>
    by_cases h : e.1 = v <;> simp [Store.upd, h, ih]

theorem Store.domV_ins_of_fresh (s : Store K V) (v : V) (n : FibNode K V)
    (h : v ∉ s.domV) : (s.ins v n).domV = s.domV ++ [v] := by
  induction s with
  | nil => simp [Store.ins, Store.domV]
  | cons e s ih =>
    simp only [Store.domV, List.map_cons, List.mem_cons] at h
    push_neg at h
    have hne : ¬e.1 = v := fun he => h.1 he.symm
    simp only [Store.ins, if_neg hne, Store.domV, List.map_cons]
    have := ih (by simpa [Store.domV] using h.2)
    simpa [Store.domV] using congrArg (List.cons e.1) this

theorem Store.length_ins_of_fresh (s : Store K V) (v : V) (n : FibNode K V)
    (h : v ∉ s.domV) : (s.ins v n).length = s.length + 1 := by
  have := congrArg List.length (Store.domV_ins_of_fresh s v n h)
  simpa [Store.domV] using this

theorem Store.domV_erase_sub (s : Store K V) (v : V) :
    (s.erase v).domV ⊆ s.domV := by
  induction s with
  | nil => simp [Store.erase]
  | cons e s ih =>
    by_cases h : e.1 = v
    · simp only [Store.erase, if_pos h, Store.domV, List.map_cons]
      exact fun a ha => List.mem_cons_of_mem _ ha
    · simp only [Store.erase, if_neg h, Store.domV, List.map_cons]
      intro a ha
      rcases List.mem_cons.1 ha with h1 | h1
      · exact List.mem_cons.2 (Or.inl h1)
      · exact List.mem_cons.2 (Or.inr (ih h1))

theorem Store.domV_erase_nodup (s : Store K V) (v : V) (h : s.domV.Nodup) :
    (s.erase v).domV.Nodup := by
  induction s with
  | nil => exact h
  | cons e s ih =>
    simp only [Store.domV, List.map_cons, List.nodup_cons] at h
    by_cases he : e.1 = v
    · simp only [Store.erase, if_pos he]
      simpa [Store.domV] using h.2
    · simp only [Store.erase, if_neg he, Store.domV, List.map_cons, List.nodup_cons]
      refine ⟨fun hmem => h.1 ?_, ih h.2⟩
      have := Store.domV_erase_sub s v hmem
      simpa [Store.domV] using this

theorem Store.mem_domV_erase {s : Store K V} {v w : V} (hnd : s.domV.Nodup) :
    w ∈ (s.erase v).domV ↔ w ∈ s.domV ∧ w ≠ v := by
  constructor
  · intro hw
    refine ⟨Store.domV_erase_sub s v hw, ?_⟩
    intro he
    subst he
    have : (s.erase w).find? w ≠ none := by
      rw [ne_eq, Store.find?_eq_none]
      simpa using hw
    rw [Store.find?_erase s w w hnd] at this
    simp at this
  · rintro ⟨hw, hne⟩
    have : (s.erase v).find? w ≠ none := by
      rw [Store.find?_erase s v w hnd, if_neg hne, ne_eq, Store.find?_eq_none]
      simpa using hw
    rw [ne_eq, Store.find?_eq_none] at this
    simpa using this

theorem Store.length_erase_of_mem (s : Store K V) (v : V) (h : v ∈ s.domV) :
    (s.erase v).length + 1 = s.length := by
  induction s with
  | nil => simp [Store.domV] at h
  | cons e s ih =>
    by_cases he : e.1 = v
    · simp [Store.erase, he]
    · simp only [Store.domV, List.map_cons, List.mem_cons] at h
      rcases h with h | h
      · exact absurd h.symm he
      · simp [Store.erase, he, ih h]

theorem Store.domV_ins_nodup (s : Store K V) (v : V) (n : FibNode K V)
    (hf : v ∉ s.domV) (h : s.domV.Nodup) : (s.ins v n).domV.Nodup := by
  rw [Store.domV_ins_of_fresh s v n hf]
  simpa [List.nodup_append] using ⟨h, fun hv => hf hv⟩

theorem Store.length_eq_domV_length (s : Store K V) :
    s.length = s.domV.length := by
  simp [Store.domV]

theorem chainToRoot_zero (s : Store K V) (v : V) : chainToRoot s 0 v = none := rfl

theorem chainToRoot_succ (s : Store K V) (f : Nat) (v : V) :
    chainToRoot s (f + 1) v =
      (s.find? v).bind (fun n =>
        match n.parent with
        | none => some [v]
        | some p => (chainToRoot s f p).map (fun l => v :: l)) := rfl

theorem chainToRoot_root {s : Store K V} {f : Nat} {v : V} {n : FibNode K V}
    (hv : s.find? v = some n) (hp : n.parent = none) :
    chainToRoot s (f + 1) v = some [v] := by
  simp [chainToRoot_succ, hv, hp]

theorem chainToRoot_step {s : Store K V} {f : Nat} {v p : V} {n : FibNode K V}
    (hv : s.find? v = some n) (hp : n.parent = some p) :
    chainToRoot s (f + 1) v = (chainToRoot s f p).map (fun l => v :: l) := by
  simp [chainToRoot_succ, hv, hp]

theorem chainToRoot_head {s : Store K V} {f : Nat} {v : V} {l : List V}
    (h : chainToRoot s f v = some l) : ∃ t, l = v :: t := by
  match f with
  | 0 => simp [chainToRoot_zero] at h
  | f + 1 =>
    rcases hv : s.find? v with _ | n
    · simp [chainToRoot_succ, hv] at h
    · rcases hp : n.parent with _ | p
      · rw [chainToRoot_root hv hp] at h
        exact ⟨[], by simpa using h.symm⟩
      · rw [chainToRoot_step hv hp] at h
        rcases Option.map_eq_some'.1 h with ⟨t, _, ht⟩
        exact ⟨t, ht.symm⟩

theorem chainToRoot_find? {s : Store K V} {f : Nat} {v : V} {l : List V}
    (h : chainToRoot s f v = some l) : ∃ n, s.find? v = some n := by
  match f with
  | 0 => simp [chainToRoot_zero] at h
  | f + 1 =>
    rcases hv : s.find? v with _ | n
    · simp [chainToRoot_succ, hv] at h
    · exact ⟨n, rfl⟩

theorem chainToRoot_mono {s : Store K V} {f f' : Nat} {v : V} {l : List V}
    (h : chainToRoot s f v = some l) (hle : f ≤ f') :
    chainToRoot s f' v = some l := by
  induction f generalizing f' v l with
  | zero => simp [chainToRoot_zero] at h
  | succ f ih =>
    match f' with
    | 0 => omega
    | f' + 1 =>
      rcases hv : s.find? v with _ | n
      · simp [chainToRoot_succ, hv] at h
      · rcases hp : n.parent with _ | p
        · rw [chainToRoot_root hv hp] at h ⊢
          exact h
        · rw [chainToRoot_step hv hp] at h ⊢
          rcases Option.map_eq_some'.1 h with ⟨t, ht, hvt⟩
          rw [ih ht (by omega)]
          simpa using hvt

theorem chainToRoot_length_le {s : Store K V} {f : Nat} {v : V} {l : List V}
    (h : chainToRoot s f v = some l) : l.length ≤ f := by
  induction f generalizing v l with
  | zero => simp [chainToRoot_zero] at h
  | succ f ih =>
    rcases hv : s.find? v with _ | n
    · simp [chainToRoot_succ, hv] at h
    · rcases hp : n.parent with _ | p
      · rw [chainToRoot_root hv hp] at h
        simp only [Option.some_inj] at h
        subst h; simp
      · rw [chainToRoot_step hv hp] at h
        rcases Option.map_eq_some'.1 h with ⟨t, ht, hvt⟩
        subst hvt
        simpa using ih ht

theorem chainToRoot_min_fuel {s : Store K V} {f : Nat} {v : V} {l : List V}
    (h : chainToRoot s f v = some l) : chainToRoot s l.length v = some l := by
  induction f generalizing v l with
  | zero => simp [chainToRoot_zero] at h
  | succ f ih =>
    rcases hv : s.find? v with _ | n
    · simp [chainToRoot_succ, hv] at h
    · rcases hp : n.parent with _ | p
      · rw [chainToRoot_root hv hp] at h
        simp only [Option.some_inj] at h
        subst h
        exact chainToRoot_root hv hp
      · rw [chainToRoot_step hv hp] at h
        rcases Option.map_eq_some'.1 h with ⟨t, ht, hvt⟩
        subst hvt
        rw [List.length_cons, chainToRoot_step hv hp, ih ht]
        rfl

theorem chainToRoot_last {s : Store K V} {f : Nat} {v : V} {l : List V}
    (h : chainToRoot s f v = some l) :
    ∃ r n, l.getLast? = some r ∧ s.find? r = some n ∧ n.parent = none := by
  induction f generalizing v l with
  | zero => simp [chainToRoot_zero] at h
  | succ f ih =>
    rcases hv : s.find? v with _ | n
    · simp [chainToRoot_succ, hv] at h
    · rcases hp : n.parent with _ | p
      · rw [chainToRoot_root hv hp] at h
        simp only [Option.some_inj] at h
        subst h
        exact ⟨v, n, rfl, hv, hp⟩
      · rw [chainToRoot_step hv hp] at h
        rcases Option.map_eq_some'.1 h with ⟨t, ht, hvt⟩
        subst hvt
        rcases ih ht with ⟨r, m, hr, hfr, hpr⟩
        refine ⟨r, m, ?_, hfr, hpr⟩
        rcases chainToRoot_head ht with ⟨t', rfl⟩
        simpa using hr

theorem chainToRoot_mem_suffix {s : Store K V} {f : Nat} {v : V} {l : List V}
    (h : chainToRoot s f v = some l) {w : V} (hw : w ∈ l) :
    ∃ pre suf, l = pre ++ w :: suf ∧
      chainToRoot s (suf.length + 1) w = some (w :: suf) := by
  induction f generalizing v l with
  | zero => simp [chainToRoot_zero] at h
  | succ f ih =>
    rcases hv : s.find? v with _ | n
    · simp [chainToRoot_succ, hv] at h
    · rcases hp : n.parent with _ | p
      · rw [chainToRoot_root hv hp] at h
        simp only [Option.some_inj] at h
        subst h
        simp only [List.mem_singleton] at hw
        subst hw
        exact ⟨[], [], rfl, chainToRoot_root hv hp⟩
      · rw [chainToRoot_step hv hp] at h
        rcases Option.map_eq_some'.1 h with ⟨t, ht, hvt⟩
        subst hvt
        rcases List.mem_cons.1 hw with hw | hw
        · subst hw
          refine ⟨[], t, rfl, ?_⟩
          have := chainToRoot_min_fuel ht
          rcases chainToRoot_head ht with ⟨t', rfl⟩
          rw [chainToRoot_step hv hp, chainToRoot_mono this (by simp)]
          rfl
        · rcases ih ht hw with ⟨pre, suf, hsplit, hcw⟩
          exact ⟨v :: pre, suf, by simp [hsplit], hcw⟩

theorem chainToRoot_mem_parent {s : Store K V} {f : Nat} {v : V} {l : List V}
    (h : chainToRoot s f v = some l) {w : V} (hw : w ∈ l) :
    w = v ∨ ∃ u nu, u ∈ l ∧ s.find? u = some nu ∧ nu.parent = some w := by
  induction f generalizing v l with
  | zero => simp [chainToRoot_zero] at h
  | succ f ih =>
    rcases hv : s.find? v with _ | n
    · simp [chainToRoot_succ, hv] at h
    · rcases hp : n.parent with _ | p
      · rw [chainToRoot_root hv hp] at h
        simp only [Option.some_inj] at h
        subst h
        simp only [List.mem_singleton] at hw
        exact Or.inl hw
      · rw [chainToRoot_step hv hp] at h
        rcases Option.map_eq_some'.1 h with ⟨t, ht, hvt⟩
        subst hvt
        rcases List.mem_cons.1 hw with hw | hw
        · exact Or.inl hw
        · rcases ih ht hw with hcase | ⟨u, nu, hu, hfu, hpu⟩
          · subst hcase
            exact Or.inr ⟨v, n, List.mem_cons_self v t, hv, hp⟩
          · exact Or.inr ⟨u, nu, List.mem_cons_of_mem _ hu, hfu, hpu⟩

theorem chainToRoot_mem_dom {s : Store K V} {f : Nat} {v : V} {l : List V}
    (h : chainToRoot s f v = some l) {w : V} (hw : w ∈ l) : w ∈ s.domV := by
  rcases chainToRoot_mem_suffix h hw with ⟨pre, suf, _, hcw⟩
  rcases chainToRoot_find? hcw with ⟨n, hn⟩
  exact Store.mem_domV_of_find? hn

theorem chainToRoot_congr {s s' : Store K V}
    (hpp : ∀ w, (s'.find? w).map (fun n => n.parent) =
               (s.find? w).map (fun n => n.parent))
    (f : Nat) (v : V) : chainToRoot s' f v = chainToRoot s f v := by
  induction f generalizing v with
  | zero => simp [chainToRoot_zero]
  | succ f ih =>
    rcases hv : s.find? v with _ | n
    · have : s'.find? v = none := by
        have := hpp v
        rw [hv] at this
        simpa using Option.map_eq_none'.1 this
      simp [chainToRoot_succ, hv, this]
    · have hv2 : (s'.find? v).map (fun n => n.parent) = some n.parent := by
        rw [hpp v, hv]
        rfl
      rcases Option.map_eq_some'.1 hv2 with ⟨n', hn', hpn⟩
      rcases hp : n.parent with _ | p
      · rw [chainToRoot_root hv hp, chainToRoot_root hn' (hp ▸ hpn)]
      · rw [chainToRoot_step hv hp, chainToRoot_step hn' (hp ▸ hpn), ih]

theorem upTo_of_not_mem {y : V} {l : List V} (h : y ∉ l) : upTo y l = l := by
  induction l with
  | nil => rfl
  | cons a l ih =>
    have h1 : ¬a = y := fun hh => h (by simp [hh])
    have h2 : y ∉ l := fun hh => h (List.mem_cons_of_mem _ hh)
    simp only [upTo, if_neg h1]
    rw [ih h2]

theorem upTo_sublist (y : V) (l : List V) : (upTo y l).Sublist l := by
  induction l with
  | nil => simp [upTo]
  | cons a l ih =>
    by_cases h : a = y
    · simp only [upTo, if_pos h]
      exact (List.nil_sublist l).cons₂ a
    · simp only [upTo, if_neg h]
      exact ih.cons₂ a

theorem upTo_getLast?_of_mem {y : V} {l : List V} (h : y ∈ l) :
    (upTo y l).getLast? = some y := by
  induction l with
  | nil => cases h
  | cons a l ih =>
    by_cases ha : a = y
    · subst ha
      simp [upTo]
    · rcases List.mem_cons.1 h with h1 | h1
      · exact absurd h1.symm ha
      · have := ih h1
        simp only [upTo, if_neg ha]
        rw [List.getLast?_cons, this]
        rcases hu : upTo y l with _ | ⟨b, t⟩
        · rw [hu] at this; simp at this
        · simpa [hu] using this

theorem find?_setParent (s : Store K V) (v : V) (p : Option V) (w : V) :
    (setParent s v p).find? w =
      if w = v then (s.find? v).map (fun n => { n with parent := p })
      else s.find? w := by
  simp [setParent, Store.find?_upd]

theorem find?_setKey (s : Store K V) (v : V) (k : K) (w : V) :
    (setKey s v k).find? w =
      if w = v then (s.find? v).map (fun n => { n with key := k })
      else s.find? w := by
  simp [setKey, Store.find?_upd]

theorem find?_setMarked (s : Store K V) (v : V) (b : Bool) (w : V) :
    (setMarked s v b).find? w =
      if w = v then (s.find? v).map (fun n => { n with marked := b })
      else s.find? w := by
  simp [setMarked, Store.find?_upd]

theorem find?_addChild (s : Store K V) (x y : V) (w : V) :
    (addChild s x y).find? w =
      if w = x then (s.find? x).map (fun n => { n with children := n.children ++ [y] })
      else s.find? w := by
  simp [addChild, Store.find?_upd]

theorem find?_removeChild (s : Store K V) (y x : V) (w : V) :
    (removeChild s y x).find? w =
      if w = y then (s.find? y).map (fun n => { n with children := n.children.erase x })
      else s.find? w := by
  simp [removeChild, Store.find?_upd]

theorem chainToRoot_setParent_none {s : Store K V} {y : V} {f : Nat} {v : V}
    {l : List V} (h : chainToRoot s f v = some l) :
    chainToRoot (setParent s y none) f v = some (upTo y l) := by
  induction f generalizing v l with
  | zero => simp [chainToRoot_zero] at h
  | succ f ih =>
    rcases hv : s.find? v with _ | n
    · simp [chainToRoot_succ, hv] at h
    · by_cases hvy : v = y
      · subst hvy
        have hv' : (setParent s v none).find? v =
            some { n with parent := none } := by
          rw [find?_setParent, if_pos rfl, hv]
          rfl
        rw [chainToRoot_root hv' rfl]
        rcases chainToRoot_head h with ⟨t, rfl⟩
        simp [upTo]
      · have hv' : (setParent s y none).find? v = some n := by
          rw [find?_setParent, if_neg hvy]
          exact hv
        rcases hp : n.parent with _ | p
        · rw [chainToRoot_root hv hp] at h
          simp only [Option.some_inj] at h
          subst h
          rw [chainToRoot_root hv' hp]
          simp [upTo, hvy]
        · rw [chainToRoot_step hv hp] at h
          rcases Option.map_eq_some'.1 h with ⟨t, ht, hvt⟩
          subst hvt
          rw [chainToRoot_step hv' hp, ih ht]
          simp [upTo, hvy]

theorem chainToRoot_setParent_some {s : Store K V} {x y : V} {xn : FibNode K V}
    (hx : s.find? x = some xn) (hxp : xn.parent = none) (hxy : ¬x = y)
    {f : Nat} {v : V} {l : List V} (h : chainToRoot s f v = some l) :
    chainToRoot (setParent s y (some x)) (f + 1) v =
      some (if y ∈ l then upTo y l ++ [x] else l) := by
  induction f generalizing v l with
  | zero => simp [chainToRoot_zero] at h
  | succ f ih =>
    rcases hv : s.find? v with _ | n
    · simp [chainToRoot_succ, hv] at h
    · by_cases hvy : v = y
      · subst hvy
        have hv' : (setParent s v (some x)).find? v =
            some { n with parent := some x } := by
          rw [find?_setParent, if_pos rfl, hv]
          rfl
        have hx' : (setParent s v (some x)).find? x = some xn := by
          rw [find?_setParent, if_neg hxy]
          exact hx
        have hcx : chainToRoot (setParent s v (some x)) (f + 1) x = some [x] :=
          chainToRoot_root hx' hxp
        rw [chainToRoot_step hv' rfl, hcx]
        rcases chainToRoot_head h with ⟨t, rfl⟩
        simp [upTo]
      · have hv' : (setParent s y (some x)).find? v = some n := by
          rw [find?_setParent, if_neg hvy]
          exact hv
        have hyv : ¬y = v := fun hh => hvy hh.symm
        rcases hp : n.parent with _ | p
        · rw [chainToRoot_root hv hp] at h
          simp only [Option.some_inj] at h
          subst h
          rw [chainToRoot_root hv' hp]
          simp [hyv]
        · rw [chainToRoot_step hv hp] at h
          rcases Option.map_eq_some'.1 h with ⟨t, ht, hvt⟩
          subst hvt
          rw [chainToRoot_step hv' hp, ih ht]
          by_cases hyt : y ∈ t
          · simp [hyt, hyv, hvy, upTo, List.mem_cons]
          · simp [hyt, hyv, List.mem_cons]

theorem fibCond_mono {s : Store K V} {c : V} {i j : Nat}
    (h : fibCond s c j) (hij : i ≤ j) : fibCond s c i :=
  fun cn hcn => le_trans hij (h cn hcn)

theorem FibSeq_mono {s : Store K V} {l : List V} {i j : Nat}
    (h : FibSeq s l j) (hij : i ≤ j) : FibSeq s l i := by
  induction l generalizing i j with
  | nil => trivial
  | cons c l ih =>
    exact ⟨fibCond_mono h.1 hij, ih h.2 (by omega)⟩

theorem fibCondX_mono {s : Store K V} {w c : V} {i j : Nat}
    (h : fibCondX s w c j) (hij : i ≤ j) : fibCondX s w c i :=
  fun cn hcn => le_trans hij (h cn hcn)

theorem FibSeqX_mono {s : Store K V} {w : V} {l : List V} {i j : Nat}
    (h : FibSeqX s w l j) (hij : i ≤ j) : FibSeqX s w l i := by
  induction l generalizing i j with
  | nil => trivial
  | cons c l ih =>
    exact ⟨fibCondX_mono h.1 hij, ih h.2 (by omega)⟩

theorem FibSeq_erase {s : Store K V} {l : List V} {i : Nat} (x : V)
    (h : FibSeq s l i) : FibSeq s (l.erase x) i := by
  induction l generalizing i with
  | nil => trivial
  | cons c l ih =>
    by_cases hc : c = x
    · subst hc
      rw [List.erase_cons_head]
      exact FibSeq_mono h.2 (by omega)
    · rw [List.erase_cons_tail (by simp [hc])]
      exact ⟨h.1, ih h.2⟩

theorem FibSeqX_erase {s : Store K V} {w : V} {l : List V} {i : Nat} (x : V)
    (h : FibSeqX s w l i) : FibSeqX s w (l.erase x) i := by
  induction l generalizing i with
  | nil => trivial
  | cons c l ih =>
    by_cases hc : c = x
    · subst hc
      rw [List.erase_cons_head]
      exact FibSeqX_mono h.2 (by omega)
    · rw [List.erase_cons_tail (by simp [hc])]
      exact ⟨h.1, ih h.2⟩

theorem FibSeq_append_one {s : Store K V} {l : List V} {i : Nat} {y : V}
    (h : FibSeq s l i) (hy : fibCond s y (i + l.length)) :
    FibSeq s (l ++ [y]) i := by
  induction l generalizing i with
  | nil => exact ⟨by simpa using hy, trivial⟩
  | cons c l ih =>
    refine ⟨h.1, ih h.2 ?_⟩
    have : i + 1 + l.length = i + (c :: l).length := by simp; omega
    rw [this]
    exact hy

theorem FibSeq_of_FibSeqX {s : Store K V} {w : V} {l : List V} {i : Nat}
    (h : FibSeqX s w l i) (hw : w ∉ l) : FibSeq s l i := by
  induction l generalizing i with
  | nil => trivial
  | cons c l ih =>
    have hcw : ¬c = w := fun hh => hw (by simp [hh])
    refine ⟨fun cn hcn => ?_, ih h.2 (fun hh => hw (List.mem_cons_of_mem _ hh))⟩
    have := h.1 cn hcn
    simpa [hcw] using this

theorem FibSeqX_of_FibSeq {s : Store K V} (w : V) {l : List V} {i : Nat}
    (h : FibSeq s l i) : FibSeqX s w l i := by
  induction l generalizing i with
  | nil => trivial
  | cons c l ih =>
    refine ⟨fun cn hcn => ?_, ih h.2⟩
    have := h.1 cn hcn
    by_cases hc : c = w <;> simp [hc] <;> omega

theorem FibSeq_congr {s s' : Store K V} {l : List V} {i : Nat}
    (hmem : ∀ c ∈ l, s'.find? c = s.find? c) (h : FibSeq s l i) :
    FibSeq s' l i := by
  induction l generalizing i with
  | nil => trivial
  | cons c l ih =>
    refine ⟨fun cn hcn => ?_, ih (fun c hc => hmem c (List.mem_cons_of_mem _ hc)) h.2⟩
    exact h.1 cn (by rw [← hmem c (List.mem_cons_self c l)]; exact hcn)

theorem FibSeqX_congr {s s' : Store K V} {w : V} {l : List V} {i : Nat}
    (hmem : ∀ c ∈ l, s'.find? c = s.find? c) (h : FibSeqX s w l i) :
    FibSeqX s' w l i := by
  induction l generalizing i with
  | nil => trivial
  | cons c l ih =>
    refine ⟨fun cn hcn => ?_, ih (fun c hc => hmem c (List.mem_cons_of_mem _ hc)) h.2⟩
    exact h.1 cn (by rw [← hmem c (List.mem_cons_self c l)]; exact hcn)

theorem chainToRoot_congr_on {s s' : Store K V} {f : Nat} {v : V} {l : List V}
    (h : chainToRoot s f v = some l)
    (hagree : ∀ w ∈ l, (s'.find? w).map (fun n => n.parent) =
        (s.find? w).map (fun n => n.parent)) :
    chainToRoot s' f v = some l := by
  induction f generalizing v l with
  | zero => simp [chainToRoot_zero] at h
  | succ f ih =>
    rcases hv : s.find? v with _ | n
    · simp [chainToRoot_succ, hv] at h
    · have hvl : v ∈ l := by
        rcases chainToRoot_head h with ⟨t, rfl⟩
        exact List.mem_cons_self v t
      have hva : (s'.find? v).map (fun n => n.parent) = some n.parent := by
        rw [hagree v hvl, hv]
        rfl
      rcases Option.map_eq_some'.1 hva with ⟨n', hn', hpn⟩
      rcases hp : n.parent with _ | p
      · rw [chainToRoot_root hv hp] at h
        simp only [Option.some_inj] at h
        subst h
        exact chainToRoot_root hn' (hp ▸ hpn)
      · rw [chainToRoot_step hv hp] at h
        rcases Option.map_eq_some'.1 h with ⟨t, ht, hvt⟩
        subst hvt
        rw [chainToRoot_step hn' (hp ▸ hpn),
          ih ht (fun w hw => hagree w (List.mem_cons_of_mem _ hw))]
        rfl

theorem Store.ins_fresh_eq_append (s : Store K V) (v : V) (n : FibNode K V)
    (h : v ∉ s.domV) : s.ins v n = s ++ [(v, n)] := by
  induction s with
  | nil => rfl
  | cons e s ih =>
    have h1 : ¬e.1 = v := fun hh => h (by simp [Store.domV, hh])
    have h2 : v ∉ Store.domV s := fun hh => h (by
      simp only [Store.domV, List.map_cons, List.mem_cons]
      exact Or.inr (by simpa [Store.domV] using hh))
    simp only [Store.ins, if_neg h1, List.cons_append]
    rw [ih h2]

theorem insertRoot_of_not_mem {r : List V} {v : V} (h : v ∉ r) :
    insertRoot r v = r ++ [v] := by
  simp [insertRoot, h]

theorem StructWF.childLive {S : Store K V} {R D : List V} (W : StructWF S R D)
    {v : V} {n : FibNode K V} (hv : S.find? v = some n) (hvD : v ∉ D)
    {c : V} (hc : c ∈ n.children) : c ∉ D := by
  intro hcD
  rcases W.childParent v n hv hvD c hc with ⟨cn, hcn, hcp⟩
  have := W.deadParent c hcD cn hcn
  rw [this] at hcp
  cases hcp

theorem HeapWF.new_WF : HeapWF (FibonacciHeap.new K V) := by
  refine ⟨⟨⟨?_, ?_, ?_, ?_, ?_, ?_, ?_, ?_, ?_, ?_, ?_, ?_, ?_, ?_⟩, ?_, ?_⟩, ?_, ?_, ?_⟩ <;>
    simp [FibonacciHeap.new, Store.domV, Store.find?, HeapOrd, FibInv]

/-! ### Preservation: insert -/

theorem MidWF.ins_fresh {S : Store K V} {R : List V} (W : MidWF S R [])
    {v : V} (k : K) (hfresh : v ∉ S.domV) :
    MidWF (S.ins v ⟨k, v, none, [], false⟩) (R ++ [v]) [] := by
  set nd : FibNode K V := ⟨k, v, none, [], false⟩ with hnd
  have hfm : ∀ w, (S.ins v nd).find? w =
      if w = v then some nd else S.find? w := Store.find?_ins S v nd
  have hne : ∀ {w : V}, w ∈ S.domV → ¬w = v := fun hw hh => hfresh (hh ▸ hw)
  have hfind_old : ∀ {w n}, S.find? w = some n → (S.ins v nd).find? w = some n := by
    intro w n hw
    rw [hfm, if_neg (hne (Store.mem_domV_of_find? hw))]
    exact hw
  have hvR : v ∉ R := fun hv => hfresh (W.str.rootsSub v hv)
  have hsplit : ∀ {w n}, (S.ins v nd).find? w = some n →
      (w = v ∧ n = nd) ∨ (¬w = v ∧ S.find? w = some n) := by
    intro w n hw
    rw [hfm] at hw
    by_cases hwv : w = v
    · rw [if_pos hwv] at hw
      exact Or.inl ⟨hwv, by simpa using hw.symm⟩
    · rw [if_neg hwv] at hw
      exact Or.inr ⟨hwv, hw⟩
  refine ⟨⟨?_, ?_, ?_, ?_, ?_, ?_, ?_, ?_, ?_, ?_, ?_, ?_, ?_, ?_⟩, ?_, ?_⟩
  · exact Store.domV_ins_nodup S v nd hfresh W.str.domNodup
  · intro w n hw
    rcases hsplit hw with ⟨rfl, rfl⟩ | ⟨_, hw⟩
    · rfl
    · exact W.str.valEq w n hw
  · intro w hw
    rw [Store.domV_ins_of_fresh S v nd hfresh, List.mem_append] at hw
    have hlen : (S.ins v nd).length = S.length + 1 :=
      Store.length_ins_of_fresh S v nd hfresh
    rcases hw with hw | hw
    · rcases W.str.acyc w hw with ⟨l, hl, hlnd⟩
      refine ⟨l, ?_, hlnd⟩
      rw [hlen]
      refine chainToRoot_mono (chainToRoot_congr_on hl ?_) (by omega)
      intro u hu
      have hud : u ∈ S.domV := chainToRoot_mem_dom hl hu
      rw [hfm, if_neg (hne hud)]
    · simp only [List.mem_singleton] at hw
      subst hw
      refine ⟨[w], ?_, by simp⟩
      rw [hlen]
      exact chainToRoot_root (by rw [hfm, if_pos rfl]) rfl
  · simpa [List.nodup_append] using ⟨W.str.rootsNodup, fun hv => hvR hv⟩
  · intro r hr
    rw [Store.domV_ins_of_fresh S v nd hfresh, List.mem_append]
    rcases List.mem_append.1 hr with hr | hr
    · exact Or.inl (W.str.rootsSub r hr)
    · exact Or.inr hr
  · intro r hr n hn
    rcases List.mem_append.1 hr with hr | hr
    · rcases hsplit hn with ⟨rfl, rfl⟩ | ⟨_, hn⟩
      · rfl
      · exact W.str.rootsParent r hr n hn
    · simp only [List.mem_singleton] at hr
      subst hr
      rcases hsplit hn with ⟨_, rfl⟩ | ⟨hne2, _⟩
      · rfl
      · exact absurd rfl hne2
  · intro r _
    exact List.not_mem_nil r
  · intro z hz
    exact absurd hz (List.not_mem_nil z)
  · intro z hz
    exact absurd hz (List.not_mem_nil z)
  · intro z hz
    exact absurd hz (List.not_mem_nil z)
  · intro w n hw _ hp
    rcases hsplit hw with ⟨rfl, rfl⟩ | ⟨_, hw⟩
    · exact List.mem_append.2 (Or.inr (by simp))
    · exact List.mem_append.2 (Or.inl (W.str.pnr w n hw (List.not_mem_nil w) hp))
  · intro w n hw _ c hc
    rcases hsplit hw with ⟨rfl, rfl⟩ | ⟨_, hw⟩
    · cases hc
    · rcases W.str.childParent w n hw (List.not_mem_nil w) c hc with ⟨cn, hcn, hcp⟩
      exact ⟨cn, hfind_old hcn, hcp⟩
  · intro w n p hw _ hp
    rcases hsplit hw with ⟨rfl, rfl⟩ | ⟨_, hw⟩
    · cases hp
    · rcases W.str.parentChild w n p hw (List.not_mem_nil w) hp with ⟨pn, hpn, hmem⟩
      exact ⟨pn, hfind_old hpn, hmem⟩
  · intro w n hw _
    rcases hsplit hw with ⟨rfl, rfl⟩ | ⟨_, hw⟩
    · simp
    · exact W.str.childrenNodup w n hw (List.not_mem_nil w)
  · intro w n hw _ c hc cn hcn
    rcases hsplit hw with ⟨rfl, rfl⟩ | ⟨hwv, hw⟩
    · cases hc
    · rcases W.str.childParent w n hw (List.not_mem_nil w) c hc with ⟨cn0, hcn0, _⟩
      have : (S.ins v nd).find? c = some cn0 := hfind_old hcn0
      rw [this, Option.some_inj] at hcn
      subst hcn
      exact W.ord w n hw (List.not_mem_nil w) c hc cn0 hcn0
  · intro w n hw _
    rcases hsplit hw with ⟨rfl, rfl⟩ | ⟨_, hw⟩
    · trivial
    · refine FibSeq_congr ?_ (W.fib w n hw (List.not_mem_nil w))
      intro c hc
      rcases W.str.childParent w n hw (List.not_mem_nil w) c hc with ⟨cn, hcn, _⟩
      rw [hfind_old hcn, hcn]

theorem insert_spec {h : FibonacciHeap K V} (W : HeapWF h) (k : K) {v : V}
    (hfresh : v ∉ h.hash_map.domV) :
    ∃ h', insert h k v = some h' ∧ HeapWF h' ∧
      h'.hash_map = h.hash_map.ins v ⟨k, v, none, [], false⟩ ∧
      h'.roots = h.roots ++ [v] ∧
      h'.size = h.size + 1 := by
  set nd : FibNode K V := ⟨k, v, none, [], false⟩ with hnd
  have hfm : ∀ w, (h.hash_map.ins v nd).find? w =
      if w = v then some nd else h.hash_map.find? w := Store.find?_ins h.hash_map v nd
  have hvR : v ∉ h.roots := fun hv => hfresh (W.mid.str.rootsSub v hv)
  have hmid : MidWF (h.hash_map.ins v ⟨k, v, none, [], false⟩)
      (h.roots ++ [v]) [] := W.mid.ins_fresh k hfresh
  have hsz : h.size + 1 = ((h.hash_map.ins v nd).length : Int) := by
    rw [Store.length_ins_of_fresh h.hash_map v nd hfresh, W.sizeEq]
    push_cast
    ring
  rcases hmin : h.min with _ | m
  · -- empty heap: the store must be empty
    have hS : h.hash_map = [] := W.minNone hmin
    have hR : h.roots = [] := by
      refine List.eq_nil_iff_forall_not_mem.2 (fun r hr => ?_)
      have := W.mid.str.rootsSub r hr
      rw [hS] at this
      simp [Store.domV] at this
    refine ⟨{ hash_map := h.hash_map.ins v nd, roots := insertRoot [] v,
              min := some v, size := h.size + 1 }, ?_, ⟨?_, ?_, ?_, ?_⟩, rfl, ?_, rfl⟩
    · simp [insert, hmin]
    · have : insertRoot ([] : List V) v = [] ++ [v] := by simp [insertRoot]
      simpa [this, hR] using hmid
    · intro hc
      simp at hc
    · intro m' hm'
      simp only [Option.some_inj] at hm'
      subst hm'
      constructor
      · simp [insertRoot]
      · intro w n hw
        rw [hfm] at hw
        by_cases hwv : w = v
        · rw [if_pos hwv] at hw
          refine ⟨nd, by rw [hfm, if_pos rfl], ?_⟩
          have : n = nd := by simpa using hw.symm
          subst this
          exact le_refl _
        · rw [if_neg hwv, hS] at hw
          simp [Store.find?] at hw
    · exact hsz
    · simp [insertRoot, hR]
  · -- non-empty heap
    rcases W.minSome m hmin with ⟨hmR, hmLe⟩
    have hmdom : m ∈ h.hash_map.domV := W.mid.str.rootsSub m hmR
    have hmv : ¬m = v := fun hh => hfresh (hh ▸ hmdom)
    rcases hmn : h.hash_map.find? m with _ | mnode
    · rw [Store.find?_eq_none] at hmn
      exact absurd hmdom hmn
    · have hfindm : (h.hash_map.ins v nd).find? m = some mnode := by
        rw [hfm, if_neg hmv]
        exact hmn
      have hstep : insert h k v = some
          { hash_map := h.hash_map.ins v nd,
            roots := insertRoot h.roots v,
            min := if nd.key < mnode.key then some v else h.min,
            size := h.size + 1 } := by
        simp [insert, hmin, hfindm]
      refine ⟨_, hstep, ⟨?_, ?_, ?_, ?_⟩, rfl, ?_, rfl⟩
      · simpa [insertRoot_of_not_mem hvR] using hmid
      · intro hc
        by_cases hlt : nd.key < mnode.key <;> simp [hlt] at hc <;> rw [hmin] at hc <;> cases hc
      · intro m' hm'
        by_cases hlt : nd.key < mnode.key
        · rw [if_pos hlt, Option.some_inj] at hm'
          subst hm'
          constructor
          · rw [insertRoot_of_not_mem hvR]
            simp
          · intro w n hw
            refine ⟨nd, by rw [hfm, if_pos rfl], ?_⟩
            rw [hfm] at hw
            by_cases hwv : w = v
            · rw [if_pos hwv] at hw
              have : n = nd := by simpa using hw.symm
              subst this
              exact le_refl _
            · rw [if_neg hwv] at hw
              rcases hmLe w n hw with ⟨mn, hmn2, hle⟩
              rw [hmn] at hmn2
              have : mn = mnode := by simpa using hmn2.symm
              subst this
              exact le_of_lt (lt_of_lt_of_le hlt hle)
        · rw [if_neg hlt, hmin, Option.some_inj] at hm'
          subst hm'
          constructor
          · rw [insertRoot_of_not_mem hvR]
            exact List.mem_append.2 (Or.inl hmR)
          · intro w n hw
            refine ⟨mnode, hfindm, ?_⟩
            rw [hfm] at hw
            by_cases hwv : w = v
            · rw [if_pos hwv] at hw
              have : n = nd := by simpa using hw.symm
              subst this
              exact le_of_not_lt hlt
            · rw [if_neg hwv] at hw
              rcases hmLe w n hw with ⟨mn, hmn2, hle⟩
              rw [hmn] at hmn2
              have : mn = mnode := by simpa using hmn2.symm
              subst this
              exact hle
      · exact hsz
      · exact insertRoot_of_not_mem hvR

/-! ### Preservation: cut and cascading_cut -/

theorem chainToRoot_unique {s : Store K V} {f f' : Nat} {v : V} {l l' : List V}
    (h : chainToRoot s f v = some l) (h' : chainToRoot s f' v = some l') :
    l = l' := by
  have h1 := chainToRoot_mono h (Nat.le_max_left f f')
  have h2 := chainToRoot_mono h' (Nat.le_max_right f f')
  rw [h1] at h2
  simpa using h2

theorem chain_parent_not_self {s : Store K V} {f : Nat} {x y : V}
    {xn : FibNode K V} {l : List V}
    (hx : s.find? x = some xn) (hxp : xn.parent = some y)
    (hl : chainToRoot s f x = some l) : ¬x = y := by
  intro he
  subst he
  match f with
  | 0 => simp [chainToRoot_zero] at hl
  | f + 1 =>
    have hl2 := hl
    rw [chainToRoot_step hx hxp] at hl2
    rcases Option.map_eq_some'.1 hl2 with ⟨t, ht, hxt⟩
    have hteq : t = l := chainToRoot_unique (chainToRoot_mono ht (Nat.le_succ f)) hl
    have : x :: t = t := hxt.trans hteq.symm
    exact List.cons_ne_self x t this

theorem chain_no_two_cycle {s : Store K V} {f : Nat} {x y : V}
    {xn yn : FibNode K V} {l : List V}
    (hx : s.find? x = some xn) (hxp : xn.parent = some y)
    (hy : s.find? y = some yn) (hyp : yn.parent = some x)
    (hl : chainToRoot s f x = some l) : False := by
  match f with
  | 0 => simp [chainToRoot_zero] at hl
  | 1 =>
    rw [chainToRoot_step hx hxp] at hl
    simp [chainToRoot_zero] at hl
  | f + 2 =>
    have hl2 := hl
    rw [chainToRoot_step hx hxp] at hl2
    rcases Option.map_eq_some'.1 hl2 with ⟨t, ht, hxt⟩
    have ht2 := ht
    rw [chainToRoot_step hy hyp] at ht2
    rcases Option.map_eq_some'.1 ht2 with ⟨t', ht', hyt⟩
    have hteq : t' = l :=
      chainToRoot_unique (chainToRoot_mono ht' (Nat.le_add_right f 2)) hl
    have hcyc : l = x :: y :: l := by
      calc l = x :: t := hxt.symm
      _ = x :: (y :: t') := by rw [← hyt]
      _ = x :: y :: l := by rw [hteq]
    have hlen := congrArg List.length hcyc
    simp only [List.length_cons] at hlen
    omega

theorem HeapOrdX_of_HeapOrd {S : Store K V} {D : List V} (h : HeapOrd S D)
    (py cx : V) : HeapOrdX S D py cx :=
  fun v n hv hvD c hc cn hcn => Or.inr (h v n hv hvD c hc cn hcn)

theorem FibInvX_of_FibInv {S : Store K V} {D : List V} (h : FibInv S D)
    (w : V) : FibInvX S D w :=
  fun v n hv hvD => FibSeqX_of_FibSeq w (h v n hv hvD)

theorem FibSeqX_transfer {S S' : Store K V} {w w' : V} {l : List V} {i : Nat}
    (h : FibSeqX S w l i)
    (htr : ∀ c ∈ l, ∀ j, fibCondX S w c j → fibCondX S' w' c j) :
    FibSeqX S' w' l i := by
  induction l generalizing i with
  | nil => trivial
  | cons c l ih =>
    exact ⟨htr c (List.mem_cons_self c l) i h.1,
      ih h.2 (fun c hc => htr c (List.mem_cons_of_mem _ hc))⟩

theorem cut_hash_map (h : FibonacciHeap K V) (x y : V) :
    (cut h x y).hash_map = cutStore h.hash_map x y := rfl

theorem cut_roots (h : FibonacciHeap K V) (x y : V) :
    (cut h x y).roots = insertRoot h.roots x := rfl

theorem cut_min (h : FibonacciHeap K V) (x y : V) :
    (cut h x y).min = h.min := rfl

theorem cut_size (h : FibonacciHeap K V) (x y : V) :
    (cut h x y).size = h.size := rfl

theorem cutStore_find? {S : Store K V} {x y : V} {xn yn : FibNode K V}
    (hx : S.find? x = some xn) (hy : S.find? y = some yn) (hxy : ¬x = y)
    (w : V) :
    (cutStore S x y).find? w =
      if w = x then some { xn with parent := none, marked := false }
      else if w = y then some { yn with children := yn.children.erase x }
      else S.find? w := by
  by_cases hwx : w = x
  · subst hwx
    simp [cutStore, find?_setMarked, find?_setParent, find?_removeChild, hxy, hx]
  · by_cases hwy : w = y
    · subst hwy
      simp [cutStore, find?_setMarked, find?_setParent, find?_removeChild, hwx, hxy, hy]
    · simp [cutStore, find?_setMarked, find?_setParent, find?_removeChild, hwx, hwy]

theorem cutStore_domV (S : Store K V) (x y : V) :
    (cutStore S x y).domV = S.domV := by
  simp [cutStore, setMarked, setParent, removeChild, Store.domV_upd]

theorem cutStore_length (S : Store K V) (x y : V) :
    (cutStore S x y).length = S.length := by
  simp [cutStore, setMarked, setParent, removeChild, Store.length_upd]

theorem cutStore_keys {S : Store K V} {x y : V} {xn yn : FibNode K V}
    (hx : S.find? x = some xn) (hy : S.find? y = some yn) (hxy : ¬x = y)
    (w : V) :
    ((cutStore S x y).find? w).map (fun n => n.key) =
      (S.find? w).map (fun n => n.key) := by
  rw [cutStore_find? hx hy hxy]
  by_cases hwx : w = x
  · subst hwx
    rw [if_pos rfl, hx]
    rfl
  · rw [if_neg hwx]
    by_cases hwy : w = y
    · subst hwy
      rw [if_pos rfl, hy]
      rfl
    · rw [if_neg hwy]

theorem cutStore_chain {S : Store K V} {x y : V} {xn yn : FibNode K V}
    (hx : S.find? x = some xn) (hy : S.find? y = some yn) (hxy : ¬x = y)
    {f : Nat} {v : V} {l : List V} (hl : chainToRoot S f v = some l) :
    chainToRoot (cutStore S x y) f v = some (upTo x l) := by
  have hpp : ∀ w, ((cutStore S x y).find? w).map (fun n => n.parent) =
      ((setParent S x none).find? w).map (fun n => n.parent) := by
    intro w
    rw [cutStore_find? hx hy hxy, find?_setParent]
    by_cases hwx : w = x
    · subst hwx
      rw [if_pos rfl, if_pos rfl, hx]
      rfl
    · rw [if_neg hwx, if_neg hwx]
      by_cases hwy : w = y
      · subst hwy
        rw [if_pos rfl, hy]
        rfl
      · rw [if_neg hwy]
  rw [chainToRoot_congr hpp]
  exact chainToRoot_setParent_none hl

theorem StructWF.noself {S : Store K V} {R D : List V} (W : StructWF S R D)
    {v : V} {n : FibNode K V} (hv : S.find? v = some n) :
    ¬n.parent = some v := by
  intro hp
  rcases W.acyc v (Store.mem_domV_of_find? hv) with ⟨l, hl, _⟩
  exact (chain_parent_not_self hv hp hl) rfl

theorem cut_context {S : Store K V} {R D : List V} {x y : V}
    {xn yn : FibNode K V} (W : StructWF S R D)
    (hx : S.find? x = some xn) (hxp : xn.parent = some y)
    (hy : S.find? y = some yn) :
    x ∉ D ∧ y ∉ D ∧ ¬x = y ∧ x ∉ R ∧ x ∈ yn.children ∧
      ¬yn.parent = some y ∧ ¬yn.parent = some x := by
  have hxD : x ∉ D := by
    intro hxD
    have := W.deadParent x hxD xn hx
    rw [this] at hxp
    cases hxp
  have hyD : y ∉ D := by
    intro hyD
    exact (W.deadUnref y hyD x xn hx).2 hxp
  have hxy : ¬x = y := by
    rcases W.acyc x (Store.mem_domV_of_find? hx) with ⟨l, hl, _⟩
    exact chain_parent_not_self hx hxp hl
  have hxR : x ∉ R := by
    intro hxR
    have := W.rootsParent x hxR xn hx
    rw [this] at hxp
    cases hxp
  have hxmem : x ∈ yn.children := by
    rcases W.parentChild x xn y hx hxD hxp with ⟨pn, hpn, hmem⟩
    rw [hy] at hpn
    have : pn = yn := by simpa using hpn.symm
    subst this
    exact hmem
  have hyx : ¬yn.parent = some x := by
    intro hyp
    rcases W.acyc x (Store.mem_domV_of_find? hx) with ⟨l, hl, _⟩
    exact chain_no_two_cycle hx hxp hy hyp hl
  exact ⟨hxD, hyD, hxy, hxR, hxmem, W.noself hy, hyx⟩

theorem cut_struct {S : Store K V} {R D : List V} {x y : V}
    {xn yn : FibNode K V} (W : StructWF S R D)
    (hx : S.find? x = some xn) (hxp : xn.parent = some y)
    (hy : S.find? y = some yn) :
    StructWF (cutStore S x y) (insertRoot R x) D := by
  obtain ⟨hxD, hyD, hxy, hxR, hxmem, hySelf, hyx⟩ := cut_context W hx hxp hy
  have hf := cutStore_find? hx hy hxy
  have hxdom : x ∈ S.domV := Store.mem_domV_of_find? hx
  have hR' : insertRoot R x = R ++ [x] := insertRoot_of_not_mem hxR
  have hsplit : ∀ {w n}, (cutStore S x y).find? w = some n →
      (w = x ∧ n = { xn with parent := none, marked := false }) ∨
      (w = y ∧ n = { yn with children := yn.children.erase x }) ∨
      (¬w = x ∧ ¬w = y ∧ S.find? w = some n) := by
    intro w n hw
    rw [hf w] at hw
    by_cases hwx : w = x
    · rw [if_pos hwx] at hw
      exact Or.inl ⟨hwx, by simpa using hw.symm⟩
    · rw [if_neg hwx] at hw
      by_cases hwy : w = y
      · rw [if_pos hwy] at hw
        exact Or.inr (Or.inl ⟨hwy, by simpa using hw.symm⟩)
      · rw [if_neg hwy] at hw
        exact Or.inr (Or.inr ⟨hwx, hwy, hw⟩)
  have hkeep : ∀ {w n}, ¬w = x → ¬w = y → S.find? w = some n →
      (cutStore S x y).find? w = some n := by
    intro w n hwx hwy hw
    rw [hf w, if_neg hwx, if_neg hwy]
    exact hw
  have hc_ne_x : ∀ {v n c}, S.find? v = some n → v ∉ D → c ∈ n.children →
      ¬v = y → ¬c = x := by
    intro v n c hv hvD hc hvy hcx
    subst hcx
    rcases W.childParent v n hv hvD c hc with ⟨cn, hcn, hcp⟩
    rw [hx] at hcn
    have : cn = xn := by simpa using hcn.symm
    subst this
    rw [hxp] at hcp
    exact hvy (by simpa using hcp.symm)
  have hc_ne_y : ∀ {c}, c ∈ yn.children → ¬c = y := by
    intro c hc hcy
    rcases W.childParent y yn hy hyD c hc with ⟨cn, hcn, hcp⟩
    rw [hcy, hy] at hcn
    have : cn = yn := by simpa using hcn.symm
    subst this
    exact hySelf hcp
  refine ⟨?_, ?_, ?_, ?_, ?_, ?_, ?_, ?_, ?_, ?_, ?_, ?_, ?_, ?_⟩
  · rw [cutStore_domV]
    exact W.domNodup
  · intro w n hw
    rcases hsplit hw with ⟨rfl, rfl⟩ | ⟨rfl, rfl⟩ | ⟨_, _, hw⟩
    · simpa using W.valEq w xn hx
    · simpa using W.valEq w yn hy
    · exact W.valEq w n hw
  · intro v hv
    rw [cutStore_domV] at hv
    rcases W.acyc v hv with ⟨l, hl, hnd⟩
    refine ⟨upTo x l, ?_, List.Nodup.sublist (upTo_sublist x l) hnd⟩
    rw [cutStore_length]
    exact cutStore_chain hx hy hxy hl
  · rw [hR']
    simpa [List.nodup_append] using ⟨W.rootsNodup, fun hv => hxR hv⟩
  · intro r hr
    rw [cutStore_domV]
    rw [hR', List.mem_append] at hr
    rcases hr with hr | hr
    · exact W.rootsSub r hr
    · simp only [List.mem_singleton] at hr
      subst hr
      exact hxdom
  · intro r hr n hn
    rcases hsplit hn with ⟨rfl, rfl⟩ | ⟨rfl, rfl⟩ | ⟨hrx, _, hn⟩
    · rfl
    · rw [hR', List.mem_append] at hr
      rcases hr with hr | hr
      · simpa using W.rootsParent r hr yn hy
      · simp only [List.mem_singleton] at hr
        exact absurd hr.symm hxy
    · rw [hR', List.mem_append] at hr
      rcases hr with hr | hr
      · exact W.rootsParent r hr n hn
      · simp only [List.mem_singleton] at hr
        exact absurd hr hrx
  · intro r hr
    rw [hR', List.mem_append] at hr
    rcases hr with hr | hr
    · exact W.rootsLive r hr
    · simp only [List.mem_singleton] at hr
      subst hr
      exact hxD
  · intro z hz
    rw [cutStore_domV]
    exact W.deadSub z hz
  · intro z hz n hn
    rcases hsplit hn with ⟨rfl, rfl⟩ | ⟨rfl, rfl⟩ | ⟨_, _, hn⟩
    · exact absurd hz hxD
    · exact absurd hz hyD
    · exact W.deadParent z hz n hn
  · intro z hz u n hn
    rcases hsplit hn with ⟨rfl, rfl⟩ | ⟨rfl, rfl⟩ | ⟨_, _, hn⟩
    · refine ⟨(W.deadUnref z hz u xn hx).1, ?_⟩
      simp
    · refine ⟨fun hmem => (W.deadUnref z hz u yn hy).1 (List.mem_of_mem_erase hmem), ?_⟩
      exact (W.deadUnref z hz u yn hy).2
    · exact W.deadUnref z hz u n hn
  · intro v n hv hvD hp
    rw [hR']
    rcases hsplit hv with ⟨rfl, rfl⟩ | ⟨rfl, rfl⟩ | ⟨hvx, _, hv⟩
    · simp
    · have : yn.parent = none := hp
      exact List.mem_append.2 (Or.inl (W.pnr v yn hy hvD this))
    · exact List.mem_append.2 (Or.inl (W.pnr v n hv hvD hp))
  · intro v n hv hvD c hc
    rcases hsplit hv with ⟨rfl, rfl⟩ | ⟨rfl, rfl⟩ | ⟨hvx, hvy, hv⟩
    · simp only at hc
      rcases W.childParent v xn hx hvD c hc with ⟨cn, hcn, hcp⟩
      have hcx : ¬c = v := by
        intro hcx
        rw [hcx, hx] at hcn
        have : cn = xn := by simpa using hcn.symm
        subst this
        rw [hxp] at hcp
        exact hxy (by simpa using hcp.symm)
      have hcy : ¬c = y := by
        intro hcy
        rw [hcy, hy] at hcn
        have : cn = yn := by simpa using hcn.symm
        subst this
        exact hyx hcp
      exact ⟨cn, hkeep hcx hcy hcn, hcp⟩
    · simp only at hc
      have hcmem : c ∈ yn.children := List.mem_of_mem_erase hc
      have hcx : ¬c = x := by
        have hnd := W.childrenNodup v yn hy hvD
        intro hcx
        subst hcx
        exact (List.Nodup.not_mem_erase hnd) hc
      have hcy : ¬c = v := hc_ne_y hcmem
      rcases W.childParent v yn hy hvD c hcmem with ⟨cn, hcn, hcp⟩
      exact ⟨cn, hkeep hcx hcy hcn, hcp⟩
    · rcases W.childParent v n hv hvD c hc with ⟨cn, hcn, hcp⟩
      have hcx : ¬c = x := hc_ne_x hv hvD hc hvy
      by_cases hcy : c = y
      · rw [hcy, hy] at hcn
        have hcnyn : cn = yn := by simpa using hcn.symm
        refine ⟨{ yn with children := yn.children.erase x }, ?_, ?_⟩
        · rw [hf c, if_neg hcx, if_pos hcy]
        · simpa [← hcnyn] using hcp
      · exact ⟨cn, hkeep hcx hcy hcn, hcp⟩
  · intro v n p hv hvD hp
    rcases hsplit hv with ⟨rfl, rfl⟩ | ⟨rfl, rfl⟩ | ⟨hvx, hvy, hv⟩
    · cases hp
    · have hp2 : yn.parent = some p := hp
      rcases W.parentChild v yn p hy hvD hp2 with ⟨pn, hpn, hmem⟩
      have hpx : ¬p = x := by
        intro hpx
        rw [hpx] at hp2
        exact hyx hp2
      have hpy : ¬p = v := by
        intro hpy
        rw [hpy] at hp2
        exact hySelf hp2
      exact ⟨pn, hkeep hpx hpy hpn, hmem⟩
    · rcases W.parentChild v n p hv hvD hp with ⟨pn, hpn, hmem⟩
      by_cases hpx : p = x
      · rw [hpx, hx] at hpn
        have hpnxn : pn = xn := by simpa using hpn.symm
        refine ⟨{ xn with parent := none, marked := false }, ?_, ?_⟩
        · rw [hf p, if_pos hpx]
        · simpa [← hpnxn] using hmem
      · by_cases hpy : p = y
        · rw [hpy, hy] at hpn
          have hpnyn : pn = yn := by simpa using hpn.symm
          refine ⟨{ yn with children := yn.children.erase x }, ?_, ?_⟩
          · rw [hf p, if_neg hpx, if_pos hpy]
          · exact (List.mem_erase_of_ne hvx).2 (hpnyn ▸ hmem)
        · exact ⟨pn, hkeep hpx hpy hpn, hmem⟩
  · intro v n hv hvD
    rcases hsplit hv with ⟨rfl, rfl⟩ | ⟨rfl, rfl⟩ | ⟨_, _, hv⟩
    · simpa using W.childrenNodup v xn hx hvD
    · simpa using List.Nodup.erase x (W.childrenNodup v yn hy hvD)
    · exact W.childrenNodup v n hv hvD

theorem cut_ord {S : Store K V} {R D : List V} {x y : V}
    {xn yn : FibNode K V} (W : StructWF S R D)
    (Word : HeapOrdX S D y x)
    (hx : S.find? x = some xn) (hxp : xn.parent = some y)
    (hy : S.find? y = some yn) :
    HeapOrd (cutStore S x y) D := by
  obtain ⟨hxD, hyD, hxy, hxR, hxmem, hySelf, hyx⟩ := cut_context W hx hxp hy
  have hf := cutStore_find? hx hy hxy
  have hkeys := cutStore_keys hx hy hxy
  intro v n hv hvD c hc cn hcn
  have h1 : (S.find? c).map (fun n => n.key) = some cn.key := by
    rw [← hkeys c, hcn]
    rfl
  rcases Option.map_eq_some'.1 h1 with ⟨cn0, hcn0, hkeq⟩
  rw [hf v] at hv
  by_cases hvx : v = x
  · rw [if_pos hvx] at hv
    have hn : n = { xn with parent := none, marked := false } := by simpa using hv.symm
    subst hn
    simp only at hc
    have := Word v xn (hvx ▸ hx) hvD c hc cn0 hcn0
    rcases this with ⟨hvy, _⟩ | hle
    · exact absurd (hvx.symm.trans hvy) (fun hh => hxy hh)
    · simpa [← hkeq] using hle
  · rw [if_neg hvx] at hv
    by_cases hvy : v = y
    · rw [if_pos hvy] at hv
      have hn : n = { yn with children := yn.children.erase x } := by simpa using hv.symm
      subst hn
      simp only at hc
      have hcmem : c ∈ yn.children := List.mem_of_mem_erase hc
      have hcx : ¬c = x := by
        have hnd := W.childrenNodup y yn hy (hvy ▸ hvD)
        intro hcx
        rw [hcx] at hc
        exact (List.Nodup.not_mem_erase hnd) hc
      have := Word v yn (hvy ▸ hy) hvD c hcmem cn0 hcn0
      rcases this with ⟨_, hcx2⟩ | hle
      · exact absurd hcx2 hcx
      · simpa [← hkeq] using hle
    · rw [if_neg hvy] at hv
      have := Word v n hv hvD c hc cn0 hcn0
      rcases this with ⟨hvy2, _⟩ | hle
      · exact absurd hvy2 hvy
      · simpa [← hkeq] using hle

theorem FibSeqX_to_FibSeq {S S' : Store K V} {w : V} {l : List V} {i : Nat}
    (h : FibSeqX S w l i)
    (htr : ∀ c ∈ l, ∀ j, fibCondX S w c j → fibCond S' c j) :
    FibSeq S' l i := by
  induction l generalizing i with
  | nil => trivial
  | cons c l ih =>
    exact ⟨htr c (List.mem_cons_self c l) i h.1,
      ih h.2 (fun c hc => htr c (List.mem_cons_of_mem _ hc))⟩

theorem FibSeq_transfer {S S' : Store K V} {l : List V} {i : Nat}
    (h : FibSeq S l i)
    (htr : ∀ c ∈ l, ∀ j, fibCond S c j → fibCond S' c j) :
    FibSeq S' l i := by
  induction l generalizing i with
  | nil => trivial
  | cons c l ih =>
    exact ⟨htr c (List.mem_cons_self c l) i h.1,
      ih h.2 (fun c hc => htr c (List.mem_cons_of_mem _ hc))⟩

theorem cut_fib {S : Store K V} {R D : List V} {x y : V}
    {xn yn : FibNode K V} (W : StructWF S R D)
    (Wfib : FibInvX S D x)
    (hx : S.find? x = some xn) (hxp : xn.parent = some y)
    (hy : S.find? y = some yn) :
    FibInvX (cutStore S x y) D y := by
  obtain ⟨hxD, hyD, hxy, hxR, hxmem, hySelf, hyx⟩ := cut_context W hx hxp hy
  have hf := cutStore_find? hx hy hxy
  -- transfer of a single member condition, for members that are children
  -- of a live node and distinct from x
  have htr : ∀ {v nv}, S.find? v = some nv → v ∉ D → ∀ c ∈ nv.children, ¬c = x →
      ∀ j, fibCondX S x c j → fibCondX (cutStore S x y) y c j := by
    intro v nv hv hvD c hcmem hcx j hcond cn' hcn'
    rcases W.childParent v nv hv hvD c hcmem with ⟨cn, hcn, hcp⟩
    by_cases hcy : c = y
    · -- the parent `y` loses the child `x`: one unit of slack is exactly
      -- what the new marked state needs
      rw [hf c, if_neg hcx, if_pos hcy] at hcn'
      rw [hcy, hy] at hcn
      have hcnyn : cn = yn := by simpa using hcn.symm
      have hcn'e : cn' = { yn with children := yn.children.erase x } := by
        simpa using hcn'.symm
      have hlen : (yn.children.erase x).length + 1 = yn.children.length :=
        List.length_erase_add_one hxmem
      have := hcond yn (hcy ▸ hy)
      subst hcn'e
      simp only [hcy, if_pos rfl]
      simp only [hcx, if_neg hcx, ite_false, add_zero] at this
      by_cases hm : yn.marked <;> simp [hm] at this ⊢ <;> omega
    · -- a member other than x and y is untouched
      rw [hf c, if_neg hcx, if_neg hcy] at hcn'
      have := hcond cn' hcn'
      simp only [hcx, if_neg hcx, ite_false, add_zero] at this
      by_cases hcyy : c = y
      · exact absurd hcyy hcy
      · simp only [hcyy, if_neg hcyy, ite_false, add_zero]
        omega
  intro v n hv hvD
  rw [hf v] at hv
  by_cases hvx : v = x
  · rw [if_pos hvx] at hv
    have hn : n = { xn with parent := none, marked := false } := by simpa using hv.symm
    subst hn
    simp only
    have hfs : FibSeqX S x xn.children 0 := Wfib x xn hx hxD
    refine FibSeqX_transfer hfs ?_
    intro c hcmem j hcond
    have hcx : ¬c = x := by
      intro hcx
      rcases W.childParent x xn hx hxD c hcmem with ⟨cn, hcn, hcp⟩
      rw [hcx, hx] at hcn
      have : cn = xn := by simpa using hcn.symm
      subst this
      rw [hxp] at hcp
      exact hxy (by simpa using hcp.symm)
    exact htr hx hxD c hcmem hcx j hcond
  · rw [if_neg hvx] at hv
    by_cases hvy : v = y
    · rw [if_pos hvy] at hv
      have hn : n = { yn with children := yn.children.erase x } := by simpa using hv.symm
      subst hn
      simp only
      have hfs : FibSeqX S x yn.children 0 := Wfib y yn hy hyD
      have hfs2 : FibSeqX S x (yn.children.erase x) 0 := FibSeqX_erase x hfs
      refine FibSeqX_transfer hfs2 ?_
      intro c hcmem j hcond
      have hnd := W.childrenNodup y yn hy hyD
      have hcx : ¬c = x := by
        intro hcx
        rw [hcx] at hcmem
        exact (List.Nodup.not_mem_erase hnd) hcmem
      exact htr hy hyD c (List.mem_of_mem_erase hcmem) hcx j hcond
    · rw [if_neg hvy] at hv
      have hfs : FibSeqX S x n.children 0 := Wfib v n hv hvD
      refine FibSeqX_transfer hfs ?_
      intro c hcmem j hcond
      have hcx : ¬c = x := by
        intro hcx
        rcases W.childParent v n hv hvD c hcmem with ⟨cn, hcn, hcp⟩
        rw [hcx, hx] at hcn
        have : cn = xn := by simpa using hcn.symm
        subst this
        rw [hxp] at hcp
        exact hvy (by simpa using hcp.symm)
      exact htr hv hvD c hcmem hcx j hcond

theorem mark_struct {S : Store K V} {R D : List V} (W : StructWF S R D)
    {y : V} {yn : FibNode K V} (hy : S.find? y = some yn) (b : Bool) :
    StructWF (setMarked S y b) R D := by
  have hf : ∀ w, (setMarked S y b).find? w =
      if w = y then some { yn with marked := b } else S.find? w := by
    intro w
    rw [find?_setMarked]
    by_cases hwy : w = y
    · rw [if_pos hwy, if_pos hwy, hy]
      rfl
    · rw [if_neg hwy, if_neg hwy]
  have hsplit : ∀ {w n}, (setMarked S y b).find? w = some n →
      (w = y ∧ n = { yn with marked := b }) ∨ (¬w = y ∧ S.find? w = some n) := by
    intro w n hw
    rw [hf w] at hw
    by_cases hwy : w = y
    · rw [if_pos hwy] at hw
      exact Or.inl ⟨hwy, by simpa using hw.symm⟩
    · rw [if_neg hwy] at hw
      exact Or.inr ⟨hwy, hw⟩
  have hkeep : ∀ {w n}, S.find? w = some n → ∃ n', (setMarked S y b).find? w = some n' ∧
      n'.parent = n.parent ∧ n'.children = n.children ∧ n'.value = n.value := by
    intro w n hw
    by_cases hwy : w = y
    · refine ⟨{ yn with marked := b }, by rw [hf w, if_pos hwy], ?_, ?_, ?_⟩ <;>
        (rw [hwy] at hw; rw [hy] at hw) <;>
        (have : n = yn := by simpa using hw.symm) <;> rw [this]
    · exact ⟨n, by rw [hf w, if_neg hwy]; exact hw, rfl, rfl, rfl⟩
  have hdom : (setMarked S y b).domV = S.domV := by
    simp [setMarked, Store.domV_upd]
  have hchain : ∀ f v l, chainToRoot S f v = some l →
      chainToRoot (setMarked S y b) f v = some l := by
    intro f v l hl
    have hpp : ∀ w, ((setMarked S y b).find? w).map (fun n => n.parent) =
        (S.find? w).map (fun n => n.parent) := by
      intro w
      rw [hf w]
      by_cases hwy : w = y
      · rw [if_pos hwy, hwy, hy]
        rfl
      · rw [if_neg hwy]
    rw [chainToRoot_congr hpp f v]
    exact hl
  refine ⟨?_, ?_, ?_, W.rootsNodup, ?_, ?_, W.rootsLive, ?_, ?_, ?_, ?_, ?_, ?_, ?_⟩
  · rw [hdom]
    exact W.domNodup
  · intro w n hw
    rcases hsplit hw with ⟨rfl, rfl⟩ | ⟨_, hw⟩
    · simpa using W.valEq w yn hy
    · exact W.valEq w n hw
  · intro v hv
    rw [hdom] at hv
    rcases W.acyc v hv with ⟨l, hl, hnd⟩
    refine ⟨l, ?_, hnd⟩
    have hlen : (setMarked S y b).length = S.length := by
      simp [setMarked, Store.length_upd]
    rw [hlen]
    exact hchain _ v l hl
  · intro r hr
    rw [hdom]
    exact W.rootsSub r hr
  · intro r hr n hn
    rcases hsplit hn with ⟨rfl, rfl⟩ | ⟨_, hn⟩
    · simpa using W.rootsParent r hr yn hy
    · exact W.rootsParent r hr n hn
  · intro z hz
    rw [hdom]
    exact W.deadSub z hz
  · intro z hz n hn
    rcases hsplit hn with ⟨rfl, rfl⟩ | ⟨_, hn⟩
    · simpa using W.deadParent z hz yn hy
    · exact W.deadParent z hz n hn
  · intro z hz u n hn
    rcases hsplit hn with ⟨rfl, rfl⟩ | ⟨_, hn⟩
    · simpa using W.deadUnref z hz u yn hy
    · exact W.deadUnref z hz u n hn
  · intro v n hv hvD hpn
    rcases hsplit hv with ⟨rfl, rfl⟩ | ⟨_, hv⟩
    · exact W.pnr v yn hy hvD hpn
    · exact W.pnr v n hv hvD hpn
  · intro v n hv hvD c hc
    rcases hsplit hv with ⟨rfl, rfl⟩ | ⟨_, hv⟩
    · simp only at hc
      rcases W.childParent v yn hy hvD c hc with ⟨cn, hcn, hcp⟩
      rcases hkeep hcn with ⟨cn', hcn', hp', _, _⟩
      exact ⟨cn', hcn', by rw [hp']; exact hcp⟩
    · rcases W.childParent v n hv hvD c hc with ⟨cn, hcn, hcp⟩
      rcases hkeep hcn with ⟨cn', hcn', hp', _, _⟩
      exact ⟨cn', hcn', by rw [hp']; exact hcp⟩
  · intro v n p hv hvD hpn
    rcases hsplit hv with ⟨rfl, rfl⟩ | ⟨_, hv⟩
    · rcases W.parentChild v yn p hy hvD hpn with ⟨pn, hpn2, hmem⟩
      rcases hkeep hpn2 with ⟨pn', hpn', _, hch', _⟩
      exact ⟨pn', hpn', by rw [hch']; exact hmem⟩
    · rcases W.parentChild v n p hv hvD hpn with ⟨pn, hpn2, hmem⟩
      rcases hkeep hpn2 with ⟨pn', hpn', _, hch', _⟩
      exact ⟨pn', hpn', by rw [hch']; exact hmem⟩
  · intro v n hv hvD
    rcases hsplit hv with ⟨rfl, rfl⟩ | ⟨_, hv⟩
    · simpa using W.childrenNodup v yn hy hvD
    · exact W.childrenNodup v n hv hvD

theorem mark_ord {S : Store K V} {D : List V} (Word : HeapOrd S D)
    {y : V} {yn : FibNode K V} (hy : S.find? y = some yn) (b : Bool) :
    HeapOrd (setMarked S y b) D := by
  intro v n hv hvD c hc cn hcn
  rw [find?_setMarked] at hv hcn
  by_cases hvy : v = y
  · rw [if_pos hvy, hy] at hv
    have hn : n = { yn with marked := b } := by simpa using hv.symm
    subst hn
    simp only at hc ⊢
    by_cases hcy : c = y
    · rw [if_pos hcy, hy] at hcn
      have : cn = { yn with marked := b } := by simpa using hcn.symm
      subst this
      exact Word v yn (hvy ▸ hy) hvD c hc yn (hcy ▸ hy)
    · rw [if_neg hcy] at hcn
      exact Word v yn (hvy ▸ hy) hvD c hc cn hcn
  · rw [if_neg hvy] at hv
    by_cases hcy : c = y
    · rw [if_pos hcy, hy] at hcn
      have : cn = { yn with marked := b } := by simpa using hcn.symm
      subst this
      simpa using Word v n hv hvD c hc yn (hcy ▸ hy)
    · rw [if_neg hcy] at hcn
      exact Word v n hv hvD c hc cn hcn

theorem mark_fib {S : Store K V} {D : List V} {y : V} {yn : FibNode K V}
    (Wfib : FibInvX S D y) (hy : S.find? y = some yn)
    (hm : yn.marked = false) :
    FibInv (setMarked S y true) D := by
  intro v n hv hvD
  rw [find?_setMarked] at hv
  have htr : ∀ c, ∀ j, fibCondX S y c j → fibCond (setMarked S y true) c j := by
    intro c j hcond cn' hcn'
    rw [find?_setMarked] at hcn'
    by_cases hcy : c = y
    · rw [if_pos hcy, hy] at hcn'
      have : cn' = { yn with marked := true } := by simpa using hcn'.symm
      subst this
      have := hcond yn (hcy ▸ hy)
      simp only [hcy, if_pos rfl, hm] at this
      simpa using this
    · rw [if_neg hcy] at hcn'
      have := hcond cn' hcn'
      simpa [hcy] using this
  by_cases hvy : v = y
  · rw [if_pos hvy, hy] at hv
    have hn : n = { yn with marked := true } := by simpa using hv.symm
    subst hn
    simp only
    exact FibSeqX_to_FibSeq (Wfib y yn hy (hvy ▸ hvD)) (fun c _ => htr c)
  · rw [if_neg hvy] at hv
    exact FibSeqX_to_FibSeq (Wfib v n hv hvD) (fun c _ => htr c)

theorem cascading_cut_spec {D : List V} (fuel : Nat) :
    ∀ (hp : FibonacciHeap K V) (y : V) (ly : List V),
    StructWF hp.hash_map hp.roots D →
    HeapOrd hp.hash_map D →
    FibInvX hp.hash_map D y →
    y ∉ D →
    chainToRoot hp.hash_map hp.hash_map.length y = some ly →
    ly.length ≤ fuel →
    ∃ hp', cascading_cut fuel hp y = some hp' ∧
      StructWF hp'.hash_map hp'.roots D ∧
      HeapOrd hp'.hash_map D ∧
      FibInv hp'.hash_map D ∧
      hp'.min = hp.min ∧ hp'.size = hp.size ∧
      hp'.hash_map.domV = hp.hash_map.domV ∧
      hp'.hash_map.length = hp.hash_map.length ∧
      (∀ w, (hp'.hash_map.find? w).map (fun n => n.key) =
            (hp.hash_map.find? w).map (fun n => n.key)) ∧
      (∃ rext, hp'.roots = hp.roots ++ rext) := by
  induction fuel with
  | zero =>
    intro hp y ly W Word Wfib hyD hly hlen
    rcases chainToRoot_head hly with ⟨t, rfl⟩
    simp at hlen
  | succ fuel ih =>
    intro hp y ly W Word Wfib hyD hly hlen
    rcases chainToRoot_find? hly with ⟨yn, hy⟩
    rcases hpz : yn.parent with _ | z
    · -- y is a root: nothing happens
      refine ⟨hp, ?_, W, Word, ?_, rfl, rfl, rfl, rfl, fun w => rfl, ⟨[], by simp⟩⟩
      · simp [cascading_cut, hy, hpz]
      · intro v n hv hvD
        refine FibSeq_of_FibSeqX (Wfib v n hv hvD) ?_
        intro hmem
        rcases W.childParent v n hv hvD y hmem with ⟨cn, hcn, hcp⟩
        rw [hy] at hcn
        have : cn = yn := by simpa using hcn.symm
        subst this
        rw [hpz] at hcp
        cases hcp
    · rcases hm : yn.marked with _ | _
      · -- unmarked: mark it and stop
        refine ⟨{ hp with hash_map := setMarked hp.hash_map y true }, ?_, ?_, ?_, ?_,
            rfl, rfl, ?_, ?_, ?_, ⟨[], by simp⟩⟩
        · simp [cascading_cut, hy, hpz, hm]
        · exact mark_struct W hy true
        · exact mark_ord Word hy true
        · exact mark_fib Wfib hy hm
        · simp [setMarked, Store.domV_upd]
        · simp [setMarked, Store.length_upd]
        · intro w
          simp only [find?_setMarked]
          by_cases hwy : w = y
          · rw [if_pos hwy, hwy, hy]
            rfl
          · rw [if_neg hwy]
      · -- marked: cut it from its parent and recurse
        rcases W.parentChild y yn z hy hyD hpz with ⟨zn, hzn, hymem⟩
        obtain ⟨hyD2, hzD, hyz, hyR, _, _, _⟩ := cut_context W hy hpz hzn
        -- chain bookkeeping
        rcases Store.mem_domV_of_find? hy with hydom
        rcases W.acyc y (Store.mem_domV_of_find? hy) with ⟨ly2, hly2, hnd2⟩
        have hlyeq : ly2 = ly := chainToRoot_unique hly2 hly
        subst hlyeq
        rcases hL : hp.hash_map.length with _ | L
        · rw [hL] at hly2
          simp [chainToRoot_zero] at hly2
        · rw [hL] at hly2
          have hstep := hly2
          rw [chainToRoot_step hy hpz] at hstep
          rcases Option.map_eq_some'.1 hstep with ⟨t, ht, hyt⟩
          have hynott : y ∉ t := by
            intro hmem2
            rw [← hyt] at hnd2
            exact (List.nodup_cons.1 hnd2).1 hmem2
          have htlen : t.length + 1 = ly2.length := by
            rw [← hyt]
            simp
          -- the new store and heap after the cut
          have hchain2 : chainToRoot (cutStore hp.hash_map y z)
              (cutStore hp.hash_map y z).length z = some t := by
            rw [cutStore_length, hL]
            have := cutStore_chain hy hzn hyz (chainToRoot_mono ht (Nat.le_succ L))
            rw [upTo_of_not_mem hynott] at this
            exact this
          have W2 := cut_struct W hy hpz hzn
          have Word2 := cut_ord W (HeapOrdX_of_HeapOrd Word z y) hy hpz hzn
          have Wfib2 := cut_fib W Wfib hy hpz hzn
          rcases ih (cut hp y z) z t W2 Word2 Wfib2 hzD hchain2
              (by omega) with
            ⟨hp', heq, W', Word', Wfib', hmin', hsize', hdom', hlen', hkeys', rext, hroots'⟩
          refine ⟨hp', ?_, W', Word', Wfib', ?_, ?_, ?_, ?_, ?_, ?_⟩
          · rw [show cascading_cut (fuel + 1) hp y = cascading_cut fuel (cut hp y z) z by
              simp [cascading_cut, hy, hpz, hm]]
            exact heq
          · rw [hmin', cut_min]
          · rw [hsize', cut_size]
          · rw [hdom', cut_hash_map, cutStore_domV]
          · rw [hlen', cut_hash_map, cutStore_length]
            exact hL
          · intro w
            rw [hkeys' w, cut_hash_map, cutStore_keys hy hzn hyz]
          · refine ⟨[y] ++ rext, ?_⟩
            rw [hroots', cut_roots, insertRoot_of_not_mem hyR]
            simp

/-! ### Preservation: decrease_key -/

theorem setKey_struct {S : Store K V} {R D : List V} (W : StructWF S R D)
    {y : V} {yn : FibNode K V} (hy : S.find? y = some yn) (k : K) :
    StructWF (setKey S y k) R D := by
  have hf : ∀ w, (setKey S y k).find? w =
      if w = y then some { yn with key := k } else S.find? w := by
    intro w
    rw [find?_setKey]
    by_cases hwy : w = y
    · rw [if_pos hwy, if_pos hwy, hy]
      rfl
    · rw [if_neg hwy, if_neg hwy]
  have hsplit : ∀ {w n}, (setKey S y k).find? w = some n →
      (w = y ∧ n = { yn with key := k }) ∨ (¬w = y ∧ S.find? w = some n) := by
    intro w n hw
    rw [hf w] at hw
    by_cases hwy : w = y
    · rw [if_pos hwy] at hw
      exact Or.inl ⟨hwy, by simpa using hw.symm⟩
    · rw [if_neg hwy] at hw
      exact Or.inr ⟨hwy, hw⟩
  have hkeep : ∀ {w n}, S.find? w = some n → ∃ n', (setKey S y k).find? w = some n' ∧
      n'.parent = n.parent ∧ n'.children = n.children ∧ n'.value = n.value := by
    intro w n hw
    by_cases hwy : w = y
    · refine ⟨{ yn with key := k }, by rw [hf w, if_pos hwy], ?_, ?_, ?_⟩ <;>
        (rw [hwy] at hw; rw [hy] at hw) <;>
        (have : n = yn := by simpa using hw.symm) <;> rw [this]
    · exact ⟨n, by rw [hf w, if_neg hwy]; exact hw, rfl, rfl, rfl⟩
  have hdom : (setKey S y k).domV = S.domV := by
    simp [setKey, Store.domV_upd]
  have hchain : ∀ f v l, chainToRoot S f v = some l →
      chainToRoot (setKey S y k) f v = some l := by
    intro f v l hl
    have hpp : ∀ w, ((setKey S y k).find? w).map (fun n => n.parent) =
        (S.find? w).map (fun n => n.parent) := by
      intro w
      rw [hf w]
      by_cases hwy : w = y
      · rw [if_pos hwy, hwy, hy]
        rfl
      · rw [if_neg hwy]
    rw [chainToRoot_congr hpp f v]
    exact hl
  refine ⟨?_, ?_, ?_, W.rootsNodup, ?_, ?_, W.rootsLive, ?_, ?_, ?_, ?_, ?_, ?_, ?_⟩
  · rw [hdom]
    exact W.domNodup
  · intro w n hw
    rcases hsplit hw with ⟨rfl, rfl⟩ | ⟨_, hw⟩
    · simpa using W.valEq w yn hy
    · exact W.valEq w n hw
  · intro v hv
    rw [hdom] at hv
    rcases W.acyc v hv with ⟨l, hl, hnd⟩
    refine ⟨l, ?_, hnd⟩
    have hlen : (setKey S y k).length = S.length := by
      simp [setKey, Store.length_upd]
    rw [hlen]
    exact hchain _ v l hl
  · intro r hr
    rw [hdom]
    exact W.rootsSub r hr
  · intro r hr n hn
    rcases hsplit hn with ⟨rfl, rfl⟩ | ⟨_, hn⟩
    · simpa using W.rootsParent r hr yn hy
    · exact W.rootsParent r hr n hn
  · intro z hz
    rw [hdom]
    exact W.deadSub z hz
  · intro z hz n hn
    rcases hsplit hn with ⟨rfl, rfl⟩ | ⟨_, hn⟩
    · simpa using W.deadParent z hz yn hy
    · exact W.deadParent z hz n hn
  · intro z hz u n hn
    rcases hsplit hn with ⟨rfl, rfl⟩ | ⟨_, hn⟩
    · simpa using W.deadUnref z hz u yn hy
    · exact W.deadUnref z hz u n hn
  · intro v n hv hvD hpn
    rcases hsplit hv with ⟨rfl, rfl⟩ | ⟨_, hv⟩
    · exact W.pnr v yn hy hvD hpn
    · exact W.pnr v n hv hvD hpn
  · intro v n hv hvD c hc
    rcases hsplit hv with ⟨rfl, rfl⟩ | ⟨_, hv⟩
    · simp only at hc
      rcases W.childParent v yn hy hvD c hc with ⟨cn, hcn, hcp⟩
      rcases hkeep hcn with ⟨cn', hcn', hp', _, _⟩
      exact ⟨cn', hcn', by rw [hp']; exact hcp⟩
    · rcases W.childParent v n hv hvD c hc with ⟨cn, hcn, hcp⟩
      rcases hkeep hcn with ⟨cn', hcn', hp', _, _⟩
      exact ⟨cn', hcn', by rw [hp']; exact hcp⟩
  · intro v n p hv hvD hpn
    rcases hsplit hv with ⟨rfl, rfl⟩ | ⟨_, hv⟩
    · rcases W.parentChild v yn p hy hvD hpn with ⟨pn, hpn2, hmem⟩
      rcases hkeep hpn2 with ⟨pn', hpn', _, hch', _⟩
      exact ⟨pn', hpn', by rw [hch']; exact hmem⟩
    · rcases W.parentChild v n p hv hvD hpn with ⟨pn, hpn2, hmem⟩
      rcases hkeep hpn2 with ⟨pn', hpn', _, hch', _⟩
      exact ⟨pn', hpn', by rw [hch']; exact hmem⟩
  · intro v n hv hvD
    rcases hsplit hv with ⟨rfl, rfl⟩ | ⟨_, hv⟩
    · simpa using W.childrenNodup v yn hy hvD
    · exact W.childrenNodup v n hv hvD

theorem setKey_fib {S : Store K V} {D : List V} (Wfib : FibInv S D)
    {y : V} {yn : FibNode K V} (hy : S.find? y = some yn) (k : K) :
    FibInv (setKey S y k) D := by
  intro v n hv hvD
  rw [find?_setKey] at hv
  have htr : ∀ c, ∀ j, fibCond S c j → fibCond (setKey S y k) c j := by
    intro c j hcond cn' hcn'
    rw [find?_setKey] at hcn'
    by_cases hcy : c = y
    · rw [if_pos hcy, hy] at hcn'
      have : cn' = { yn with key := k } := by simpa using hcn'.symm
      subst this
      simpa using hcond yn (hcy ▸ hy)
    · rw [if_neg hcy] at hcn'
      exact hcond cn' hcn'
  by_cases hvy : v = y
  · rw [if_pos hvy, hy] at hv
    have hn : n = { yn with key := k } := by simpa using hv.symm
    subst hn
    simp only
    exact FibSeq_transfer (Wfib y yn hy (hvy ▸ hvD)) (fun c _ => htr c)
  · rw [if_neg hvy] at hv
    exact FibSeq_transfer (Wfib v n hv hvD) (fun c _ => htr c)

theorem decrease_key_spec {h : FibonacciHeap K V} (W : HeapWF h) (v : V) (k : K) :
    ∃ r h', decrease_key h v k = some (r, h') ∧ HeapWF h' ∧
      (r = DKResult.err ↔
        h.hash_map.find? v = none ∨
        ∃ x0, h.hash_map.find? v = some x0 ∧ x0.key < k) ∧
      (r = DKResult.err → h' = h) ∧
      h'.hash_map.domV = h.hash_map.domV ∧
      h'.size = h.size := by
  rcases hv : h.hash_map.find? v with _ | x0
  · refine ⟨.err, h, by simp [decrease_key, hv], W, ?_, fun _ => rfl, rfl, rfl⟩
    simp
  · by_cases hlt : x0.key < k
    · refine ⟨.err, h, by simp [decrease_key, hv, hlt], W, ?_, fun _ => rfl, rfl, rfl⟩
      simp only [true_iff]
      exact Or.inr ⟨x0, rfl, hlt⟩
    · have hk : k ≤ x0.key := le_of_not_lt hlt
      have hvdom : v ∈ h.hash_map.domV := Store.mem_domV_of_find? hv
      set S := h.hash_map with hS
      set R := h.roots with hR
      set xn1 : FibNode K V := { x0 with key := k } with hxn1
      set S1 := setKey S v k with hS1
      have hf1 : ∀ w, S1.find? w = if w = v then some xn1 else S.find? w := by
        intro w
        rw [hS1, find?_setKey]
        by_cases hwv : w = v
        · rw [if_pos hwv, if_pos hwv, hv]
          rfl
        · rw [if_neg hwv, if_neg hwv]
      have hfv1 : S1.find? v = some xn1 := by rw [hf1, if_pos rfl]
      have hkeys1 : ∀ w, ¬w = v → S1.find? w = S.find? w := by
        intro w hwv
        rw [hf1, if_neg hwv]
      have Wstr1 : StructWF S1 R [] := setKey_struct W.mid.str hv k
      have Wfib1 : FibInv S1 [] := setKey_fib W.mid.fib hv k
      have hdom1 : S1.domV = S.domV := by simp [hS1, setKey, Store.domV_upd]
      have hlen1 : S1.length = S.length := by simp [hS1, setKey, Store.length_upd]
      -- the heap is non-empty, so `min` is `some`
      rcases hmin : h.min with _ | m
      · have := W.minNone hmin
        rw [hS, this] at hv
        simp [Store.find?] at hv
      rcases W.minSome m hmin with ⟨hmR, hmLe⟩
      have hmdom : m ∈ S.domV := W.mid.str.rootsSub m hmR
      rcases hfm : S.find? m with _ | mn0
      · rw [Store.find?_eq_none] at hfm
        exact absurd hmdom hfm
      -- general heap-order fact after the key write
      have hord_pairs : ∀ w n, S1.find? w = some n → ∀ c ∈ n.children, ∀ cn,
          S1.find? c = some cn → (c = v ∧ n.key ≤ x0.key) ∨ n.key ≤ cn.key := by
        intro w n hw c hc cn hcn
        rw [hf1 w] at hw
        by_cases hwv : w = v
        · rw [if_pos hwv] at hw
          have hn : n = xn1 := by simpa using hw.symm
          subst hn
          simp only [hxn1] at hc ⊢
          have hcv : ¬c = v := by
            intro hcv
            rcases W.mid.str.childParent w x0 (hwv ▸ hv) (List.not_mem_nil w) c hc
              with ⟨cn2, hcn2, hcp2⟩
            rw [hcv, hv] at hcn2
            have : cn2 = x0 := by simpa using hcn2.symm
            subst this
            exact W.mid.str.noself hv (hwv ▸ hcp2)
          rw [hkeys1 c hcv] at hcn
          refine Or.inr (le_trans hk ?_)
          exact W.mid.ord w x0 (hwv ▸ hv) (List.not_mem_nil w) c hc cn hcn
        · rw [if_neg hwv] at hw
          by_cases hcv : c = v
          · exact Or.inl ⟨hcv, by
              have := W.mid.ord w n hw (List.not_mem_nil w) c hc x0 (hcv ▸ hv)
              exact this⟩
          · rw [hkeys1 c hcv] at hcn
            exact Or.inr (W.mid.ord w n hw (List.not_mem_nil w) c hc cn hcn)
      rcases hp0 : x0.parent with _ | yv
      · -- the target is a root: no cut happens
        have Word1 : HeapOrd S1 [] := by
          intro w n hw hwD c hc cn hcn
          rcases hord_pairs w n hw c hc cn hcn with ⟨hcv, _⟩ | hle
          · exfalso
            rcases Wstr1.childParent w n hw hwD c hc with ⟨cn2, hcn2, hcp2⟩
            rw [hcv, hfv1] at hcn2
            have : cn2 = xn1 := by simpa using hcn2.symm
            subst this
            simp only [hxn1, hp0] at hcp2
            cases hcp2
          · exact hle
        have hmv : m = v ∨ ¬m = v := em _
        -- node the comparison reads for the current minimum
        rcases hfm1 : S1.find? m with _ | mn1
        · rw [hf1 m] at hfm1
          by_cases hmveq : m = v
          · rw [if_pos hmveq] at hfm1
            cases hfm1
          · rw [if_neg hmveq, hfm] at hfm1
            cases hfm1
        have heq : decrease_key h v k =
            some (if k < mn1.key then (DKResult.ok, { h with hash_map := S1, min := some v })
                  else (DKResult.ok, { h with hash_map := S1 })) := by
          simp only [decrease_key, hv, hlt, if_neg hlt, hp0, hmin]
          rw [show setKey h.hash_map v k = S1 from rfl]
          simp only [Option.bind_eq_bind, Option.some_bind, hfm1, hfv1]
          rfl
        by_cases hklt : k < mn1.key
        · rw [if_pos hklt] at heq
          refine ⟨.ok, _, heq, ⟨⟨Wstr1, Word1, Wfib1⟩, ?_, ?_, ?_⟩,
            by simp [hv]; exact hk, by simp, ?_, ?_⟩
          · intro hc
            simp at hc
          · intro m2 hm2
            simp only [Option.some_inj] at hm2
            rw [← hm2]
            constructor
            · exact Wstr1.pnr v xn1 hfv1 (List.not_mem_nil v) (by simp [hxn1, hp0])
            · intro w n hw
              refine ⟨xn1, hfv1, ?_⟩
              rw [hf1 w] at hw
              by_cases hwv : w = v
              · rw [if_pos hwv] at hw
                have : n = xn1 := by simpa using hw.symm
                subst this
                exact le_refl _
              · rw [if_neg hwv] at hw
                rcases hmLe w n hw with ⟨mn3, hmn3, hle3⟩
                rw [hfm] at hmn3
                have h33 : mn3 = mn0 := by simpa using hmn3.symm
                rw [h33] at hle3
                -- mn1 is mn0 unless m = v
                by_cases hmveq : m = v
                · rw [hmveq, hv] at hfm
                  have h00 : x0 = mn0 := by simpa using hfm
                  simp only [hxn1]
                  exact le_trans hk (h00 ▸ hle3)
                · rw [hf1 m, if_neg hmveq, hfm] at hfm1
                  have h10 : mn1 = mn0 := by simpa using hfm1.symm
                  rw [h10] at hklt
                  simp only [hxn1]
                  exact le_of_lt (lt_of_lt_of_le hklt hle3)
          · simpa using W.sizeEq.trans (by rw [← hlen1])
          · simpa using hdom1
          · simpa using W.sizeEq.trans (by rw [← hlen1, ← W.sizeEq])
        · rw [if_neg hklt] at heq
          refine ⟨.ok, _, heq, ⟨⟨Wstr1, Word1, Wfib1⟩, ?_, ?_, ?_⟩,
            by simp [hv]; exact hk, by simp, ?_, ?_⟩
          · intro hc
            simp only at hc
            rw [hmin] at hc
            cases hc
          · intro m2 hm2
            simp only at hm2
            rw [hmin, Option.some_inj] at hm2
            subst hm2
            refine ⟨hmR, ?_⟩
            intro w n hw
            refine ⟨mn1, hfm1, ?_⟩
            rw [hf1 w] at hw
            by_cases hwv : w = v
            · rw [if_pos hwv] at hw
              have : n = xn1 := by simpa using hw.symm
              subst this
              simpa [hxn1] using le_of_not_lt hklt
            · rw [if_neg hwv] at hw
              rcases hmLe w n hw with ⟨mn3, hmn3, hle3⟩
              rw [hfm] at hmn3
              have h33 : mn3 = mn0 := by simpa using hmn3.symm
              rw [h33] at hle3
              by_cases hmveq : m = v
              · rw [hf1 m, if_pos hmveq] at hfm1
                have h1x : mn1 = xn1 := by simpa using hfm1.symm
                rw [hmveq, hv] at hfm
                have h00 : x0 = mn0 := by simpa using hfm
                rw [h1x]
                simp only [hxn1]
                exact le_trans hk (h00 ▸ hle3)
              · rw [hf1 m, if_neg hmveq, hfm] at hfm1
                have h10 : mn1 = mn0 := by simpa using hfm1.symm
                rw [h10]
                exact hle3
          · simpa using W.sizeEq.trans (by rw [← hlen1])
          · simpa using hdom1
          · simpa using W.sizeEq.trans (by rw [← hlen1, ← W.sizeEq])
      · -- the target has a parent
        have hyvv : ¬yv = v := by
          intro he
          rw [he] at hp0
          exact W.mid.str.noself hv hp0
        rcases W.mid.str.parentChild v x0 yv hv (List.not_mem_nil v) hp0
          with ⟨yn0, hy0, hvmem⟩
        have hfy1 : S1.find? yv = some yn0 := by
          rw [hkeys1 yv hyvv]
          exact hy0
        have hxp1 : xn1.parent = some yv := by simp [hxn1, hp0]
        have hmv : ¬m = v := by
          intro he
          have := W.mid.str.rootsParent m hmR x0 (by rw [he]; exact hv)
          rw [this] at hp0
          cases hp0
        have hfm1 : S1.find? m = some mn0 := by
          rw [hkeys1 m hmv]
          exact hfm
        have hvyne : ¬v = yv := fun he => hyvv he.symm
        have hvR : v ∉ R := by
          intro hvR
          have := W.mid.str.rootsParent v hvR x0 hv
          rw [this] at hp0
          cases hp0
        by_cases hylt : k < yn0.key
        · -- violation: cut v from yv and cascade
          have Wstr2 := cut_struct Wstr1 hfv1 hxp1 hfy1
          have Wordx : HeapOrdX S1 [] yv v := by
            intro w n hw hwD c hc cn hcn
            rcases hord_pairs w n hw c hc cn hcn with ⟨hcv, _⟩ | hle
            · left
              refine ⟨?_, hcv⟩
              rcases Wstr1.childParent w n hw hwD c hc with ⟨cn2, hcn2, hcp2⟩
              rw [hcv, hfv1] at hcn2
              have : cn2 = xn1 := by simpa using hcn2.symm
              subst this
              rw [hxp1] at hcp2
              simpa using hcp2.symm
            · exact Or.inr hle
          have Word2 := cut_ord Wstr1 Wordx hfv1 hxp1 hfy1
          have Wfib2 := cut_fib Wstr1 (FibInvX_of_FibInv Wfib1 v) hfv1 hxp1 hfy1
          rcases Wstr1.acyc yv (by rw [hdom1]; exact Store.mem_domV_of_find? hy0)
            with ⟨lyv, hlyv, hndyv⟩
          have hvchain : v ∉ lyv := by
            intro hvm
            have hcv2 : chainToRoot S1 (lyv.length + 1) v = some (v :: lyv) := by
              rw [chainToRoot_step hfv1 hxp1, chainToRoot_min_fuel hlyv]
              rfl
            rcases Wstr1.acyc v (by rw [hdom1]; exact hvdom) with ⟨lv, hlv, hndv⟩
            have hveq : v :: lyv = lv := chainToRoot_unique hcv2 hlv
            rw [← hveq] at hndv
            exact (List.nodup_cons.1 hndv).1 hvm
          have hchainc : chainToRoot (cutStore S1 v yv)
              (cutStore S1 v yv).length yv = some lyv := by
            rw [cutStore_length]
            have := cutStore_chain hfv1 hfy1 hvyne hlyv
            rw [upTo_of_not_mem hvchain] at this
            exact this
          have hlena : lyv.length ≤ S1.length := chainToRoot_length_le hlyv
          obtain ⟨hp', heqcc, W', Word', Wfib', hmin', hsize', hdom', hlen', hkeys',
              rext, hroots'⟩ :=
            cascading_cut_spec (D := []) S1.length
              (cut { h with hash_map := S1 } v yv) yv lyv
              Wstr2 Word2 Wfib2 (List.not_mem_nil yv) hchainc hlena
          have hmin2 : hp'.min = some m := by
            rw [hmin', cut_min]
            exact hmin
          have hsize2 : hp'.size = h.size := by
            rw [hsize', cut_size]
          have hdom2 : hp'.hash_map.domV = S.domV := by
            rw [hdom', cut_hash_map, cutStore_domV, hdom1]
          have hlen2 : hp'.hash_map.length = S.length := by
            rw [hlen', cut_hash_map, cutStore_length, hlen1]
          have hkeyw : ∀ w, (hp'.hash_map.find? w).map (fun n => n.key) =
              (S1.find? w).map (fun n => n.key) := by
            intro w
            rw [hkeys' w, cut_hash_map, cutStore_keys hfv1 hfy1 hvyne]
          have hkey_v : (hp'.hash_map.find? v).map (fun n => n.key) = some k := by
            rw [hkeyw v, hfv1]
            rfl
          have hkey_m : (hp'.hash_map.find? m).map (fun n => n.key) = some mn0.key := by
            rw [hkeyw m, hfm1]
            rfl
          rcases hfv2 : hp'.hash_map.find? v with _ | xn2
          · rw [hfv2] at hkey_v
            cases hkey_v
          rcases hfm2 : hp'.hash_map.find? m with _ | mn2
          · rw [hfm2] at hkey_m
            cases hkey_m
          have hxk : xn2.key = k := by
            rw [hfv2] at hkey_v
            simpa using hkey_v
          have hmk : mn2.key = mn0.key := by
            rw [hfm2] at hkey_m
            simpa using hkey_m
          have hR2 : hp'.roots = (R ++ [v]) ++ rext := by
            rw [hroots', cut_roots, insertRoot_of_not_mem hvR]
          have heq : decrease_key h v k =
              some (if k < mn2.key then (DKResult.ok, { hp' with min := some v })
                    else (DKResult.ok, hp')) := by
            simp only [decrease_key, hv, if_neg hlt, hp0, Option.bind_eq_bind,
              Option.some_bind, hfv1, hfy1]
            rw [if_pos (show xn1.key < yn0.key from hylt)]
            rw [show cascading_cut (setKey h.hash_map v k).length
                (cut { h with hash_map := setKey h.hash_map v k } v yv) yv =
                some hp' from heqcc]
            simp only [Option.some_bind, hmin2, hfm2, hfv2]
            rw [hxk]
          -- the common minimum-ordering fact
          have hLeAll : ∀ w n, hp'.hash_map.find? w = some n →
              (w = v ∧ n.key = k) ∨ (¬w = v ∧ ∃ n0, S.find? w = some n0 ∧ n.key = n0.key) := by
            intro w n hw
            by_cases hwv : w = v
            · left
              refine ⟨hwv, ?_⟩
              rw [hwv, hfv2] at hw
              have : n = xn2 := by simpa using hw.symm
              rw [this, hxk]
            · right
              refine ⟨hwv, ?_⟩
              have := hkeyw w
              rw [hw, hkeys1 w hwv] at this
              rcases hfw : S.find? w with _ | n0
              · rw [hfw] at this
                cases this
              · rw [hfw] at this
                exact ⟨n0, rfl, by simpa using this⟩
          by_cases hklt2 : k < mn2.key
          · rw [if_pos hklt2] at heq
            refine ⟨.ok, _, heq, ⟨⟨W', Word', Wfib'⟩, ?_, ?_, ?_⟩,
              by simp [hv]; exact hk, by simp, ?_, ?_⟩
            · intro hc
              simp at hc
            · intro m2 hm2
              simp only [Option.some_inj] at hm2
              rw [← hm2]
              constructor
              · simp only [hR2]
                exact List.mem_append.2 (Or.inl (List.mem_append.2 (Or.inr (by simp))))
              · intro w n hw
                refine ⟨xn2, hfv2, ?_⟩
                rw [hxk]
                rcases hLeAll w n hw with ⟨_, hk2⟩ | ⟨hwv, n0, hn0, hk2⟩
                · rw [hk2]
                · rcases hmLe w n0 hn0 with ⟨mn3, hmn3, hle3⟩
                  rw [hfm] at hmn3
                  have h33 : mn3 = mn0 := by simpa using hmn3.symm
                  rw [h33] at hle3
                  rw [hk2]
                  exact le_of_lt (lt_of_lt_of_le hklt2 (by rw [hmk]; exact hle3))
            · simp only
              rw [hsize2, hlen2, W.sizeEq]
            · simpa using hdom2
            · simpa using hsize2
          · rw [if_neg hklt2] at heq
            refine ⟨.ok, _, heq, ⟨⟨W', Word', Wfib'⟩, ?_, ?_, ?_⟩,
              by simp [hv]; exact hk, by simp, ?_, ?_⟩
            · intro hc
              rw [hmin2] at hc
              cases hc
            · intro m2 hm2
              rw [hmin2, Option.some_inj] at hm2
              rw [← hm2]
              constructor
              · simp only [hR2]
                exact List.mem_append.2 (Or.inl (List.mem_append.2 (Or.inl hmR)))
              · intro w n hw
                refine ⟨mn2, hfm2, ?_⟩
                rcases hLeAll w n hw with ⟨_, hk2⟩ | ⟨hwv, n0, hn0, hk2⟩
                · rw [hk2]
                  exact le_of_not_lt hklt2
                · rcases hmLe w n0 hn0 with ⟨mn3, hmn3, hle3⟩
                  rw [hfm] at hmn3
                  have h33 : mn3 = mn0 := by simpa using hmn3.symm
                  rw [h33] at hle3
                  rw [hk2, hmk]
                  exact hle3
            · rw [hsize2, hlen2, W.sizeEq]
            · exact hdom2
            · exact hsize2
        · -- no violation: the parent key is still at most the new key
          have hyk : yn0.key ≤ k := le_of_not_lt hylt
          have Word1 : HeapOrd S1 [] := by
            intro w n hw hwD c hc cn hcn
            rcases hord_pairs w n hw c hc cn hcn with ⟨hcv, _⟩ | hle
            · rcases Wstr1.childParent w n hw hwD c hc with ⟨cn2, hcn2, hcp2⟩
              rw [hcv, hfv1] at hcn2
              have : cn2 = xn1 := by simpa using hcn2.symm
              subst this
              rw [hxp1] at hcp2
              have hwyv : yv = w := by simpa using hcp2
              rw [← hwyv, hfy1] at hw
              have hn : n = yn0 := by simpa using hw.symm
              rw [hcv, hfv1] at hcn
              have hcc : cn = xn1 := by simpa using hcn.symm
              rw [hn, hcc]
              exact hyk
            · exact hle
          have hm0y : mn0.key ≤ yn0.key := by
            rcases hmLe yv yn0 hy0 with ⟨mn3, hmn3, hle3⟩
            rw [hfm] at hmn3
            have h33 : mn3 = mn0 := by simpa using hmn3.symm
            rw [h33] at hle3
            exact hle3
          have hnotlt : ¬k < mn0.key := by
            intro hcon
            exact absurd (lt_of_lt_of_le hcon (le_trans hm0y hyk)) (lt_irrefl k)
          have heq : decrease_key h v k = some (DKResult.ok, { h with hash_map := S1 }) := by
            simp only [decrease_key, hv, if_neg hlt, hp0, Option.bind_eq_bind,
              Option.some_bind, hfv1, hfy1]
            rw [if_neg (show ¬xn1.key < yn0.key from hylt)]
            simp only [Option.some_bind, hmin, hfm1, hfv1]
            rw [if_neg (show ¬xn1.key < mn0.key from hnotlt)]
          refine ⟨.ok, _, heq, ⟨⟨Wstr1, Word1, Wfib1⟩, ?_, ?_, ?_⟩,
            by simp [hv]; exact hk, by simp, ?_, ?_⟩
          · intro hc
            simp only at hc
            rw [hmin] at hc
            cases hc
          · intro m2 hm2
            simp only at hm2
            rw [hmin, Option.some_inj] at hm2
            rw [← hm2]
            refine ⟨hmR, ?_⟩
            intro w n hw
            refine ⟨mn0, hfm1, ?_⟩
            rw [hf1 w] at hw
            by_cases hwv : w = v
            · rw [if_pos hwv] at hw
              have : n = xn1 := by simpa using hw.symm
              rw [this]
              simpa [hxn1] using le_trans hm0y hyk
            · rw [if_neg hwv] at hw
              rcases hmLe w n hw with ⟨mn3, hmn3, hle3⟩
              rw [hfm] at hmn3
              have h33 : mn3 = mn0 := by simpa using hmn3.symm
              rw [h33] at hle3
              exact hle3
          · simpa using W.sizeEq.trans (by rw [← hlen1])
          · simpa using hdom1
          · simpa using W.sizeEq.trans (by rw [← hlen1, ← W.sizeEq])

theorem suffix_total {α : Type} {l s1 s2 : List α}
    (h1 : s1 <:+ l) (h2 : s2 <:+ l) : s1 <:+ s2 ∨ s2 <:+ s1 := by
  rcases h1 with ⟨t1, ht1⟩
  rcases h2 with ⟨t2, ht2⟩
  have hd1 : l.drop t1.length = s1 := by rw [← ht1, List.drop_left]
  have hd2 : l.drop t2.length = s2 := by rw [← ht2, List.drop_left]
  rcases le_total t1.length t2.length with hle | hle
  · right
    rw [← hd1, ← hd2]
    have : l.drop t2.length = (l.drop t1.length).drop (t2.length - t1.length) := by
      rw [List.drop_drop]
      congr 1
      omega
    rw [this]
    exact List.drop_suffix _ _
  · left
    rw [← hd1, ← hd2]
    have : l.drop t1.length = (l.drop t2.length).drop (t1.length - t2.length) := by
      rw [List.drop_drop]
      congr 1
      omega
    rw [this]
    exact List.drop_suffix _ _

theorem chainL_spec {S : Store K V} {R D : List V} (W : StructWF S R D)
    {v : V} (hv : v ∈ S.domV) :
    chainToRoot S S.length v = some (chainL S v) ∧ (chainL S v).Nodup := by
  rcases W.acyc v hv with ⟨l, hl, hnd⟩
  rw [chainL, hl]
  exact ⟨rfl, hnd⟩

theorem chainL_suffix {S : Store K V} {R D : List V} (W : StructWF S R D)
    {u w : V} (hu : u ∈ S.domV) (hw : w ∈ chainL S u) :
    (chainL S w) <:+ (chainL S u) ∧ w ∈ S.domV := by
  rcases chainL_spec W hu with ⟨hl, _⟩
  have hwdom : w ∈ S.domV := chainToRoot_mem_dom hl hw
  rcases chainToRoot_mem_suffix hl hw with ⟨pre, suf, hsplit, hcw⟩
  have hsufle : suf.length + 1 ≤ S.length := by
    have := chainToRoot_length_le hl
    rw [hsplit] at this
    simp at this
    omega
  rcases chainL_spec W hwdom with ⟨hlw, _⟩
  have : chainL S w = w :: suf :=
    chainToRoot_unique hlw (chainToRoot_mono hcw hsufle)
  rw [this, hsplit]
  exact ⟨⟨pre, rfl⟩, hwdom⟩

theorem chainL_child {S : Store K V} {R D : List V} (W : StructWF S R D)
    {v c : V} {cn : FibNode K V} (hc : S.find? c = some cn)
    (hcp : cn.parent = some v) (hvdom : v ∈ S.domV) :
    chainL S c = c :: chainL S v := by
  rcases chainL_spec W (Store.mem_domV_of_find? hc) with ⟨hlc, _⟩
  rcases chainL_spec W hvdom with ⟨hlv, _⟩
  rcases hL : S.length with _ | L
  · rw [hL] at hlc
    simp [chainToRoot_zero] at hlc
  · rw [hL] at hlc hlv
    rw [chainToRoot_step hc hcp] at hlc
    rcases Option.map_eq_some'.1 hlc with ⟨t, ht, hct⟩
    have : t = chainL S v :=
      chainToRoot_unique (chainToRoot_mono ht (Nat.le_succ L)) hlv
    rw [← hct, this]

theorem mem_subtree_self {S : Store K V} {R D : List V} (W : StructWF S R D)
    {v : V} (hv : v ∈ S.domV) : v ∈ subtreeF S v := by
  rcases chainL_spec W hv with ⟨hl, _⟩
  rcases chainToRoot_head hl with ⟨t, ht⟩
  rw [subtreeF, Finset.mem_filter]
  refine ⟨List.mem_toFinset.2 hv, ?_⟩
  rw [ht]
  exact List.mem_cons_self v t

theorem subtree_child_sub {S : Store K V} {R D : List V} (W : StructWF S R D)
    {v c : V} {cn : FibNode K V} (hc : S.find? c = some cn)
    (hcp : cn.parent = some v) (hvdom : v ∈ S.domV) :
    subtreeF S c ⊆ (subtreeF S v).erase v := by
  intro u hu
  rw [subtreeF, Finset.mem_filter] at hu
  rcases hu with ⟨hudom, hcu⟩
  have hchains := chainL_suffix W (List.mem_toFinset.1 hudom) hcu
  have hch : chainL S c = c :: chainL S v := chainL_child W hc hcp hvdom
  rcases chainL_spec W (Store.mem_domV_of_find? hc) with ⟨_, hndc⟩
  rw [Finset.mem_erase]
  constructor
  · -- u ≠ v since otherwise c would lie on the chain of v, but the chain
    -- of c is c followed by the chain of v, contradicting nodup
    intro hue
    subst hue
    rw [hch] at hndc
    exact (List.nodup_cons.1 hndc).1 hcu
  · rw [subtreeF, Finset.mem_filter]
    refine ⟨hudom, ?_⟩
    rcases hchains.1 with ⟨pre, hpre⟩
    rcases chainL_spec W hvdom with ⟨hlv, _⟩
    rcases chainToRoot_head hlv with ⟨tv, htv⟩
    rw [← hpre, hch, htv]
    exact List.mem_append.2 (Or.inr (List.mem_cons_of_mem c
      (List.mem_cons_self v tv)))

theorem subtree_child_disjoint {S : Store K V} {R D : List V} (W : StructWF S R D)
    {v c c' : V} {cn cn' : FibNode K V}
    (hc : S.find? c = some cn) (hcp : cn.parent = some v)
    (hc' : S.find? c' = some cn') (hcp' : cn'.parent = some v)
    (hvdom : v ∈ S.domV) (hne : c ≠ c') :
    Disjoint (subtreeF S c) (subtreeF S c') := by
  rw [Finset.disjoint_left]
  intro u hu hu'
  rw [subtreeF, Finset.mem_filter] at hu hu'
  rcases hu with ⟨hudom, hcu⟩
  rcases hu' with ⟨_, hcu'⟩
  have hs1 := (chainL_suffix W (List.mem_toFinset.1 hudom) hcu).1
  have hs2 := (chainL_suffix W (List.mem_toFinset.1 hudom) hcu').1
  have hch : chainL S c = c :: chainL S v := chainL_child W hc hcp hvdom
  have hch' : chainL S c' = c' :: chainL S v := chainL_child W hc' hcp' hvdom
  rcases chainL_spec W (Store.mem_domV_of_find? hc) with ⟨_, hndc⟩
  rcases chainL_spec W (Store.mem_domV_of_find? hc') with ⟨_, hndc'⟩
  rcases suffix_total hs1 hs2 with hs | hs
  · -- chain of c is a suffix of chain of c'
    have : c ∈ chainL S c' := hs.subset (by rw [hch]; exact List.mem_cons_self _ _)
    rw [hch'] at this
    rcases List.mem_cons.1 this with he | hmem
    · exact hne he
    · rw [hch] at hndc
      have : c ∈ chainL S c := by rw [hch]; exact List.mem_cons_self _ _
      exact (List.nodup_cons.1 hndc).1 hmem
  · have : c' ∈ chainL S c := hs.subset (by rw [hch']; exact List.mem_cons_self _ _)
    rw [hch] at this
    rcases List.mem_cons.1 this with he | hmem
    · exact hne he.symm
    · rw [hch'] at hndc'
      exact (List.nodup_cons.1 hndc').1 hmem

theorem dead_not_subtree {S : Store K V} {R D : List V} (W : StructWF S R D)
    {z v : V} (hz : z ∈ D) (hvD : v ∉ D) : z ∉ subtreeF S v := by
  intro hmem
  rw [subtreeF, Finset.mem_filter] at hmem
  rcases hmem with ⟨hzdom, hvz⟩
  rcases hfz : S.find? z with _ | nz
  · rw [Store.find?_eq_none] at hfz
    exact hfz (List.mem_toFinset.1 hzdom)
  · have hzp := W.deadParent z hz nz hfz
    rcases chainL_spec W (List.mem_toFinset.1 hzdom) with ⟨hlz, _⟩
    rcases hL : S.length with _ | L
    · rw [hL] at hlz
      simp [chainToRoot_zero] at hlz
    · rw [hL] at hlz
      rw [chainToRoot_root hfz hzp] at hlz
      have : chainL S z = [z] := by simpa using hlz.symm
      rw [this] at hvz
      simp only [List.mem_singleton] at hvz
      exact hvD (hvz ▸ hz)

theorem subtree_card_le {S : Store K V} {R D : List V} (W : StructWF S R D)
    {z v : V} (hz : z ∈ D) (hvD : v ∉ D) :
    (subtreeF S v).card + 1 ≤ S.length := by
  have hzdom : z ∈ S.domV := W.deadSub z hz
  have hsub : subtreeF S v ⊆ S.domV.toFinset.erase z := by
    intro u hu
    rw [Finset.mem_erase]
    refine ⟨?_, (Finset.mem_filter.1 hu).1⟩
    intro he
    subst he
    exact dead_not_subtree W hz hvD hu
  have h1 := Finset.card_le_card hsub
  have h2 : (S.domV.toFinset.erase z).card + 1 = S.domV.toFinset.card :=
    Finset.card_erase_add_one (List.mem_toFinset.2 hzdom)
  have h3 : S.domV.toFinset.card = S.domV.length :=
    List.toFinset_card_of_nodup W.domNodup
  rw [← Store.length_eq_domV_length] at h3
  omega

theorem FibSeq_get {S : Store K V} : ∀ {l : List V} {i : Nat}, FibSeq S l i →
    ∀ j (hj : j < l.length), fibCond S (l.get ⟨j, hj⟩) (i + j)
  | [], _, _, j, hj => absurd hj (by simp)
  | c :: t, i, h, 0, hj => by simpa using h.1
  | c :: t, i, h, j + 1, hj => by
    have hj' : j < t.length := Nat.lt_of_succ_lt_succ hj
    have h2 := FibSeq_get h.2 j hj'
    have he : i + 1 + j = i + (j + 1) := by omega
    rw [he] at h2
    exact h2

theorem sum_fib_range (k : Nat) :
    (∑ j in Finset.range k, Nat.fib (j + 1)) + 1 = Nat.fib (k + 2) := by
  induction k with
  | zero => simp
  | succ k ih =>
    rw [Finset.sum_range_succ]
    have h2 : Nat.fib (k + 1 + 2) = Nat.fib (k + 1) + Nat.fib (k + 2) :=
      Nat.fib_add_two
    omega

theorem subtree_fib_bound {S : Store K V} {R D : List V} (W : StructWF S R D)
    (F : FibInv S D) :
    ∀ N : Nat, ∀ v : V, ∀ n : FibNode K V, S.find? v = some n → v ∉ D →
      (subtreeF S v).card ≤ N →
      Nat.fib (n.children.length + 2) ≤ (subtreeF S v).card := by
  intro N
  induction N with
  | zero =>
    intro v n hv hvD hcard
    have hvmem : v ∈ subtreeF S v := mem_subtree_self W (Store.mem_domV_of_find? hv)
    have := Finset.card_pos.2 ⟨v, hvmem⟩
    omega
  | succ N IH =>
    intro v n hv hvD hcard
    have hvdom : v ∈ S.domV := Store.mem_domV_of_find? hv
    have hvmem : v ∈ subtreeF S v := mem_subtree_self W hvdom
    have hpos : 1 ≤ (subtreeF S v).card := Finset.card_pos.2 ⟨v, hvmem⟩
    have hchild : ∀ j (h : j < n.children.length),
        ∃ cn : FibNode K V, S.find? (n.children.get ⟨j, h⟩) = some cn ∧
          cn.parent = some v :=
      fun j h => W.childParent v n hv hvD _ (n.children.get_mem _ _)
    have hjcard : ∀ j (h : j < n.children.length),
        Nat.fib (j + 1) ≤ (childSub S n j).card := by
      intro j h
      rcases hchild j h with ⟨cn, hcn, hcp⟩
      have hcD : (n.children.get ⟨j, h⟩) ∉ D :=
        W.childLive hv hvD (n.children.get_mem _ _)
      have hfc := FibSeq_get (F v n hv hvD) j h
      rw [Nat.zero_add] at hfc
      have hdeg : j ≤ cn.children.length + 1 := by
        have := hfc cn hcn
        split_ifs at this <;> omega
      have hsub := subtree_child_sub W hcn hcp hvdom
      have hcc : (subtreeF S (n.children.get ⟨j, h⟩)).card ≤ N := by
        have h1 := Finset.card_le_card hsub
        have h2 := Finset.card_erase_add_one hvmem
        omega
      have hih := IH _ cn hcn hcD hcc
      have hmono : Nat.fib (j + 1) ≤ Nat.fib (cn.children.length + 2) :=
        Nat.fib_mono (by omega)
      have hle := le_trans hmono hih
      rw [childSub, dif_pos h]
      exact hle
    have hdisj : ∀ i ∈ Finset.range n.children.length,
        ∀ j ∈ Finset.range n.children.length, i ≠ j →
        Disjoint (childSub S n i) (childSub S n j) := by
      intro i hi j hj hij
      rw [Finset.mem_range] at hi hj
      rcases hchild i hi with ⟨cni, hcni, hcpi⟩
      rcases hchild j hj with ⟨cnj, hcnj, hcpj⟩
      have hnd := W.childrenNodup v n hv hvD
      have hne : n.children.get ⟨i, hi⟩ ≠ n.children.get ⟨j, hj⟩ := by
        intro he
        exact hij (by simpa using hnd.get_inj_iff.1 he)
      have hd := subtree_child_disjoint W hcni hcpi hcnj hcpj hvdom hne
      rw [childSub, childSub, dif_pos hi, dif_pos hj]
      exact hd
    have hcardsum := Finset.card_biUnion hdisj
    have hbsub : (Finset.range n.children.length).biUnion (childSub S n) ⊆
        (subtreeF S v).erase v := by
      intro u hu
      rw [Finset.mem_biUnion] at hu
      rcases hu with ⟨j, hj, hu⟩
      rw [Finset.mem_range] at hj
      rcases hchild j hj with ⟨cnj, hcnj, hcpj⟩
      rw [childSub, dif_pos hj] at hu
      exact subtree_child_sub W hcnj hcpj hvdom hu
    have h1 := Finset.card_le_card hbsub
    have h2 := Finset.card_erase_add_one hvmem
    have hfib_le : ∑ j in Finset.range n.children.length, Nat.fib (j + 1) ≤
        ∑ j in Finset.range n.children.length, (childSub S n j).card :=
      Finset.sum_le_sum (fun j hj => hjcard j (Finset.mem_range.1 hj))
    have h3 := sum_fib_range n.children.length
    omega

/-! ### Arithmetic for the degree-array bound -/

theorem luc_add_three_fib : ∀ d : Nat, luc d + 3 * Nat.fib d = 2 * Nat.fib (d + 2)
  | 0 => by decide
  | 1 => by decide
  | d + 2 => by
    have h1 := luc_add_three_fib d
    have h2 := luc_add_three_fib (d + 1)
    have e1 : luc (d + 2) = luc (d + 1) + luc d := rfl
    have e2 : Nat.fib (d + 2) = Nat.fib d + Nat.fib (d + 1) := Nat.fib_add_two
    have e3 : Nat.fib (d + 4) = Nat.fib (d + 2) + Nat.fib (d + 3) := Nat.fib_add_two
    have e4 : Nat.fib (d + 3) = Nat.fib (d + 1) + Nat.fib (d + 2) := Nat.fib_add_two
    have e5 : Nat.fib (d + 1 + 2) = Nat.fib (d + 3) := rfl
    show luc (d + 2) + 3 * Nat.fib (d + 2) = 2 * Nat.fib (d + 4)
    omega

theorem phiPowLeB_fib (d : Nat) : phiPowLeB d (Nat.fib (d + 2)) = true := by
  have h := luc_add_three_fib d
  simp only [phiPowLeB, Bool.and_eq_true, decide_eq_true_eq]
  constructor
  · omega
  · have he : 2 * Nat.fib (d + 2) - luc d = 3 * Nat.fib d := by omega
    rw [he, pow_two]
    nlinarith [Nat.zero_le (Nat.fib d)]

theorem phiPowLeB_mono {k n m : Nat} (h : phiPowLeB k n = true) (hnm : n ≤ m) :
    phiPowLeB k m = true := by
  simp only [phiPowLeB, Bool.and_eq_true, decide_eq_true_eq] at h ⊢
  rcases h with ⟨h1, h2⟩
  refine ⟨by omega, ?_⟩
  calc 5 * Nat.fib k * Nat.fib k ≤ (2 * n - luc k) ^ 2 := h2
    _ ≤ (2 * m - luc k) ^ 2 := Nat.pow_le_pow_left (by omega) 2

theorem succ_le_fib : ∀ d : Nat, d + 1 ≤ Nat.fib (d + 2)
  | 0 => by decide
  | d + 1 => by
    have h1 := succ_le_fib d
    have e : Nat.fib (d + 3) = Nat.fib (d + 1) + Nat.fib (d + 2) := Nat.fib_add_two
    have hp : 0 < Nat.fib (d + 1) := Nat.fib_pos.2 (by omega)
    show d + 2 ≤ Nat.fib (d + 3)
    omega

theorem le_logPhiFloor {d n : Nat} (h : Nat.fib (d + 2) ≤ n) : d ≤ logPhiFloor n := by
  have hdn : d ≤ n := by have := succ_le_fib d; omega
  exact Nat.le_findGreatest hdn (phiPowLeB_mono (phiPowLeB_fib d) h)

theorem lt_arrayLen {d : Nat} {size : Int} (h : Nat.fib (d + 2) ≤ size.toNat) :
    d < arrayLen size := by
  have := le_logPhiFloor h
  rw [arrayLen]
  omega

theorem luc_eq_fib : ∀ k : Nat, luc k = 2 * Nat.fib (k + 1) - Nat.fib k
  | 0 => by decide
  | 1 => by decide
  | k + 2 => by
    show luc (k + 2) = 2 * Nat.fib (k + 3) - Nat.fib (k + 2)
    have h1 := luc_eq_fib k
    have h2 : luc (k + 1) = 2 * Nat.fib (k + 2) - Nat.fib (k + 1) :=
      luc_eq_fib (k + 1)
    have e1 : luc (k + 2) = luc (k + 1) + luc k := rfl
    have e2 : Nat.fib (k + 2) = Nat.fib k + Nat.fib (k + 1) := Nat.fib_add_two
    have e3 : Nat.fib (k + 3) = Nat.fib (k + 1) + Nat.fib (k + 2) := Nat.fib_add_two
    have hm1 : Nat.fib k ≤ Nat.fib (k + 1) := Nat.fib_mono (by omega)
    have hm2 : Nat.fib (k + 1) ≤ Nat.fib (k + 2) := Nat.fib_mono (by omega)
    omega

theorem phiPowLeB_eq_F (k n : Nat) : phiPowLeB k n = phiPowLeBF k n := by
  rw [phiPowLeB, phiPowLeBF, luc_eq_fib k]

theorem margin_table : ∀ d : Nat, d < 45 → 1 ≤ d →
    phiPowLeBF (4 * d + 1) (Nat.fib (d + 2) ^ 4) = true := by decide

theorem deg_lt_45 {d n : Nat} (h1 : Nat.fib (d + 2) ≤ n)
    (h2 : n ≤ 2147483647) : d < 45 := by
  by_contra hc
  push_neg at hc
  have h47 : Nat.fib 47 ≤ Nat.fib (d + 2) := Nat.fib_mono (by omega)
  have hv : Nat.fib 47 = 2971215073 := by decide
  omega

theorem phiPow_margin {d n : Nat} (h1 : 1 ≤ d) (h2 : Nat.fib (d + 2) ≤ n)
    (h3 : n ≤ 2147483647) : phiPowLeB (4 * d + 1) (n ^ 4) = true := by
  have h45 : d < 45 := deg_lt_45 h2 h3
  have hb : phiPowLeB (4 * d + 1) (Nat.fib (d + 2) ^ 4) = true := by
    rw [phiPowLeB_eq_F]
    exact margin_table d h45 h1
  exact phiPowLeB_mono hb (Nat.pow_le_pow_left h2 4)

/-! ### Preservation: heap_link -/

theorem heap_link_find? {S : Store K V} {x y : V} {xn yn : FibNode K V}
    (hx : S.find? x = some xn) (hy : S.find? y = some yn) (hxy : ¬x = y) :
    ∀ w, (heap_link S y x).find? w =
      if w = y then some { yn with parent := some x, marked := false }
      else if w = x then some { xn with children := xn.children ++ [y] }
      else S.find? w := by
  intro w
  have hyx : ¬y = x := fun h => hxy h.symm
  by_cases hwy : w = y
  · subst hwy
    simp [heap_link, find?_setMarked, find?_setParent, find?_addChild, hyx, hy]
  · by_cases hwx : w = x
    · subst hwx
      simp [heap_link, find?_setMarked, find?_setParent, find?_addChild, hwy, hx]
    · simp [heap_link, find?_setMarked, find?_setParent, find?_addChild, hwy, hwx]

theorem heap_link_domV (S : Store K V) (y x : V) :
    Store.domV (heap_link S y x) = S.domV := by
  simp [heap_link, setMarked, setParent, addChild, Store.domV_upd]

theorem heap_link_length (S : Store K V) (y x : V) :
    (heap_link S y x).length = S.length := by
  simp [heap_link, setMarked, setParent, addChild, Store.length_upd]

theorem heap_link_keys {S : Store K V} {x y : V} {xn yn : FibNode K V}
    (hx : S.find? x = some xn) (hy : S.find? y = some yn) (hxy : ¬x = y) :
    ∀ w, ((heap_link S y x).find? w).map (fun n => (n.key, n.value)) =
      (S.find? w).map (fun n => (n.key, n.value)) := by
  intro w
  rw [heap_link_find? hx hy hxy]
  by_cases hwy : w = y
  · subst hwy
    rw [if_pos rfl, hy]
    rfl
  · rw [if_neg hwy]
    by_cases hwx : w = x
    · subst hwx
      rw [if_pos rfl, hx]
      rfl
    · rw [if_neg hwx]

theorem heap_link_chain {S : Store K V} {x y : V} {xn : FibNode K V}
    (hx : S.find? x = some xn) (hxp : xn.parent = none) (hxy : ¬x = y)
    {f : Nat} {v : V} {l : List V} (h : chainToRoot S f v = some l) :
    chainToRoot (heap_link S y x) (f + 1) v =
      some (if y ∈ l then upTo y l ++ [x] else l) := by
  have hcong : ∀ w, ((addChild S x y).find? w).map (fun n => n.parent) =
      (S.find? w).map (fun n => n.parent) := by
    intro w
    rw [find?_addChild]
    by_cases hwx : w = x
    · subst hwx
      rw [if_pos rfl, hx]
      rfl
    · rw [if_neg hwx]
  have h1 : chainToRoot (addChild S x y) f v = some l := by
    rw [chainToRoot_congr hcong]
    exact h
  have hx' : (addChild S x y).find? x =
      some { xn with children := xn.children ++ [y] } := by
    rw [find?_addChild, if_pos rfl, hx]
    rfl
  have h2 := chainToRoot_setParent_some hx' hxp hxy h1
  have hcong2 : ∀ w, ((heap_link S y x).find? w).map (fun n => n.parent) =
      ((setParent (addChild S x y) y (some x)).find? w).map (fun n => n.parent) := by
    intro w
    show ((setMarked (setParent (addChild S x y) y (some x)) y false).find? w).map
        (fun n => n.parent) = _
    rw [find?_setMarked]
    by_cases hwy : w = y
    · rw [if_pos hwy, hwy]
      cases he : (setParent (addChild S x y) y (some x)).find? y <;> simp [he]
    · rw [if_neg hwy]
  rw [chainToRoot_congr hcong2]
  exact h2

theorem nodup_length_le_store {S : Store K V} {l : List V}
    (hnd : l.Nodup) (hsub : ∀ a ∈ l, a ∈ S.domV) : l.length ≤ S.length := by
  have h1 : l.length ≤ S.domV.length :=
    (List.Nodup.subperm hnd (fun a ha => hsub a ha)).length_le
  rw [← Store.length_eq_domV_length] at h1
  exact h1

theorem chain_root_mem_last {s : Store K V} {f : Nat} {v : V} {l : List V}
    (h : chainToRoot s f v = some l) {w : V} {wn : FibNode K V}
    (hw : w ∈ l) (hfw : s.find? w = some wn) (hwp : wn.parent = none) :
    l.getLast? = some w := by
  rcases chainToRoot_mem_suffix h hw with ⟨pre, suf, hsplit, hcw⟩
  have hroot : chainToRoot s (suf.length + 1) w = some [w] :=
    chainToRoot_root hfw hwp
  rw [hcw] at hroot
  simp only [Option.some_inj] at hroot
  have hsuf : suf = [] := by
    cases suf with
    | nil => rfl
    | cons a t => simp at hroot
  subst hsuf
  rw [hsplit]
  simp

theorem heap_link_context {S : Store K V} {R D : List V} {x y : V}
    {xn yn : FibNode K V} (W : StructWF S R D)
    (hx : S.find? x = some xn) (hy : S.find? y = some yn)
    (hxR : x ∈ R) (hyR : y ∈ R) :
    x ∉ D ∧ y ∉ D ∧ xn.parent = none ∧ yn.parent = none ∧
      y ∉ xn.children ∧ x ∉ xn.children ∧
      (∀ v n, S.find? v = some n → v ∉ D → x ∉ n.children ∧ y ∉ n.children) := by
  have hxD : x ∉ D := W.rootsLive x hxR
  have hyD : y ∉ D := W.rootsLive y hyR
  have hxp : xn.parent = none := W.rootsParent x hxR xn hx
  have hyp : yn.parent = none := W.rootsParent y hyR yn hy
  have hnochild : ∀ v n, S.find? v = some n → v ∉ D →
      x ∉ n.children ∧ y ∉ n.children := by
    intro v n hv hvD
    constructor
    · intro hmem
      rcases W.childParent v n hv hvD x hmem with ⟨cn, hcn, hcp⟩
      rw [hx] at hcn
      have : cn = xn := by simpa using hcn.symm
      subst this
      rw [hxp] at hcp
      cases hcp
    · intro hmem
      rcases W.childParent v n hv hvD y hmem with ⟨cn, hcn, hcp⟩
      rw [hy] at hcn
      have : cn = yn := by simpa using hcn.symm
      subst this
      rw [hyp] at hcp
      cases hcp
  exact ⟨hxD, hyD, hxp, hyp, (hnochild x xn hx hxD).2, (hnochild x xn hx hxD).1,
    hnochild⟩

theorem heap_link_struct {S : Store K V} {R D : List V} {x y : V}
    {xn yn : FibNode K V} (W : StructWF S R D)
    (hx : S.find? x = some xn) (hy : S.find? y = some yn)
    (hxR : x ∈ R) (hyR : y ∈ R) (hxy : ¬x = y)
    {R' : List V} (hR'nd : R'.Nodup)
    (hR'mem : ∀ w, w ∈ R' ↔ w ∈ R ∧ ¬w = y) :
    StructWF (heap_link S y x) R' D := by
  obtain ⟨hxD, hyD, hxp, hyp, hyNotx, hxNotx, hnochild⟩ :=
    heap_link_context W hx hy hxR hyR
  have hf := heap_link_find? hx hy hxy
  have hsplit : ∀ {w n}, (heap_link S y x).find? w = some n →
      (w = y ∧ n = { yn with parent := some x, marked := false }) ∨
      (w = x ∧ n = { xn with children := xn.children ++ [y] }) ∨
      (¬w = x ∧ ¬w = y ∧ S.find? w = some n) := by
    intro w n hw
    rw [hf w] at hw
    by_cases hwy : w = y
    · rw [if_pos hwy] at hw
      exact Or.inl ⟨hwy, by simpa using hw.symm⟩
    · rw [if_neg hwy] at hw
      by_cases hwx : w = x
      · rw [if_pos hwx] at hw
        exact Or.inr (Or.inl ⟨hwx, by simpa using hw.symm⟩)
      · rw [if_neg hwx] at hw
        exact Or.inr (Or.inr ⟨hwx, hwy, hw⟩)
  have hkeep : ∀ {w n}, ¬w = x → ¬w = y → S.find? w = some n →
      (heap_link S y x).find? w = some n := by
    intro w n hwx hwy hw
    rw [hf w, if_neg hwy, if_neg hwx]
    exact hw
  have hc_live : ∀ {v n c}, S.find? v = some n → v ∉ D → c ∈ n.children →
      ¬c = x ∧ ¬c = y := by
    intro v n c hv hvD hc
    constructor
    · intro he
      exact (hnochild v n hv hvD).1 (he ▸ hc)
    · intro he
      exact (hnochild v n hv hvD).2 (he ▸ hc)
  refine ⟨?_, ?_, ?_, hR'nd, ?_, ?_, ?_, ?_, ?_, ?_, ?_, ?_, ?_, ?_⟩
  · rw [heap_link_domV]
    exact W.domNodup
  · intro w n hw
    rcases hsplit hw with ⟨rfl, rfl⟩ | ⟨rfl, rfl⟩ | ⟨_, _, hw⟩
    · simpa using W.valEq w yn hy
    · simpa using W.valEq w xn hx
    · exact W.valEq w n hw
  · intro v hv
    rw [heap_link_domV] at hv
    rcases W.acyc v hv with ⟨l, hl, hnd⟩
    have hch := heap_link_chain hx hxp hxy hl
    set l' := if y ∈ l then upTo y l ++ [x] else l with hl'
    have hnd' : l'.Nodup := by
      by_cases hyl : y ∈ l
      · have hxl : x ∉ l := by
          intro hxl
          have h1 := chain_root_mem_last hl hxl hx hxp
          have h2 := chain_root_mem_last hl hyl hy hyp
          rw [h1] at h2
          exact hxy (by simpa using h2)
        rw [hl', if_pos hyl]
        have hsub := upTo_sublist y l
        refine List.Nodup.append (hsub.nodup hnd) (List.nodup_singleton x) ?_
        intro a ha hax
        simp only [List.mem_singleton] at hax
        subst hax
        exact hxl (hsub.subset ha)
      · rw [hl', if_neg hyl]
        exact hnd
    refine ⟨l', ?_, hnd'⟩
    have hdom' : ∀ a ∈ l', a ∈ (heap_link S y x).domV :=
      fun a ha => chainToRoot_mem_dom hch ha
    have hlen : l'.length ≤ (heap_link S y x).length := by
      have := nodup_length_le_store hnd' hdom'
      exact this
    have hmin := chainToRoot_min_fuel hch
    exact chainToRoot_mono hmin hlen
  · intro r hr
    rw [heap_link_domV]
    exact W.rootsSub r ((hR'mem r).1 hr).1
  · intro r hr n hn
    rcases (hR'mem r).1 hr with ⟨hrR, hry⟩
    rcases hsplit hn with ⟨rfl, _⟩ | ⟨rfl, rfl⟩ | ⟨_, _, hn⟩
    · exact absurd rfl hry
    · simpa using hxp
    · exact W.rootsParent r hrR n hn
  · intro r hr
    exact W.rootsLive r ((hR'mem r).1 hr).1
  · intro z hz
    rw [heap_link_domV]
    exact W.deadSub z hz
  · intro z hz n hn
    rcases hsplit hn with ⟨rfl, rfl⟩ | ⟨rfl, rfl⟩ | ⟨_, _, hn⟩
    · exact absurd hz hyD
    · exact absurd hz hxD
    · exact W.deadParent z hz n hn
  · intro z hz u n hn
    rcases hsplit hn with ⟨rfl, rfl⟩ | ⟨rfl, rfl⟩ | ⟨_, _, hn⟩
    · refine ⟨(W.deadUnref z hz u yn hy).1, ?_⟩
      simp only []
      intro he
      have : x = z := by simpa using he
      exact hxD (this ▸ hz)
    · constructor
      · simp only []
        intro hmem
        rcases List.mem_append.1 hmem with hmem | hmem
        · exact (W.deadUnref z hz u xn hx).1 hmem
        · simp only [List.mem_singleton] at hmem
          exact hyD (hmem ▸ hz)
      · exact (W.deadUnref z hz u xn hx).2
    · exact W.deadUnref z hz u n hn
  · intro v n hv hvD hp
    rcases hsplit hv with ⟨rfl, rfl⟩ | ⟨rfl, rfl⟩ | ⟨hvx, hvy, hv⟩
    · simp at hp
    · rw [hR'mem]
      exact ⟨W.pnr v xn hx hvD hp, fun he => hxy he⟩
    · rw [hR'mem]
      exact ⟨W.pnr v n hv hvD hp, hvy⟩
  · intro v n hv hvD c hc
    rcases hsplit hv with ⟨rfl, rfl⟩ | ⟨rfl, rfl⟩ | ⟨hvx, hvy, hv⟩
    · simp only [] at hc
      rcases W.childParent v yn hy hvD c hc with ⟨cn, hcn, hcp⟩
      rcases hc_live hy hvD hc with ⟨hcx, hcy⟩
      refine ⟨cn, hkeep hcx hcy hcn, ?_⟩
      simpa using hcp
    · simp only [] at hc
      rcases List.mem_append.1 hc with hc | hc
      · rcases W.childParent v xn hx hvD c hc with ⟨cn, hcn, hcp⟩
        rcases hc_live hx hvD hc with ⟨hcx, hcy⟩
        exact ⟨cn, hkeep hcx hcy hcn, hcp⟩
      · simp only [List.mem_singleton] at hc
        subst hc
        refine ⟨{ yn with parent := some v, marked := false }, ?_, rfl⟩
        rw [hf c, if_pos rfl]
    · rcases W.childParent v n hv hvD c hc with ⟨cn, hcn, hcp⟩
      rcases hc_live hv hvD hc with ⟨hcx, hcy⟩
      exact ⟨cn, hkeep hcx hcy hcn, hcp⟩
  · intro v n p hv hvD hp
    rcases hsplit hv with ⟨rfl, rfl⟩ | ⟨rfl, rfl⟩ | ⟨hvx, hvy, hv⟩
    · have hpx : p = x := by simpa using hp.symm
      refine ⟨{ xn with children := xn.children ++ [v] }, ?_, ?_⟩
      · rw [hpx, hf x, if_neg hxy, if_pos rfl]
      · simp
    · rw [show ({ xn with children := xn.children ++ [y] } :
          FibNode K V).parent = xn.parent from rfl] at hp
      rw [hxp] at hp
      cases hp
    · rcases W.parentChild v n p hv hvD hp with ⟨pn, hpn, hmem⟩
      by_cases hpx : p = x
      · subst hpx
        rw [hx] at hpn
        have hpnxn : pn = xn := by simpa using hpn.symm
        refine ⟨{ xn with children := xn.children ++ [y] }, ?_, ?_⟩
        · rw [hf p, if_neg hxy, if_pos rfl]
        · simp only []
          exact List.mem_append.2 (Or.inl (hpnxn ▸ hmem))
      · by_cases hpy : p = y
        · subst hpy
          rw [hy] at hpn
          have hpnyn : pn = yn := by simpa using hpn.symm
          refine ⟨{ yn with parent := some x, marked := false }, ?_, ?_⟩
          · rw [hf p, if_pos rfl]
          · simp only []
            exact hpnyn ▸ hmem
        · exact ⟨pn, hkeep hpx hpy hpn, hmem⟩
  · intro v n hv hvD
    rcases hsplit hv with ⟨rfl, rfl⟩ | ⟨rfl, rfl⟩ | ⟨_, _, hv⟩
    · simpa using W.childrenNodup v yn hy hvD
    · simp only []
      refine List.Nodup.append (W.childrenNodup v xn hx hvD)
        (List.nodup_singleton y) ?_
      intro a ha hay
      simp only [List.mem_singleton] at hay
      subst hay
      exact hyNotx ha
    · exact W.childrenNodup v n hv hvD

theorem heap_link_ord {S : Store K V} {R D : List V} {x y : V}
    {xn yn : FibNode K V} (W : StructWF S R D) (Word : HeapOrd S D)
    (hx : S.find? x = some xn) (hy : S.find? y = some yn)
    (hxR : x ∈ R) (hyR : y ∈ R) (hxy : ¬x = y)
    (hkey : xn.key ≤ yn.key) :
    HeapOrd (heap_link S y x) D := by
  obtain ⟨hxD, hyD, hxp, hyp, hyNotx, hxNotx, hnochild⟩ :=
    heap_link_context W hx hy hxR hyR
  have hf := heap_link_find? hx hy hxy
  have hsame : ∀ {c}, ¬c = x → ¬c = y → (heap_link S y x).find? c = S.find? c := by
    intro c hcx hcy
    rw [hf c, if_neg hcy, if_neg hcx]
  have hsplit : ∀ {w n}, (heap_link S y x).find? w = some n →
      (w = y ∧ n = { yn with parent := some x, marked := false }) ∨
      (w = x ∧ n = { xn with children := xn.children ++ [y] }) ∨
      (¬w = x ∧ ¬w = y ∧ S.find? w = some n) := by
    intro w n hw
    rw [hf w] at hw
    by_cases hwy : w = y
    · rw [if_pos hwy] at hw
      exact Or.inl ⟨hwy, by simpa using hw.symm⟩
    · rw [if_neg hwy] at hw
      by_cases hwx : w = x
      · rw [if_pos hwx] at hw
        exact Or.inr (Or.inl ⟨hwx, by simpa using hw.symm⟩)
      · rw [if_neg hwx] at hw
        exact Or.inr (Or.inr ⟨hwx, hwy, hw⟩)
  intro v n hv hvD c hc cn hcn
  rcases hsplit hv with ⟨rfl, rfl⟩ | ⟨rfl, rfl⟩ | ⟨hvx, hvy, hv⟩
  · simp only [] at hc ⊢
    have hcx : ¬c = x := fun he => (hnochild v yn hy hvD).1 (he ▸ hc)
    have hcy : ¬c = v := fun he => (hnochild v yn hy hvD).2 (he ▸ hc)
    rw [hsame hcx hcy] at hcn
    exact Word v yn hy hvD c hc cn hcn
  · simp only [] at hc ⊢
    rcases List.mem_append.1 hc with hc | hc
    · have hcx : ¬c = v := fun he => (hnochild v xn hx hvD).1 (he ▸ hc)
      have hcy : ¬c = y := fun he => (hnochild v xn hx hvD).2 (he ▸ hc)
      rw [hsame hcx hcy] at hcn
      exact Word v xn hx hvD c hc cn hcn
    · simp only [List.mem_singleton] at hc
      subst hc
      rw [hf c, if_pos rfl] at hcn
      have : cn = { yn with parent := some v, marked := false } := by
        simpa using hcn.symm
      subst this
      exact hkey
  · have hcx : ¬c = x := fun he => (hnochild v n hv hvD).1 (he ▸ hc)
    have hcy : ¬c = y := fun he => (hnochild v n hv hvD).2 (he ▸ hc)
    rw [hsame hcx hcy] at hcn
    exact Word v n hv hvD c hc cn hcn

theorem heap_link_fib {S : Store K V} {R D : List V} {x y : V}
    {xn yn : FibNode K V} (W : StructWF S R D) (Wfib : FibInv S D)
    (hx : S.find? x = some xn) (hy : S.find? y = some yn)
    (hxR : x ∈ R) (hyR : y ∈ R) (hxy : ¬x = y)
    (hdeg : yn.children.length = xn.children.length) :
    FibInv (heap_link S y x) D := by
  obtain ⟨hxD, hyD, hxp, hyp, hyNotx, hxNotx, hnochild⟩ :=
    heap_link_context W hx hy hxR hyR
  have hf := heap_link_find? hx hy hxy
  have hsame : ∀ {c}, ¬c = x → ¬c = y → (heap_link S y x).find? c = S.find? c := by
    intro c hcx hcy
    rw [hf c, if_neg hcy, if_neg hcx]
  have hsplit : ∀ {w n}, (heap_link S y x).find? w = some n →
      (w = y ∧ n = { yn with parent := some x, marked := false }) ∨
      (w = x ∧ n = { xn with children := xn.children ++ [y] }) ∨
      (¬w = x ∧ ¬w = y ∧ S.find? w = some n) := by
    intro w n hw
    rw [hf w] at hw
    by_cases hwy : w = y
    · rw [if_pos hwy] at hw
      exact Or.inl ⟨hwy, by simpa using hw.symm⟩
    · rw [if_neg hwy] at hw
      by_cases hwx : w = x
      · rw [if_pos hwx] at hw
        exact Or.inr (Or.inl ⟨hwx, by simpa using hw.symm⟩)
      · rw [if_neg hwx] at hw
        exact Or.inr (Or.inr ⟨hwx, hwy, hw⟩)
  intro v n hv hvD
  rcases hsplit hv with ⟨rfl, rfl⟩ | ⟨rfl, rfl⟩ | ⟨hvx, hvy, hv⟩
  · simp only []
    refine FibSeq_congr (fun c hc => ?_) (Wfib v yn hy hvD)
    have hcx : ¬c = x := fun he => (hnochild v yn hy hvD).1 (he ▸ hc)
    have hcy : ¬c = v := fun he => (hnochild v yn hy hvD).2 (he ▸ hc)
    exact hsame hcx hcy
  · simp only []
    have hold : FibSeq (heap_link S y v) xn.children 0 := by
      refine FibSeq_congr (fun c hc => ?_) (Wfib v xn hx hvD)
      have hcx : ¬c = v := fun he => (hnochild v xn hx hvD).1 (he ▸ hc)
      have hcy : ¬c = y := fun he => (hnochild v xn hx hvD).2 (he ▸ hc)
      exact hsame hcx hcy
    refine FibSeq_append_one hold ?_
    intro cn hcn
    rw [hf y, if_pos rfl] at hcn
    have : cn = { yn with parent := some v, marked := false } := by
      simpa using hcn.symm
    subst this
    show 0 + xn.children.length ≤ yn.children.length
    omega
  · refine FibSeq_congr (fun c hc => ?_) (Wfib v n hv hvD)
    have hcx : ¬c = x := fun he => (hnochild v n hv hvD).1 (he ▸ hc)
    have hcy : ¬c = y := fun he => (hnochild v n hv hvD).2 (he ▸ hc)
    exact hsame hcx hcy

theorem arrRoots_mem {arr : List (Option V)} {u : V} :
    u ∈ arrRoots arr ↔ some u ∈ arr := by
  simp [arrRoots, List.mem_filterMap]

theorem arrRoots_mem_get {arr : List (Option V)} {u : V} :
    u ∈ arrRoots arr ↔ ∃ i : Fin arr.length, arr.get i = some u := by
  rw [arrRoots_mem]
  exact List.mem_iff_get

theorem arrRoots_nodup : ∀ {arr : List (Option V)},
    (∀ i j : Fin arr.length, ∀ u, arr.get i = some u → arr.get j = some u →
      i.1 = j.1) →
    (arrRoots arr).Nodup
  | [], _ => List.nodup_nil
  | none :: t, h => by
    have ht : (arrRoots t).Nodup := by
      refine arrRoots_nodup (fun i j u hi hj => ?_)
      rcases i with ⟨i, hi2⟩
      rcases j with ⟨j, hj2⟩
      have h2 := h ⟨i + 1, by simp only [List.length_cons]; omega⟩
        ⟨j + 1, by simp only [List.length_cons]; omega⟩ u hi hj
      simp only [] at h2 ⊢
      omega
    have he : arrRoots (none :: t) = arrRoots t := by
      simp [arrRoots, List.filterMap_cons]
    rw [he]
    exact ht
  | some a :: t, h => by
    have ht : (arrRoots t).Nodup := by
      refine arrRoots_nodup (fun i j u hi hj => ?_)
      rcases i with ⟨i, hi2⟩
      rcases j with ⟨j, hj2⟩
      have h2 := h ⟨i + 1, by simp only [List.length_cons]; omega⟩
        ⟨j + 1, by simp only [List.length_cons]; omega⟩ u hi hj
      simp only [] at h2 ⊢
      omega
    have hat : a ∉ arrRoots t := by
      intro hmem
      rcases arrRoots_mem_get.1 hmem with ⟨⟨j, hj2⟩, hj⟩
      have h2 := h ⟨0, by simp only [List.length_cons]; omega⟩
        ⟨j + 1, by simp only [List.length_cons]; omega⟩ a rfl hj
      simp only [] at h2
      omega
    have he : arrRoots (some a :: t) = a :: arrRoots t := by
      simp [arrRoots, List.filterMap_cons]
    rw [he, List.nodup_cons]
    exact ⟨hat, ht⟩

theorem subtree_card_le_store {S : Store K V} (v : V) :
    (subtreeF S v).card ≤ S.length := by
  have h1 : (subtreeF S v).card ≤ S.domV.toFinset.card :=
    Finset.card_le_card (Finset.filter_subset _ _)
  have h2 : S.domV.toFinset.card ≤ S.domV.length := List.toFinset_card_le _
  rw [← Store.length_eq_domV_length] at h2
  omega

theorem get_set_same {arr : List (Option V)} {d : Nat} (o : Option V)
    (hd : d < (arr.set d o).length) : (arr.set d o).get ⟨d, hd⟩ = o := by
  have hd' : d < arr.length := by simpa using hd
  simp [List.getElem_set]

theorem get_set_other {arr : List (Option V)} {d i : Nat} (o : Option V)
    (hi : i < (arr.set d o).length) (hne : i ≠ d) :
    (arr.set d o).get ⟨i, hi⟩ = arr.get ⟨i, by simpa using hi⟩ := by
  have hdi : d ≠ i := fun h => hne h.symm
  simp [List.getElem_set, hdi]

theorem ConsCtx.slotInj {S : Store K V} {arr : List (Option V)}
    {pend D : List V} (C : ConsCtx S arr pend D) :
    ∀ i j : Fin arr.length, ∀ u, arr.get i = some u → arr.get j = some u →
      i.1 = j.1 := by
  intro i j u hi hj
  rcases i with ⟨i, hi2⟩
  rcases j with ⟨j, hj2⟩
  rcases C.slot i hi2 u hi with ⟨un, hun, hdi⟩
  rcases C.slot j hj2 u hj with ⟨un', hun', hdj⟩
  rw [hun] at hun'
  have : un' = un := by simpa using hun'.symm
  subst this
  simp only []
  omega

theorem StructWF.rootsCongr {S : Store K V} {R R' D : List V}
    (W : StructWF S R D) (hnd : R'.Nodup) (hmem : ∀ w, w ∈ R' ↔ w ∈ R) :
    StructWF S R' D := by
  refine ⟨W.domNodup, W.valEq, W.acyc, hnd, ?_, ?_, ?_, W.deadSub,
    W.deadParent, W.deadUnref, ?_, W.childParent, W.parentChild,
    W.childrenNodup⟩
  · exact fun r hr => W.rootsSub r ((hmem r).1 hr)
  · exact fun r hr => W.rootsParent r ((hmem r).1 hr)
  · exact fun r hr => W.rootsLive r ((hmem r).1 hr)
  · exact fun v n hv hvD hp => (hmem v).2 (W.pnr v n hv hvD hp)

theorem slot_inj {S : Store K V} {arr : List (Option V)}
    (hslot : ∀ i (hi : i < arr.length), ∀ u, arr.get ⟨i, hi⟩ = some u →
      ∃ un, S.find? u = some un ∧ un.children.length = i) :
    ∀ i j : Fin arr.length, ∀ u, arr.get i = some u → arr.get j = some u →
      i.1 = j.1 := by
  intro i j u hi hj
  rcases i with ⟨i, hi2⟩
  rcases j with ⟨j, hj2⟩
  rcases hslot i hi2 u hi with ⟨un, hun, hdi⟩
  rcases hslot j hj2 u hj with ⟨un', hun', hdj⟩
  rw [hun] at hun'
  have : un' = un := by simpa using hun'.symm
  subst this
  simp only []
  omega

theorem consolidateRoot_empty {S : Store K V} {arr : List (Option V)} {x : V}
    {d : Nat} {n : Nat} (hdlt : d < arr.length) (hslot : arr.get ⟨d, hdlt⟩ = none) :
    consolidateRoot (n + 1) S arr x d = some (S, arr.set d (some x)) := by
  rw [consolidateRoot, dif_pos hdlt, hslot]

theorem consolidateRoot_occupied {S : Store K V} {arr : List (Option V)}
    {x y : V} {xn yn : FibNode K V} {d : Nat} {n : Nat} (hdlt : d < arr.length)
    (hslot : arr.get ⟨d, hdlt⟩ = some y)
    (hx : Store.find? S x = some xn) (hy : Store.find? S y = some yn) :
    consolidateRoot (n + 1) S arr x d =
      consolidateRoot n (heap_link S (if yn.key < xn.key then x else y)
          (if yn.key < xn.key then y else x))
        (arr.set d none) (if yn.key < xn.key then y else x) (d + 1) := by
  rw [consolidateRoot, dif_pos hdlt, hslot]
  simp [hx, hy]

theorem arrRoots_set_none_mem {arr : List (Option V)} {d : Nat} {y : V}
    (hdlt : d < arr.length) (hslot : arr.get ⟨d, hdlt⟩ = some y)
    (hinj : ∀ i j : Fin arr.length, ∀ u, arr.get i = some u →
      arr.get j = some u → i.1 = j.1) :
    ∀ w, w ∈ arrRoots (arr.set d none) ↔ (w ∈ arrRoots arr ∧ ¬w = y) := by
  intro w
  rw [arrRoots_mem_get, arrRoots_mem_get]
  constructor
  · rintro ⟨⟨i, hi2⟩, hi⟩
    by_cases hid : i = d
    · subst hid
      rw [get_set_same] at hi
      cases hi
    · have hi2' : i < arr.length := by simpa using hi2
      have hi' := (get_set_other none hi2 hid).symm.trans hi
      refine ⟨⟨⟨i, hi2'⟩, hi'⟩, ?_⟩
      intro hwy
      subst hwy
      have := hinj ⟨i, hi2'⟩ ⟨d, hdlt⟩ w hi' hslot
      exact hid (by simpa using this)
  · rintro ⟨⟨⟨i, hi2⟩, hi⟩, hwy⟩
    have hid : i ≠ d := by
      intro h
      subst h
      have he : arr.get ⟨i, hi2⟩ = some y := hslot
      rw [he] at hi
      exact hwy (by simpa using hi.symm)
    have hi2' : i < (arr.set d none).length := by simpa using hi2
    refine ⟨⟨i, hi2'⟩, ?_⟩
    rw [get_set_other none hi2' hid]
    exact hi

theorem arrRoots_set_some_mem {arr : List (Option V)} {d : Nat} {x : V}
    (hdlt : d < arr.length) (hslot : arr.get ⟨d, hdlt⟩ = none) :
    ∀ w, w ∈ arrRoots (arr.set d (some x)) ↔ (w = x ∨ w ∈ arrRoots arr) := by
  intro w
  rw [arrRoots_mem_get, arrRoots_mem_get]
  constructor
  · rintro ⟨⟨i, hi2⟩, hi⟩
    by_cases hid : i = d
    · subst hid
      rw [get_set_same] at hi
      exact Or.inl (by simpa using hi.symm)
    · have hi2' : i < arr.length := by simpa using hi2
      exact Or.inr ⟨⟨i, hi2'⟩, (get_set_other (some x) hi2 hid).symm.trans hi⟩
  · rintro (rfl | ⟨⟨i, hi2⟩, hi⟩)
    · exact ⟨⟨d, by simpa using hdlt⟩, get_set_same _ _⟩
    · have hid : i ≠ d := by
        intro h
        subst h
        have he : arr.get ⟨i, hi2⟩ = none := hslot
        rw [he] at hi
        cases hi
      have hi2' : i < (arr.set d (some x)).length := by simpa using hi2
      refine ⟨⟨i, hi2'⟩, ?_⟩
      rw [get_set_other (some x) hi2' hid]
      exact hi

theorem consolidate_merge {S : Store K V} {arr : List (Option V)} {rs D : List V}
    {x y x' y' : V} {xn yn x'n y'n : FibNode K V} {d : Nat}
    (C : ConsCtx S arr (x :: rs) D)
    (hx : S.find? x = some xn) (hxdeg : xn.children.length = d)
    (hdlt : d < arr.length) (hslot : arr.get ⟨d, hdlt⟩ = some y)
    (hy : S.find? y = some yn)
    (hx' : S.find? x' = some x'n) (hy' : S.find? y' = some y'n)
    (hkey : x'n.key ≤ y'n.key)
    (hperm : (x' = x ∧ y' = y) ∨ (x' = y ∧ y' = x)) :
    ConsCtx (heap_link S y' x') (arr.set d none) (x' :: rs) D ∧
      (heap_link S y' x').find? x' =
        some { x'n with children := x'n.children ++ [y'] } ∧
      x'n.children.length = d ∧
      Store.domV (heap_link S y' x') = S.domV ∧
      (heap_link S y' x').length = S.length ∧
      (∀ w, ((heap_link S y' x').find? w).map (fun m => (m.key, m.value)) =
        (S.find? w).map (fun m => (m.key, m.value))) := by
  rcases List.nodup_append.1 C.str.rootsNodup with ⟨ndA, ndXrs, disj⟩
  have hxrs : x ∉ rs := (List.nodup_cons.1 ndXrs).1
  have ndrs : rs.Nodup := (List.nodup_cons.1 ndXrs).2
  have hyarr : y ∈ arrRoots arr := arrRoots_mem_get.2 ⟨⟨d, hdlt⟩, hslot⟩
  have hxA : x ∉ arrRoots arr := fun h => disj h (List.mem_cons_self x rs)
  have hyrs : y ∉ rs := fun h => disj hyarr (List.mem_cons_of_mem _ h)
  have hxy : ¬x = y := fun he => hxA (he ▸ hyarr)
  rcases C.slot d hdlt y hslot with ⟨yn0, hy0, hydeg0⟩
  have hyn0 : yn0 = yn := by rw [hy] at hy0; simpa using hy0.symm
  have hydeg : yn.children.length = d := hyn0 ▸ hydeg0
  have hmemset := arrRoots_set_none_mem hdlt hslot (slot_inj C.slot)
  have hx'RL : x' ∈ arrRoots arr ++ x :: rs := by
    rcases hperm with ⟨rfl, _⟩ | ⟨rfl, _⟩
    · exact List.mem_append.2 (Or.inr (List.mem_cons_self x' rs))
    · exact List.mem_append.2 (Or.inl hyarr)
  have hy'RL : y' ∈ arrRoots arr ++ x :: rs := by
    rcases hperm with ⟨_, rfl⟩ | ⟨_, rfl⟩
    · exact List.mem_append.2 (Or.inl hyarr)
    · exact List.mem_append.2 (Or.inr (List.mem_cons_self y' rs))
  have hxy' : ¬x' = y' := by
    rcases hperm with ⟨rfl, rfl⟩ | ⟨rfl, rfl⟩
    · exact hxy
    · exact fun he => hxy he.symm
  have hdx : x'n.children.length = d := by
    rcases hperm with ⟨rfl, _⟩ | ⟨rfl, _⟩
    · have he : x'n = xn := by rw [hx] at hx'; simpa using hx'.symm
      rw [he]; exact hxdeg
    · have he : x'n = yn := by rw [hy] at hx'; simpa using hx'.symm
      rw [he]; exact hydeg
  have hdy : y'n.children.length = d := by
    rcases hperm with ⟨_, rfl⟩ | ⟨_, rfl⟩
    · have he : y'n = yn := by rw [hy] at hy'; simpa using hy'.symm
      rw [he]; exact hydeg
    · have he : y'n = xn := by rw [hx] at hy'; simpa using hy'.symm
      rw [he]; exact hxdeg
  have hR'mem : ∀ w, w ∈ arrRoots (arr.set d none) ++ x' :: rs ↔
      (w ∈ arrRoots arr ++ x :: rs ∧ ¬w = y') := by
    rcases hperm with ⟨rfl, rfl⟩ | ⟨rfl, rfl⟩
    · intro w
      simp only [List.mem_append, List.mem_cons, hmemset w]
      constructor
      · rintro (⟨hwA, hwy⟩ | rfl | hwrs)
        · exact ⟨Or.inl hwA, hwy⟩
        · exact ⟨Or.inr (Or.inl rfl), hxy⟩
        · exact ⟨Or.inr (Or.inr hwrs), fun he => hyrs (he ▸ hwrs)⟩
      · rintro ⟨hwA | rfl | hwrs, hwy⟩
        · exact Or.inl ⟨hwA, hwy⟩
        · exact Or.inr (Or.inl rfl)
        · exact Or.inr (Or.inr hwrs)
    · intro w
      simp only [List.mem_append, List.mem_cons, hmemset w]
      constructor
      · rintro (⟨hwA, hwy⟩ | rfl | hwrs)
        · exact ⟨Or.inl hwA, fun he => hxA (he ▸ hwA)⟩
        · exact ⟨Or.inl hyarr, fun he => hxy he.symm⟩
        · exact ⟨Or.inr (Or.inr hwrs), fun he => hxrs (he ▸ hwrs)⟩
      · rintro ⟨hwA | rfl | hwrs, hwx⟩
        · by_cases hwy : w = x'
          · exact Or.inr (Or.inl hwy)
          · exact Or.inl ⟨hwA, hwy⟩
        · exact absurd rfl hwx
        · exact Or.inr (Or.inr hwrs)
  have hslotN : ∀ i (hi : i < (arr.set d none).length), ∀ u,
      (arr.set d none).get ⟨i, hi⟩ = some u →
      ∃ un, S.find? u = some un ∧ un.children.length = i := by
    intro i hi u hu
    by_cases hid : i = d
    · subst hid
      rw [get_set_same] at hu
      cases hu
    · have hu' := (get_set_other none hi hid).symm.trans hu
      exact C.slot i (by simpa using hi) u hu'
  have hx'notset : x' ∉ arrRoots (arr.set d none) := by
    rw [hmemset x']
    rcases hperm with ⟨rfl, _⟩ | ⟨rfl, _⟩
    · exact fun h => hxA h.1
    · exact fun h => h.2 rfl
  have hx'rs : x' ∉ rs := by
    rcases hperm with ⟨rfl, _⟩ | ⟨rfl, _⟩
    · exact hxrs
    · exact hyrs
  have ndR' : (arrRoots (arr.set d none) ++ x' :: rs).Nodup := by
    refine List.nodup_append.2 ⟨arrRoots_nodup (slot_inj hslotN), ?_, ?_⟩
    · exact List.nodup_cons.2 ⟨hx'rs, ndrs⟩
    · intro a ha
      have haA := (hmemset a).1 ha
      intro hmem
      rcases List.mem_cons.1 hmem with rfl | hmem
      · exact hx'notset ha
      · exact disj haA.1 (List.mem_cons_of_mem _ hmem)
  have W' := heap_link_struct C.str hx' hy' hx'RL hy'RL hxy' ndR' hR'mem
  have Word' := heap_link_ord C.str C.ord hx' hy' hx'RL hy'RL hxy' hkey
  have Wfib' := heap_link_fib C.str C.fib hx' hy' hx'RL hy'RL hxy'
    (hdy.trans hdx.symm)
  have hslotT : ∀ i (hi : i < (arr.set d none).length), ∀ u,
      (arr.set d none).get ⟨i, hi⟩ = some u →
      ∃ un, (heap_link S y' x').find? u = some un ∧ un.children.length = i := by
    intro i hi u hu
    rcases hslotN i hi u hu with ⟨un, hun, hd2⟩
    have huA : u ∈ arrRoots (arr.set d none) := arrRoots_mem_get.2 ⟨⟨i, hi⟩, hu⟩
    have hux' : ¬u = x' := fun he => hx'notset (he ▸ huA)
    have huy' : ¬u = y' := by
      have huA2 := (hmemset u).1 huA
      rcases hperm with ⟨_, rfl⟩ | ⟨_, rfl⟩
      · exact huA2.2
      · exact fun he => hxA (he ▸ huA2.1)
    refine ⟨un, ?_, hd2⟩
    rw [heap_link_find? hx' hy' hxy' u, if_neg huy', if_neg hux']
    exact hun
  refine ⟨⟨W', Word', Wfib', hslotT⟩, ?_, hdx, heap_link_domV S y' x',
    heap_link_length S y' x', heap_link_keys hx' hy' hxy'⟩
  rw [heap_link_find? hx' hy' hxy' x', if_neg hxy', if_pos rfl]

theorem consolidateRoot_spec {D : List V} :
    ∀ (n : Nat) (S : Store K V) (arr : List (Option V)) (x : V) (d : Nat)
      (rs : List V) (xn : FibNode K V),
      arr.length - d < n →
      ConsCtx S arr (x :: rs) D →
      S.find? x = some xn → xn.children.length = d →
      (∀ d', Nat.fib (d' + 2) ≤ S.length → d' < arr.length) →
      ∃ S' arr', consolidateRoot n S arr x d = some (S', arr') ∧
        ConsCtx S' arr' rs D ∧
        arr'.length = arr.length ∧
        Store.domV S' = S.domV ∧ S'.length = S.length ∧
        (∀ w, (Store.find? S' w).map (fun m => (m.key, m.value)) =
          (S.find? w).map (fun m => (m.key, m.value))) := by
  intro n
  induction n with
  | zero =>
    intro S arr x d rs xn hfuel C hx hxdeg hbound
    have hxRL : x ∈ arrRoots arr ++ x :: rs :=
      List.mem_append.2 (Or.inr (List.mem_cons_self x rs))
    have hxD : x ∉ D := C.str.rootsLive x hxRL
    have hfb := subtree_fib_bound C.str C.fib ((subtreeF S x).card) x xn hx hxD
      (le_refl _)
    rw [hxdeg] at hfb
    have hcard := subtree_card_le_store (S := S) x
    have hdlt : d < arr.length := hbound d (le_trans hfb hcard)
    exact absurd hfuel (by omega)
  | succ n IH =>
    intro S arr x d rs xn hfuel C hx hxdeg hbound
    have hxRL : x ∈ arrRoots arr ++ x :: rs :=
      List.mem_append.2 (Or.inr (List.mem_cons_self x rs))
    have hxD : x ∉ D := C.str.rootsLive x hxRL
    have hfb := subtree_fib_bound C.str C.fib ((subtreeF S x).card) x xn hx hxD
      (le_refl _)
    rw [hxdeg] at hfb
    have hcard := subtree_card_le_store (S := S) x
    have hdlt : d < arr.length := hbound d (le_trans hfb hcard)
    rcases hslot : arr.get ⟨d, hdlt⟩ with _ | y
    · -- empty slot: place x
      refine ⟨S, arr.set d (some x), consolidateRoot_empty hdlt hslot,
        ⟨?_, C.ord, C.fib, ?_⟩, by simp, rfl, rfl, fun w => rfl⟩
      · -- StructWF with x moved into the array
        have hmemset : ∀ w, w ∈ arrRoots (arr.set d (some x)) ↔
            (w = x ∨ w ∈ arrRoots arr) := arrRoots_set_some_mem hdlt hslot
        rcases List.nodup_append.1 C.str.rootsNodup with ⟨ndA, ndXrs, disj⟩
        have hxrs : x ∉ rs := (List.nodup_cons.1 ndXrs).1
        have ndrs : rs.Nodup := (List.nodup_cons.1 ndXrs).2
        have hxA : x ∉ arrRoots arr := fun h => disj h (List.mem_cons_self x rs)
        have hslotN : ∀ i (hi : i < (arr.set d (some x)).length), ∀ u,
            (arr.set d (some x)).get ⟨i, hi⟩ = some u →
            ∃ un, S.find? u = some un ∧ un.children.length = i := by
          intro i hi u hu
          by_cases hid : i = d
          · subst hid
            rw [get_set_same] at hu
            have : u = x := by simpa using hu.symm
            subst this
            exact ⟨xn, hx, hxdeg⟩
          · have hu' := (get_set_other (some x) hi hid).symm.trans hu
            exact C.slot i (by simpa using hi) u hu'
        refine C.str.rootsCongr ?_ ?_
        · refine List.nodup_append.2 ⟨arrRoots_nodup (slot_inj hslotN), ndrs, ?_⟩
          intro a ha hars
          rcases (hmemset a).1 ha with rfl | haA
          · exact hxrs hars
          · exact disj haA (List.mem_cons_of_mem _ hars)
        · intro w
          simp only [List.mem_append, List.mem_cons, hmemset w]
          constructor
          · rintro ((rfl | hwA) | hwrs)
            · exact Or.inr (Or.inl rfl)
            · exact Or.inl hwA
            · exact Or.inr (Or.inr hwrs)
          · rintro (hwA | rfl | hwrs)
            · exact Or.inl (Or.inr hwA)
            · exact Or.inl (Or.inl rfl)
            · exact Or.inr hwrs
      · -- slot invariant after placing x
        intro i hi u hu
        by_cases hid : i = d
        · subst hid
          rw [get_set_same] at hu
          have : u = x := by simpa using hu.symm
          subst this
          exact ⟨xn, hx, hxdeg⟩
        · have hu' := (get_set_other (some x) hi hid).symm.trans hu
          exact C.slot i (by simpa using hi) u hu'
    · -- occupied slot: link and recurse
      rcases C.slot d hdlt y hslot with ⟨yn, hy, hydeg⟩
      have hrw : consolidateRoot (n + 1) S arr x d =
          consolidateRoot n (heap_link S (if yn.key < xn.key then x else y)
              (if yn.key < xn.key then y else x))
            (arr.set d none) (if yn.key < xn.key then y else x) (d + 1) :=
        consolidateRoot_occupied hdlt hslot hx hy
      by_cases hk : yn.key < xn.key
      · -- y wins: x becomes a child of y
        rw [if_pos hk, if_pos hk] at hrw
        obtain ⟨C', hfx', hdx', hdom', hlen', hkeys'⟩ :=
          consolidate_merge C hx hxdeg hdlt hslot hy hy hx (le_of_lt hk)
            (Or.inr ⟨rfl, rfl⟩)
        have hbound' : ∀ d', Nat.fib (d' + 2) ≤ (heap_link S x y).length →
            d' < (arr.set d none).length := by
          intro d' hd'
          rw [hlen'] at hd'
          have := hbound d' hd'
          simpa using this
        have hfuel' : (arr.set d none).length - (d + 1) < n := by
          simp only [List.length_set]
          omega
        obtain ⟨S', arr', heq, C'', hal, hdom, hlen, hkeys⟩ :=
          IH (heap_link S x y) (arr.set d none) y (d + 1) rs
            { yn with children := yn.children ++ [x] } hfuel' C' hfx'
            (by simp [hydeg]) hbound'
        refine ⟨S', arr', hrw.trans heq, C'', by simpa using hal,
          hdom.trans hdom', hlen.trans hlen', fun w => (hkeys w).trans (hkeys' w)⟩
      · -- x wins: y becomes a child of x
        rw [if_neg hk, if_neg hk] at hrw
        obtain ⟨C', hfx', hdx', hdom', hlen', hkeys'⟩ :=
          consolidate_merge C hx hxdeg hdlt hslot hy hx hy (not_lt.1 hk)
            (Or.inl ⟨rfl, rfl⟩)
        have hbound' : ∀ d', Nat.fib (d' + 2) ≤ (heap_link S y x).length →
            d' < (arr.set d none).length := by
          intro d' hd'
          rw [hlen'] at hd'
          have := hbound d' hd'
          simpa using this
        have hfuel' : (arr.set d none).length - (d + 1) < n := by
          simp only [List.length_set]
          omega
        obtain ⟨S', arr', heq, C'', hal, hdom, hlen, hkeys⟩ :=
          IH (heap_link S y x) (arr.set d none) x (d + 1) rs
            { xn with children := xn.children ++ [y] } hfuel' C' hfx'
            (by simp [hxdeg]) hbound'
        refine ⟨S', arr', hrw.trans heq, C'', by simpa using hal,
          hdom.trans hdom', hlen.trans hlen', fun w => (hkeys w).trans (hkeys' w)⟩

theorem consolidateRoots_spec {D : List V} :
    ∀ (rts : List V) (S : Store K V) (arr : List (Option V)),
      ConsCtx S arr rts D →
      (∀ d', Nat.fib (d' + 2) ≤ S.length → d' < arr.length) →
      ∃ S' arr', consolidateRoots S arr rts = some (S', arr') ∧
        ConsCtx S' arr' [] D ∧
        arr'.length = arr.length ∧
        Store.domV S' = S.domV ∧ S'.length = S.length ∧
        (∀ w, (Store.find? S' w).map (fun m => (m.key, m.value)) =
          (S.find? w).map (fun m => (m.key, m.value)))
  | [], S, arr, C, _ => ⟨S, arr, rfl, C, rfl, rfl, rfl, fun _ => rfl⟩
  | r :: rs, S, arr, C, hbound => by
    have hrRL : r ∈ arrRoots arr ++ r :: rs :=
      List.mem_append.2 (Or.inr (List.mem_cons_self r rs))
    have hrdom : r ∈ S.domV := C.str.rootsSub r hrRL
    rcases hfr : S.find? r with _ | rn
    · rw [Store.find?_eq_none] at hfr
      exact absurd hrdom hfr
    · obtain ⟨S1, arr1, heq1, C1, hal1, hdom1, hlen1, hkeys1⟩ :=
        consolidateRoot_spec (arr.length + 1) S arr r rn.children.length rs rn
          (by omega) C hfr rfl hbound
      have hbound1 : ∀ d', Nat.fib (d' + 2) ≤ S1.length → d' < arr1.length := by
        intro d' h
        rw [hlen1] at h
        rw [hal1]
        exact hbound d' h
      obtain ⟨S2, arr2, heq2, C2, hal2, hdom2, hlen2, hkeys2⟩ :=
        consolidateRoots_spec rs S1 arr1 C1 hbound1
      refine ⟨S2, arr2, ?_, C2, hal2.trans hal1, hdom2.trans hdom1,
        hlen2.trans hlen1, fun w => (hkeys2 w).trans (hkeys1 w)⟩
      simp [consolidateRoots, hfr, heq1, heq2]

theorem insertRoot_mem {r : List V} {v w : V} :
    w ∈ insertRoot r v ↔ (w ∈ r ∨ w = v) := by
  rw [insertRoot]
  by_cases hv : v ∈ r
  · rw [if_pos hv]
    constructor
    · exact Or.inl
    · rintro (h | rfl)
      · exact h
      · exact hv
  · rw [if_neg hv]
    simp [List.mem_append]

theorem insertRoot_nodup {r : List V} (v : V) (h : r.Nodup) :
    (insertRoot r v).Nodup := by
  rw [insertRoot]
  by_cases hv : v ∈ r
  · rw [if_pos hv]
    exact h
  · rw [if_neg hv]
    refine List.nodup_append.2 ⟨h, List.nodup_singleton v, ?_⟩
    intro a ha hav
    simp only [List.mem_singleton] at hav
    subst hav
    exact hv ha

theorem rebuild_spec {S : Store K V} :
    ∀ (rest : List (Option V)) (rts : List V) (mn : Option V),
      (∀ u, some u ∈ rest → u ∈ S.domV) →
      rts.Nodup →
      (mn = none → rts = []) →
      (∀ m, mn = some m → m ∈ rts ∧ ∃ mnn, S.find? m = some mnn ∧
        ∀ r ∈ rts, ∀ rn, S.find? r = some rn → mnn.key ≤ rn.key) →
      ∃ roots' min', rebuild S rest rts mn = some (roots', min') ∧
        roots'.Nodup ∧
        (∀ w, w ∈ roots' ↔ (w ∈ rts ∨ w ∈ arrRoots rest)) ∧
        (min' = none → roots' = []) ∧
        (∀ m, min' = some m → m ∈ roots' ∧ ∃ mnn, S.find? m = some mnn ∧
          ∀ r ∈ roots', ∀ rn, S.find? r = some rn → mnn.key ≤ rn.key)
  | [], rts, mn, hdom, hnd, hnone, hsome => by
    refine ⟨rts, mn, rfl, hnd, ?_, ?_, hsome⟩
    · intro w
      simp [arrRoots]
    · intro h
      exact hnone h
  | none :: rest, rts, mn, hdom, hnd, hnone, hsome => by
    obtain ⟨roots', min', heq, hnd', hmem', hnone', hsome'⟩ :=
      rebuild_spec rest rts mn (fun u hu => hdom u (List.mem_cons_of_mem _ hu))
        hnd hnone hsome
    refine ⟨roots', min', heq, hnd', ?_, hnone', hsome'⟩
    intro w
    rw [hmem' w]
    have : arrRoots (none :: rest) = arrRoots rest := by
      simp [arrRoots, List.filterMap_cons]
    rw [this]
  | some v :: rest, rts, mn, hdom, hnd, hnone, hsome => by
    have hvdom : v ∈ S.domV := hdom v (List.mem_cons_self _ _)
    rcases hfv : S.find? v with _ | vn
    · rw [Store.find?_eq_none] at hfv
      exact absurd hvdom hfv
    · have harr : arrRoots (some v :: rest) = v :: arrRoots rest := by
        simp [arrRoots, List.filterMap_cons]
      rcases hmn : mn with _ | m
      · -- first root seen
        have hrts : rts = [] := hnone hmn
        subst hrts
        have hsome0 : ∀ m, (some v : Option V) = some m → m ∈ insertRoot [] v ∧
            ∃ mnn, S.find? m = some mnn ∧
              ∀ r ∈ insertRoot [] v, ∀ rn, S.find? r = some rn →
                mnn.key ≤ rn.key := by
          intro m hm
          have : m = v := by simpa using hm.symm
          subst this
          refine ⟨insertRoot_mem.2 (Or.inr rfl), vn, hfv, ?_⟩
          intro r hr rn hrn
          rcases insertRoot_mem.1 hr with h | rfl
          · cases h
          · rw [hfv] at hrn
            have : rn = vn := by simpa using hrn.symm
            subst this
            exact le_refl _
        obtain ⟨roots', min', heq, hnd', hmem', hnone', hsome'⟩ :=
          rebuild_spec rest (insertRoot [] v) (some v)
            (fun u hu => hdom u (List.mem_cons_of_mem _ hu))
            (insertRoot_nodup v List.nodup_nil) (by intro h; cases h) hsome0
        refine ⟨roots', min', ?_, hnd', ?_, hnone', hsome'⟩
        · show rebuild S (some v :: rest) [] none = some (roots', min')
          rw [rebuild]
          exact heq
        · intro w
          rw [hmem' w, harr]
          simp [insertRoot_mem, List.mem_cons]
      · -- compare with current minimum
        rcases hsome m hmn with ⟨hmrts, mnn, hfm, hmkeys⟩
        have hrec : ∀ mn2, mn2 = (if vn.key < mnn.key then some v else some m) →
            ∃ roots' min', rebuild S rest (insertRoot rts v) mn2 =
              some (roots', min') ∧ roots'.Nodup ∧
            (∀ w, w ∈ roots' ↔ (w ∈ insertRoot rts v ∨ w ∈ arrRoots rest)) ∧
            (min' = none → roots' = []) ∧
            (∀ m2, min' = some m2 → m2 ∈ roots' ∧ ∃ mnn2, S.find? m2 = some mnn2 ∧
              ∀ r ∈ roots', ∀ rn, S.find? r = some rn → mnn2.key ≤ rn.key) := by
          intro mn2 hmn2
          refine rebuild_spec rest (insertRoot rts v) mn2
            (fun u hu => hdom u (List.mem_cons_of_mem _ hu))
            (insertRoot_nodup v hnd) (by rw [hmn2]; split <;> intro h <;> cases h) ?_
          intro m2 hm2
          rw [hmn2] at hm2
          by_cases hk : vn.key < mnn.key
          · rw [if_pos hk] at hm2
            have : m2 = v := by simpa using hm2.symm
            subst this
            refine ⟨insertRoot_mem.2 (Or.inr rfl), vn, hfv, ?_⟩
            intro r hr rn hrn
            rcases insertRoot_mem.1 hr with h | rfl
            · exact le_trans (le_of_lt hk) (hmkeys r h rn hrn)
            · rw [hfv] at hrn
              have : rn = vn := by simpa using hrn.symm
              subst this
              exact le_refl _
          · rw [if_neg hk] at hm2
            have : m2 = m := by simpa using hm2.symm
            subst this
            refine ⟨insertRoot_mem.2 (Or.inl hmrts), mnn, hfm, ?_⟩
            intro r hr rn hrn
            rcases insertRoot_mem.1 hr with h | rfl
            · exact hmkeys r h rn hrn
            · rw [hfv] at hrn
              have : rn = vn := by simpa using hrn.symm
              subst this
              exact not_lt.1 hk
        obtain ⟨roots', min', heq, hnd', hmem', hnone', hsome'⟩ :=
          hrec (if vn.key < mnn.key then some v else some m) rfl
        refine ⟨roots', min', ?_, hnd', ?_, hnone', hsome'⟩
        · show rebuild S (some v :: rest) rts (some m) = some (roots', min')
          rw [rebuild]
          simp only [hfv, hfm, Option.some_bind]
          exact heq
        · intro w
          rw [hmem' w, harr]
          simp [insertRoot_mem, List.mem_cons]
          tauto

theorem arrRoots_replicate (n : Nat) :
    arrRoots (List.replicate n (none : Option V)) = [] := by
  induction n with
  | zero => rfl
  | succ n ih => simpa [arrRoots, List.replicate_succ, List.filterMap_cons] using ih

theorem chain_min_root {S : Store K V} {R D : List V} (W : StructWF S R D)
    (Word : HeapOrd S D) :
    ∀ (f : Nat) (v : V) (n : FibNode K V) (l : List V),
      S.find? v = some n → v ∉ D → chainToRoot S f v = some l →
      ∃ r rn, l.getLast? = some r ∧ S.find? r = some rn ∧ r ∈ R ∧
        rn.key ≤ n.key := by
  intro f
  induction f with
  | zero =>
    intro v n l hv hvD hl
    simp [chainToRoot_zero] at hl
  | succ f ih =>
    intro v n l hv hvD hl
    rcases hp : n.parent with _ | p
    · rw [chainToRoot_root hv hp] at hl
      simp only [Option.some_inj] at hl
      subst hl
      exact ⟨v, n, rfl, hv, W.pnr v n hv hvD hp, le_refl _⟩
    · rw [chainToRoot_step hv hp] at hl
      rcases Option.map_eq_some'.1 hl with ⟨t, ht, hvt⟩
      subst hvt
      rcases W.parentChild v n p hv hvD hp with ⟨pn, hpn, hvmem⟩
      have hpD : p ∉ D := by
        intro hpD
        exact (W.deadUnref p hpD v n hv).2 hp
      have hple : pn.key ≤ n.key := Word p pn hpn hpD v hvmem n hv
      rcases ih p pn t hpn hpD ht with ⟨r, rn, hlast, hfr, hrR, hrle⟩
      refine ⟨r, rn, ?_, hfr, hrR, le_trans hrle hple⟩
      rcases chainToRoot_head ht with ⟨t', rfl⟩
      simpa using hlast

theorem consolidateWith_spec {h : FibonacciHeap K V} {D : List V} {L : Nat}
    (W : MidWF h.hash_map h.roots D)
    (hL : ∀ d, Nat.fib (d + 2) ≤ h.hash_map.length → d < L) :
    ∃ h', consolidateWith L h = some h' ∧
      MidWF h'.hash_map h'.roots D ∧
      h'.hash_map.domV = h.hash_map.domV ∧
      h'.hash_map.length = h.hash_map.length ∧
      h'.size = h.size ∧
      (∀ w, (h'.hash_map.find? w).map (fun m => (m.key, m.value)) =
        (h.hash_map.find? w).map (fun m => (m.key, m.value))) ∧
      (h'.min = none → h'.roots = []) ∧
      (∀ m, h'.min = some m → m ∈ h'.roots ∧
        ∃ mnn, h'.hash_map.find? m = some mnn ∧
          ∀ r ∈ h'.roots, ∀ rn, h'.hash_map.find? r = some rn →
            mnn.key ≤ rn.key) ∧
      (∀ r ∈ h'.roots, ∀ rn, h'.hash_map.find? r = some rn →
        ∀ r2 ∈ h'.roots, ∀ rn2, h'.hash_map.find? r2 = some rn2 →
          ¬r = r2 → ¬rn.children.length = rn2.children.length) := by
  have harr0 : arrRoots (List.replicate L (none : Option V)) = [] :=
    arrRoots_replicate _
  have C0 : ConsCtx h.hash_map (List.replicate L none)
      h.roots D := by
    refine ⟨?_, W.ord, W.fib, ?_⟩
    · refine W.str.rootsCongr ?_ ?_
      · rw [harr0]
        simpa using W.str.rootsNodup
      · intro w
        rw [List.mem_append, harr0]
        simp
    · intro i hi u hu
      rw [List.get_replicate] at hu
      cases hu
  have hbound0 : ∀ d', Nat.fib (d' + 2) ≤ h.hash_map.length →
      d' < (List.replicate L (none : Option V)).length := by
    intro d' hd'
    rw [List.length_replicate]
    exact hL d' hd'
  obtain ⟨S', arr', heq1, C', hal', hdom', hlen', hkeys'⟩ :=
    consolidateRoots_spec h.roots h.hash_map _ C0 hbound0
  have hdomsub : ∀ u, some u ∈ arr' → u ∈ S'.domV := by
    intro u hu
    have : u ∈ arrRoots arr' ++ [] := by
      rw [List.append_nil]
      exact arrRoots_mem.2 hu
    exact C'.str.rootsSub u this
  obtain ⟨roots', min', heq2, hnd', hmem', hnone', hsome'⟩ :=
    rebuild_spec arr' [] none hdomsub List.nodup_nil (fun _ => rfl)
      (fun m hm => by cases hm)
  have hmem2 : ∀ w, w ∈ roots' ↔ w ∈ arrRoots arr' := by
    intro w
    rw [hmem' w]
    simp
  refine ⟨{ hash_map := S', roots := roots', min := min', size := h.size },
    ?_, ⟨?_, C'.ord, C'.fib⟩, hdom', hlen', rfl, hkeys', hnone', hsome', ?_⟩
  · show consolidateWith L h = _
    simp [consolidateWith, heq1, heq2]
  · refine C'.str.rootsCongr hnd' ?_
    intro w
    rw [hmem2 w, List.append_nil]
  · intro r hr rn hrn r2 hr2 rn2 hrn2 hne hdeg
    rcases arrRoots_mem_get.1 ((hmem2 r).1 hr) with ⟨⟨i, hi2⟩, hi⟩
    rcases arrRoots_mem_get.1 ((hmem2 r2).1 hr2) with ⟨⟨j, hj2⟩, hj⟩
    rcases C'.slot i hi2 r hi with ⟨un, hun, hdi⟩
    rcases C'.slot j hj2 r2 hj with ⟨un2, hun2, hdj⟩
    have he1 : rn = un := by rw [hun] at hrn; simpa using hrn.symm
    have he2 : rn2 = un2 := by rw [hun2] at hrn2; simpa using hrn2.symm
    have hij : i = j := by
      rw [he1, hdi] at hdeg
      rw [he2, hdj] at hdeg
      exact hdeg
    subst hij
    have : arr'.get ⟨i, hi2⟩ = some r2 := by
      have : arr'.get ⟨i, hj2⟩ = some r2 := hj
      exact this
    rw [hi] at this
    exact hne (by simpa using this)

theorem consolidate_spec {h : FibonacciHeap K V} {D : List V}
    (W : MidWF h.hash_map h.roots D)
    (hsz : h.size = (h.hash_map.length : Int)) :
    ∃ h', consolidate h = some h' ∧
      MidWF h'.hash_map h'.roots D ∧
      h'.hash_map.domV = h.hash_map.domV ∧
      h'.hash_map.length = h.hash_map.length ∧
      h'.size = h.size ∧
      (∀ w, (h'.hash_map.find? w).map (fun m => (m.key, m.value)) =
        (h.hash_map.find? w).map (fun m => (m.key, m.value))) ∧
      (h'.min = none → h'.roots = []) ∧
      (∀ m, h'.min = some m → m ∈ h'.roots ∧
        ∃ mnn, h'.hash_map.find? m = some mnn ∧
          ∀ r ∈ h'.roots, ∀ rn, h'.hash_map.find? r = some rn →
            mnn.key ≤ rn.key) ∧
      (∀ r ∈ h'.roots, ∀ rn, h'.hash_map.find? r = some rn →
        ∀ r2 ∈ h'.roots, ∀ rn2, h'.hash_map.find? r2 = some rn2 →
          ¬r = r2 → ¬rn.children.length = rn2.children.length) := by
  have hL : ∀ d, Nat.fib (d + 2) ≤ h.hash_map.length → d < arrayLen h.size := by
    intro d hd
    refine lt_arrayLen ?_
    rw [hsz]
    simpa using hd
  exact consolidateWith_spec W hL

/-! ### Preservation: extract_min -/

theorem foldl_setParent_find? :
    ∀ (cs : List V) (S : Store K V), cs.Nodup → ∀ w,
      (cs.foldl (fun s c => setParent s c none) S).find? w =
        if w ∈ cs then (S.find? w).map (fun n => { n with parent := none })
        else S.find? w
  | [], S, _, w => by simp
  | c :: cs, S, hnd, w => by
    have hcnd := List.nodup_cons.1 hnd
    have ih := foldl_setParent_find? cs (setParent S c none) hcnd.2 w
    show (cs.foldl (fun s c => setParent s c none) (setParent S c none)).find? w = _
    rw [ih, find?_setParent]
    by_cases hwcs : w ∈ cs
    · rw [if_pos hwcs, if_pos (List.mem_cons_of_mem _ hwcs)]
      have hwc : ¬w = c := fun he => hcnd.1 (he ▸ hwcs)
      rw [if_neg hwc]
    · rw [if_neg hwcs]
      by_cases hwc : w = c
      · rw [if_pos hwc, if_pos (by rw [hwc]; exact List.mem_cons_self _ _), hwc]
      · rw [if_neg hwc, if_neg (by simp [hwc, hwcs])]

theorem foldl_setParent_domV :
    ∀ (cs : List V) (S : Store K V),
      Store.domV (cs.foldl (fun s c => setParent s c none) S) = S.domV
  | [], S => rfl
  | c :: cs, S => by
    show Store.domV (cs.foldl (fun s c => setParent s c none) (setParent S c none)) = _
    rw [foldl_setParent_domV cs (setParent S c none)]
    simp [setParent, Store.domV_upd]

theorem foldl_setParent_length :
    ∀ (cs : List V) (S : Store K V),
      (cs.foldl (fun s c => setParent s c none) S).length = S.length
  | [], S => rfl
  | c :: cs, S => by
    show (cs.foldl (fun s c => setParent s c none) (setParent S c none)).length = _
    rw [foldl_setParent_length cs (setParent S c none)]
    simp [setParent, Store.length_upd]

theorem foldl_setParent_acyc :
    ∀ (cs : List V) (S : Store K V),
      (∀ v ∈ S.domV, ∃ l, chainToRoot S S.length v = some l ∧ l.Nodup) →
      ∀ v ∈ Store.domV (cs.foldl (fun s c => setParent s c none) S),
        ∃ l, chainToRoot (cs.foldl (fun s c => setParent s c none) S)
          (cs.foldl (fun s c => setParent s c none) S).length v = some l ∧
          l.Nodup
  | [], S, h => h
  | c :: cs, S, h => by
    show ∀ v ∈ Store.domV (cs.foldl (fun s c => setParent s c none)
        (setParent S c none)), _
    refine foldl_setParent_acyc cs (setParent S c none) ?_
    intro v hv
    have hv' : v ∈ S.domV := by
      have : Store.domV (setParent S c none) = S.domV := by
        simp [setParent, Store.domV_upd]
      rw [this] at hv
      exact hv
    rcases h v hv' with ⟨l, hl, hnd⟩
    have hlen : (setParent S c none).length = S.length := by
      simp [setParent, Store.length_upd]
    rw [hlen]
    exact ⟨upTo c l, chainToRoot_setParent_none hl,
      (upTo_sublist c l).nodup hnd⟩

theorem foldl_insertRoot_mem :
    ∀ (cs : List V) (R : List V) (w : V),
      w ∈ cs.foldl (fun r c => insertRoot r c) R ↔ (w ∈ R ∨ w ∈ cs)
  | [], R, w => by simp
  | c :: cs, R, w => by
    show w ∈ cs.foldl (fun r c => insertRoot r c) (insertRoot R c) ↔ _
    rw [foldl_insertRoot_mem cs (insertRoot R c) w, insertRoot_mem]
    simp [List.mem_cons]
    tauto

theorem foldl_insertRoot_nodup :
    ∀ (cs : List V) (R : List V), R.Nodup →
      (cs.foldl (fun r c => insertRoot r c) R).Nodup
  | [], _, h => h
  | c :: cs, R, h =>
    foldl_insertRoot_nodup cs (insertRoot R c) (insertRoot_nodup c h)

theorem promote_spec {S : Store K V} {R : List V} {zv : V} {z : FibNode K V}
    (W : MidWF S R []) (hz : S.find? zv = some z) (hzR : zv ∈ R) :
    MidWF (z.children.foldl (fun s c => setParent s c none) S)
      (removeRoot (z.children.foldl (fun r c => insertRoot r c) R) zv) [zv] := by
  have hzp : z.parent = none := W.str.rootsParent zv hzR z hz
  have ndcs : z.children.Nodup := W.str.childrenNodup zv z hz (by simp)
  have hcp : ∀ c ∈ z.children, ∃ cn, S.find? c = some cn ∧ cn.parent = some zv :=
    W.str.childParent zv z hz (by simp)
  have hzv_cs : zv ∉ z.children := by
    intro hmem
    rcases hcp zv hmem with ⟨cn, hcn, hcpp⟩
    rw [hz] at hcn
    have : cn = z := by simpa using hcn.symm
    subst this
    rw [hzp] at hcpp
    cases hcpp
  have hf := foldl_setParent_find? z.children S ndcs
  set S1 := z.children.foldl (fun s c => setParent s c none) S with hS1
  set R2 := removeRoot (z.children.foldl (fun r c => insertRoot r c) R) zv with hR2
  have hmemR2 : ∀ w, w ∈ R2 ↔ ((w ∈ R ∨ w ∈ z.children) ∧ ¬w = zv) := by
    intro w
    rw [hR2, removeRoot, List.mem_filter, foldl_insertRoot_mem]
    simp
  have hsplit : ∀ {w n}, S1.find? w = some n →
      (w ∈ z.children ∧ ∃ n0, S.find? w = some n0 ∧
        n = { n0 with parent := none }) ∨
      (w ∉ z.children ∧ S.find? w = some n) := by
    intro w n hw
    rw [hf w] at hw
    by_cases hwcs : w ∈ z.children
    · rw [if_pos hwcs] at hw
      rcases Option.map_eq_some'.1 hw with ⟨n0, hn0, hn⟩
      exact Or.inl ⟨hwcs, n0, hn0, hn.symm⟩
    · rw [if_neg hwcs] at hw
      exact Or.inr ⟨hwcs, hw⟩
  have hkeep : ∀ {w n}, w ∉ z.children → S.find? w = some n →
      S1.find? w = some n := by
    intro w n hwcs hw
    rw [hf w, if_neg hwcs]
    exact hw
  have hprom : ∀ {w n0}, w ∈ z.children → S.find? w = some n0 →
      S1.find? w = some { n0 with parent := none } := by
    intro w n0 hwcs hw
    rw [hf w, if_pos hwcs, hw]
    rfl
  have hc_not_cs : ∀ {u n c}, S.find? u = some n → ¬u = zv →
      c ∈ n.children → c ∉ z.children := by
    intro u n c hu huzv hc hccs
    rcases W.str.childParent u n hu (by simp) c hc with ⟨cn, hcn, hcpar⟩
    rcases hcp c hccs with ⟨cn', hcn', hcpar'⟩
    rw [hcn] at hcn'
    have : cn' = cn := by simpa using hcn'.symm
    subst this
    rw [hcpar] at hcpar'
    exact huzv (by simpa using hcpar')
  have hdomV : Store.domV S1 = S.domV := foldl_setParent_domV _ _
  have hlen : S1.length = S.length := foldl_setParent_length _ _
  have ndR2 : R2.Nodup := by
    rw [hR2, removeRoot]
    exact (foldl_insertRoot_nodup _ R W.str.rootsNodup).filter _
  refine ⟨⟨?_, ?_, ?_, ndR2, ?_, ?_, ?_, ?_, ?_, ?_, ?_, ?_, ?_, ?_⟩, ?_, ?_⟩
  · rw [hdomV]
    exact W.str.domNodup
  · intro w n hw
    rcases hsplit hw with ⟨_, n0, hn0, rfl⟩ | ⟨_, hw⟩
    · simpa using W.str.valEq w n0 hn0
    · exact W.str.valEq w n hw
  · exact foldl_setParent_acyc z.children S W.str.acyc
  · intro r hr
    rw [hdomV]
    rcases ((hmemR2 r).1 hr).1 with h | h
    · exact W.str.rootsSub r h
    · rcases hcp r h with ⟨cn, hcn, _⟩
      exact Store.mem_domV_of_find? hcn
  · intro r hr n hn
    rcases hsplit hn with ⟨_, n0, hn0, rfl⟩ | ⟨hrcs, hn⟩
    · rfl
    · rcases ((hmemR2 r).1 hr).1 with h | h
      · exact W.str.rootsParent r h n hn
      · exact absurd h hrcs
  · intro r hr
    have := ((hmemR2 r).1 hr).2
    simpa using this
  · intro w hw
    simp only [List.mem_singleton] at hw
    subst hw
    rw [hdomV]
    exact Store.mem_domV_of_find? hz
  · intro w hw n hn
    simp only [List.mem_singleton] at hw
    subst hw
    rcases hsplit hn with ⟨hcs, _⟩ | ⟨_, hn⟩
    · exact absurd hcs hzv_cs
    · rw [hz] at hn
      have : n = z := by simpa using hn.symm
      subst this
      exact hzp
  · intro w hw u n hn
    simp only [List.mem_singleton] at hw
    subst hw
    constructor
    · intro hmem
      rcases hsplit hn with ⟨_, n0, hn0, rfl⟩ | ⟨_, hn0⟩
      · simp only [] at hmem
        rcases W.str.childParent u n0 hn0 (by simp) w hmem with ⟨cn, hcn, hcpar⟩
        rw [hz] at hcn
        have : cn = z := by simpa using hcn.symm
        subst this
        rw [hzp] at hcpar
        cases hcpar
      · rcases W.str.childParent u n hn0 (by simp) w hmem with ⟨cn, hcn, hcpar⟩
        rw [hz] at hcn
        have : cn = z := by simpa using hcn.symm
        subst this
        rw [hzp] at hcpar
        cases hcpar
    · intro hpar
      rcases hsplit hn with ⟨_, n0, hn0, rfl⟩ | ⟨hucs, hn0⟩
      · simp at hpar
      · rcases W.str.parentChild u n w hn0 (by simp) hpar with ⟨pn, hpn, hmem⟩
        rw [hz] at hpn
        have : pn = z := by simpa using hpn.symm
        subst this
        exact hucs hmem
  · intro v n hv hvD hp
    have hvzv : ¬v = zv := by simpa using hvD
    rw [hmemR2]
    rcases hsplit hv with ⟨hvcs, n0, hn0, rfl⟩ | ⟨hvcs, hv⟩
    · exact ⟨Or.inr hvcs, hvzv⟩
    · exact ⟨Or.inl (W.str.pnr v n hv (by simp) hp), hvzv⟩
  · intro v n hv hvD c hc
    have hvzv : ¬v = zv := by simpa using hvD
    rcases hsplit hv with ⟨hvcs, n0, hn0, rfl⟩ | ⟨hvcs, hv0⟩
    · simp only [] at hc
      rcases W.str.childParent v n0 hn0 (by simp) c hc with ⟨cn, hcn, hcpar⟩
      have hccs : c ∉ z.children := hc_not_cs hn0 hvzv hc
      exact ⟨cn, hkeep hccs hcn, hcpar⟩
    · rcases W.str.childParent v n hv0 (by simp) c hc with ⟨cn, hcn, hcpar⟩
      have hccs : c ∉ z.children := hc_not_cs hv0 hvzv hc
      exact ⟨cn, hkeep hccs hcn, hcpar⟩
  · intro v n p hv hvD hp
    rcases hsplit hv with ⟨hvcs, n0, hn0, rfl⟩ | ⟨hvcs, hv0⟩
    · simp at hp
    · rcases W.str.parentChild v n p hv0 (by simp) hp with ⟨pn, hpn, hmem⟩
      by_cases hpcs : p ∈ z.children
      · exact ⟨{ pn with parent := none }, hprom hpcs hpn, hmem⟩
      · exact ⟨pn, hkeep hpcs hpn, hmem⟩
  · intro v n hv hvD
    rcases hsplit hv with ⟨_, n0, hn0, rfl⟩ | ⟨_, hv0⟩
    · simpa using W.str.childrenNodup v n0 hn0 (by simp)
    · exact W.str.childrenNodup v n hv0 (by simp)
  · intro v n hv hvD c hc cn hcn
    rcases hsplit hv with ⟨_, n0, hn0, hrec⟩ | ⟨_, hv0⟩
    · subst hrec
      simp only [] at hc ⊢
      rcases hsplit hcn with ⟨_, cn0, hcn0, rfl⟩ | ⟨_, hcn0⟩
      · simp only []
        exact W.ord v n0 hn0 (by simp) c hc cn0 hcn0
      · exact W.ord v n0 hn0 (by simp) c hc cn hcn0
    · rcases hsplit hcn with ⟨_, cn0, hcn0, rfl⟩ | ⟨_, hcn0⟩
      · simp only []
        exact W.ord v n hv0 (by simp) c hc cn0 hcn0
      · exact W.ord v n hv0 (by simp) c hc cn hcn0
  · intro v n hv hvD
    have htr : ∀ c ∈ n.children, ∀ j, fibCond S c j → fibCond S1 c j := by
      intro c _ j hcond cn hcn
      rcases hsplit hcn with ⟨_, cn0, hcn0, rfl⟩ | ⟨_, hcn0⟩
      · have := hcond cn0 hcn0
        simpa using this
      · exact hcond cn hcn0
    rcases hsplit hv with ⟨_, n0, hn0, hrec⟩ | ⟨_, hv0⟩
    · subst hrec
      simp only []
      refine FibSeq_transfer (W.fib v n0 hn0 (by simp)) ?_
      intro c hc j hcond
      exact htr c (by simpa using hc) j hcond
    · exact FibSeq_transfer (W.fib v n hv0 (by simp)) htr

theorem erase_dead_spec {S : Store K V} {R : List V} {zv : V}
    (W : MidWF S R [zv]) : MidWF (S.erase zv) R [] := by
  have hnd := W.str.domNodup
  have hf : ∀ w, (S.erase zv).find? w = if w = zv then none else S.find? w :=
    fun w => Store.find?_erase S zv w hnd
  have hsplit : ∀ {w n}, (S.erase zv).find? w = some n →
      ¬w = zv ∧ S.find? w = some n := by
    intro w n hw
    rw [hf w] at hw
    by_cases hwz : w = zv
    · rw [if_pos hwz] at hw
      cases hw
    · rw [if_neg hwz] at hw
      exact ⟨hwz, hw⟩
  have hkeep : ∀ {w n}, ¬w = zv → S.find? w = some n →
      (S.erase zv).find? w = some n := by
    intro w n hwz hw
    rw [hf w, if_neg hwz]
    exact hw
  have hzdead : zv ∈ [zv] := List.mem_singleton.2 rfl
  have hc_ne : ∀ {u n c}, S.find? u = some n → c ∈ n.children → ¬c = zv := by
    intro u n c hu hc hcz
    exact (W.str.deadUnref zv hzdead u n hu).1 (hcz ▸ hc)
  have hp_ne : ∀ {u n p}, S.find? u = some n → n.parent = some p → ¬p = zv := by
    intro u n p hu hp hpz
    exact (W.str.deadUnref zv hzdead u n hu).2 (hpz ▸ hp)
  refine ⟨⟨?_, ?_, ?_, W.str.rootsNodup, ?_, ?_, ?_, ?_, ?_, ?_, ?_, ?_, ?_, ?_⟩,
    ?_, ?_⟩
  · exact Store.domV_erase_nodup S zv hnd
  · intro w n hw
    exact W.str.valEq w n (hsplit hw).2
  · intro v hv
    rcases (Store.mem_domV_erase hnd).1 hv with ⟨hvdom, hvz⟩
    rcases hfv : S.find? v with _ | nv
    · rw [Store.find?_eq_none] at hfv
      exact absurd hvdom hfv
    rcases W.str.acyc v hvdom with ⟨l, hl, hlnd⟩
    have hlz : ∀ w ∈ l, ¬w = zv := by
      intro w hw hwz
      subst hwz
      rcases chainToRoot_mem_parent hl hw with hwv | ⟨u, nu, _, hfu, hpu⟩
      · exact hvz hwv.symm
      · exact hp_ne hfu hpu rfl
    have hl' : chainToRoot (S.erase zv) S.length v = some l := by
      refine chainToRoot_congr_on hl ?_
      intro w hw
      rw [hf w, if_neg (hlz w hw)]
    have hldom : ∀ a ∈ l, a ∈ (S.erase zv).domV := by
      intro a ha
      rw [Store.mem_domV_erase hnd]
      exact ⟨chainToRoot_mem_dom hl ha, hlz a ha⟩
    have hllen : l.length ≤ (S.erase zv).length := nodup_length_le_store hlnd hldom
    exact ⟨l, chainToRoot_mono (chainToRoot_min_fuel hl') hllen, hlnd⟩
  · intro r hr
    rw [Store.mem_domV_erase hnd]
    refine ⟨W.str.rootsSub r hr, ?_⟩
    have := W.str.rootsLive r hr
    simpa using this
  · intro r hr n hn
    exact W.str.rootsParent r hr n (hsplit hn).2
  · intro r _
    exact List.not_mem_nil r
  · intro w hw
    exact absurd hw (List.not_mem_nil w)
  · intro w hw
    exact absurd hw (List.not_mem_nil w)
  · intro w hw
    exact absurd hw (List.not_mem_nil w)
  · intro v n hv _ hp
    rcases hsplit hv with ⟨hvz, hv0⟩
    refine W.str.pnr v n hv0 ?_ hp
    simpa using hvz
  · intro v n hv _ c hc
    rcases hsplit hv with ⟨hvz, hv0⟩
    rcases W.str.childParent v n hv0 (by simpa using hvz) c hc with ⟨cn, hcn, hcp⟩
    exact ⟨cn, hkeep (hc_ne hv0 hc) hcn, hcp⟩
  · intro v n p hv _ hp
    rcases hsplit hv with ⟨hvz, hv0⟩
    rcases W.str.parentChild v n p hv0 (by simpa using hvz) hp with ⟨pn, hpn, hmem⟩
    exact ⟨pn, hkeep (hp_ne hv0 hp) hpn, hmem⟩
  · intro v n hv _
    rcases hsplit hv with ⟨hvz, hv0⟩
    exact W.str.childrenNodup v n hv0 (by simpa using hvz)
  · intro v n hv _ c hc cn hcn
    rcases hsplit hv with ⟨hvz, hv0⟩
    exact W.ord v n hv0 (by simpa using hvz) c hc cn (hsplit hcn).2
  · intro v n hv _
    rcases hsplit hv with ⟨hvz, hv0⟩
    refine FibSeq_transfer (W.fib v n hv0 (by simpa using hvz)) ?_
    intro c _ j hcond cn hcn
    exact hcond cn (hsplit hcn).2

theorem no_roots_empty {S : Store K V} (W : MidWF S [] []) : S = [] := by
  have hdom : S.domV = [] := by
    by_contra hne
    rcases List.exists_mem_of_ne_nil _ hne with ⟨v, hv⟩
    rcases hfv : S.find? v with _ | n
    · rw [Store.find?_eq_none] at hfv
      exact hfv hv
    · rcases W.str.acyc v hv with ⟨l, hl, _⟩
      rcases chain_min_root W.str W.ord _ v n l hfv (by simp) hl with
        ⟨r, rn, _, _, hrR, _⟩
      exact absurd hrR (List.not_mem_nil r)
  cases S with
  | nil => rfl
  | cons e S' => simp [Store.domV] at hdom

theorem extract_min_spec {h : FibonacciHeap K V} (W : HeapWF h) :
    ∃ res h', extract_min h = some (res, h') ∧ HeapWF h' ∧
      ((h.min = none ∧ res = none ∧ h' = h) ∨
       (∃ zv z, h.min = some zv ∧ h.hash_map.find? zv = some z ∧
         res = some (z.key, z.value) ∧
         (∀ v n, h.hash_map.find? v = some n → z.key ≤ n.key) ∧
         h'.size = h.size - 1 ∧
         h'.hash_map.find? zv = none ∧
         (∀ w, ¬w = zv → (h'.hash_map.find? w).map (fun m => (m.key, m.value)) =
           (h.hash_map.find? w).map (fun m => (m.key, m.value))) ∧
         (∀ w, w ∈ h'.hash_map.domV ↔ (w ∈ h.hash_map.domV ∧ ¬w = zv)) ∧
         (∀ r ∈ h'.roots, ∀ rn, h'.hash_map.find? r = some rn →
           ∀ r2 ∈ h'.roots, ∀ rn2, h'.hash_map.find? r2 = some rn2 →
             ¬r = r2 → ¬rn.children.length = rn2.children.length))) := by
  rcases hmin : h.min with _ | zv
  · refine ⟨none, h, ?_, W, Or.inl ⟨rfl, rfl, rfl⟩⟩
    simp [extract_min, hmin]
  · obtain ⟨hzvR, hminkey⟩ := W.minSome zv hmin
    have hzvdom : zv ∈ h.hash_map.domV := W.mid.str.rootsSub zv hzvR
    rcases hz : h.hash_map.find? zv with _ | z
    · rw [Store.find?_eq_none] at hz
      exact absurd hzvdom hz
    have hkeymin : ∀ v n, h.hash_map.find? v = some n → z.key ≤ n.key := by
      intro v n hv
      rcases hminkey v n hv with ⟨mn, hmn, hle⟩
      rw [hz] at hmn
      have : mn = z := by simpa using hmn.symm
      subst this
      exact hle
    set S1 := z.children.foldl (fun s c => setParent s c none) h.hash_map with hS1
    set R1 := z.children.foldl (fun r c => insertRoot r c) h.roots with hR1
    set R2 := removeRoot R1 zv with hR2
    have Wm : MidWF S1 R2 [zv] := promote_spec W.mid hz hzvR
    have ndcs : z.children.Nodup := W.mid.str.childrenNodup zv z hz (by simp)
    have hfS1 := foldl_setParent_find? z.children h.hash_map ndcs
    have hdomS1 : Store.domV S1 = h.hash_map.domV := foldl_setParent_domV _ _
    have hlenS1 : S1.length = h.hash_map.length := foldl_setParent_length _ _
    have hkvS1 : ∀ w, (S1.find? w).map (fun m => (m.key, m.value)) =
        (h.hash_map.find? w).map (fun m => (m.key, m.value)) := by
      intro w
      rw [hfS1 w]
      by_cases hwcs : w ∈ z.children
      · rw [if_pos hwcs]
        rcases h.hash_map.find? w with _ | n <;> rfl
      · rw [if_neg hwcs]
    have hzvS1 : S1.find? zv = some z := by
      have hzv_cs : zv ∉ z.children := by
        intro hmem
        rcases W.mid.str.childParent zv z hz (by simp) zv hmem with ⟨cn, hcn, hcpp⟩
        rw [hz] at hcn
        have hcnz : cn = z := by simpa using hcn.symm
        rw [hcnz, W.mid.str.rootsParent zv hzvR z hz] at hcpp
        cases hcpp
      rw [hfS1 zv, if_neg hzv_cs]
      exact hz
    have hzvdomS1 : zv ∈ Store.domV S1 := by rw [hdomS1]; exact hzvdom
    have hunfold : extract_min h = (if R2.isEmpty then
        some (some (z.key, z.value),
          { hash_map := Store.erase S1 zv, roots := R2, min := none,
            size := h.size - 1 })
      else do
        let h2 ← consolidate
          { hash_map := S1, roots := R2, min := R2.getLast?, size := h.size }
        some (some (z.key, z.value),
          { h2 with hash_map := Store.erase h2.hash_map zv, size := h.size - 1 })) := by
      rw [extract_min, hmin]
      simp [hz]
    by_cases hemp : R2.isEmpty
    · rw [if_pos hemp] at hunfold
      have hR2nil : R2 = [] := by simpa [List.isEmpty_iff] using hemp
      have Wer : MidWF (Store.erase S1 zv) R2 [] := erase_dead_spec Wm
      have Wnil : MidWF (Store.erase S1 zv) [] [] := by
        rw [hR2nil] at Wer
        exact Wer
      have hSnil : Store.erase S1 zv = [] := no_roots_empty Wnil
      have hlen1 : (Store.erase S1 zv).length + 1 = S1.length :=
        Store.length_erase_of_mem S1 zv hzvdomS1
      have hS1len1 : S1.length = 1 := by
        rw [hSnil] at hlen1
        simpa using hlen1.symm
      refine ⟨some (z.key, z.value), _, hunfold, ?_,
        Or.inr ⟨zv, z, rfl, hz, rfl, hkeymin, rfl, ?_, ?_, ?_, ?_⟩⟩
      · refine ⟨by rw [hR2nil] at Wer ⊢; exact Wer, ?_, ?_, ?_⟩
        · intro _
          exact hSnil
        · intro m hm
          cases hm
        · show h.size - 1 = ((Store.erase S1 zv).length : Int)
          rw [hSnil]
          have := W.sizeEq
          rw [this, ← hlenS1, hS1len1]
          simp
      · show (Store.erase S1 zv).find? zv = none
        rw [Store.find?_erase S1 zv zv Wm.str.domNodup, if_pos rfl]
      · intro w hwz
        show ((Store.erase S1 zv).find? w).map _ = _
        rw [Store.find?_erase S1 zv w Wm.str.domNodup, if_neg hwz]
        exact hkvS1 w
      · intro w
        show w ∈ (Store.erase S1 zv).domV ↔ _
        rw [Store.mem_domV_erase Wm.str.domNodup, hdomS1]
      · intro r hr
        rw [show ({ hash_map := Store.erase S1 zv, roots := R2, min := none, size := h.size - 1 } : FibonacciHeap K V).roots = R2 from rfl, hR2nil] at hr
        cases hr
    · rw [if_neg hemp] at hunfold
      have hsz1 : ({ hash_map := S1, roots := R2, min := R2.getLast?, size := h.size } : FibonacciHeap K V).size =
          (({ hash_map := S1, roots := R2, min := R2.getLast?, size := h.size } : FibonacciHeap K V).hash_map.length : Int) := by
        show h.size = (S1.length : Int)
        rw [hlenS1]
        exact W.sizeEq
      obtain ⟨h2, heqc, Wm2, hdom2, hlen2, hsz2, hkeys2, hnone2, hsome2, hdeg2⟩ :=
        consolidate_spec Wm hsz1
      rw [heqc] at hunfold
      have hunfold2 : extract_min h = some (some (z.key, z.value),
          { h2 with hash_map := Store.erase h2.hash_map zv, size := h.size - 1 }) := by
        rw [hunfold]
        rfl
      have Wer2 : MidWF (Store.erase h2.hash_map zv) h2.roots [] :=
        erase_dead_spec Wm2
      have hnd2 : h2.hash_map.domV.Nodup := Wm2.str.domNodup
      have hzvdom2 : zv ∈ h2.hash_map.domV := by
        rw [hdom2]
        exact hzvdomS1
      have hlenerase : (Store.erase h2.hash_map zv).length + 1 =
          h2.hash_map.length := Store.length_erase_of_mem _ _ hzvdom2
      refine ⟨some (z.key, z.value), _, hunfold2, ?_,
        Or.inr ⟨zv, z, rfl, hz, rfl, hkeymin, rfl, ?_, ?_, ?_, ?_⟩⟩
      · refine ⟨Wer2, ?_, ?_, ?_⟩
        · intro hm2
          have hroots2 : h2.roots = [] := hnone2 hm2
          have Wnil2 : MidWF (Store.erase h2.hash_map zv) [] [] := by
            have Wtmp := Wer2
            rw [hroots2] at Wtmp
            exact Wtmp
          exact no_roots_empty Wnil2
        · intro m hm2
          rcases hsome2 m hm2 with ⟨hmroot, mnn, hfm, hmkeys⟩
          have hmzv : ¬m = zv := by
            have := Wm2.str.rootsLive m hmroot
            simpa using this
          refine ⟨hmroot, ?_⟩
          intro v n hv
          rcases (by
            rw [Store.find?_erase _ _ _ hnd2] at hv
            by_cases hvz : v = zv
            · rw [if_pos hvz] at hv; cases hv
            · rw [if_neg hvz] at hv; exact ⟨hvz, hv⟩ :
            ¬v = zv ∧ h2.hash_map.find? v = some n) with ⟨hvz, hv2⟩
          rcases Wm2.str.acyc v (Store.mem_domV_of_find? hv2) with ⟨l, hl, _⟩
          rcases chain_min_root Wm2.str Wm2.ord _ v n l hv2
            (by simpa using hvz) hl with ⟨r, rn, _, hfr, hrR, hrle⟩
          refine ⟨mnn, ?_, le_trans (hmkeys r hrR rn hfr) hrle⟩
          rw [Store.find?_erase _ _ _ hnd2, if_neg hmzv]
          exact hfm
        · show h.size - 1 = ((Store.erase h2.hash_map zv).length : Int)
          rw [W.sizeEq]
          have : h2.hash_map.length = h.hash_map.length := by
            rw [hlen2, hlenS1]
          omega
      · show (Store.erase h2.hash_map zv).find? zv = none
        rw [Store.find?_erase _ _ _ hnd2, if_pos rfl]
      · intro w hwz
        show ((Store.erase h2.hash_map zv).find? w).map _ = _
        rw [Store.find?_erase _ _ _ hnd2, if_neg hwz]
        exact (hkeys2 w).trans (hkvS1 w)
      · intro w
        show w ∈ (Store.erase h2.hash_map zv).domV ↔ _
        rw [Store.mem_domV_erase hnd2, hdom2, hdomS1]
      · intro r hr rn hrn r2 hr2 rn2 hrn2 hne
        have hrz : ¬r = zv := by simpa using Wm2.str.rootsLive r hr
        have hr2z : ¬r2 = zv := by simpa using Wm2.str.rootsLive r2 hr2
        rw [show ({ h2 with hash_map := Store.erase h2.hash_map zv, size := h.size - 1 } : FibonacciHeap K V).hash_map = Store.erase h2.hash_map zv from rfl] at hrn hrn2
        rw [Store.find?_erase _ _ _ hnd2, if_neg hrz] at hrn
        rw [Store.find?_erase _ _ _ hnd2, if_neg hr2z] at hrn2
        exact hdeg2 r hr rn hrn r2 hr2 rn2 hrn2 hne

/-! ### Reachable states -/

theorem minimum_total {h : FibonacciHeap K V} (W : HeapWF h) :
    ∃ res, minimum h = some res ∧
      (res = none ↔ h.min = none) ∧
      (∀ p, res = some p → ∃ m n, h.min = some m ∧
        h.hash_map.find? m = some n ∧ p = (n.key, n.value)) := by
  rcases hm : h.min with _ | m
  · refine ⟨none, by simp [minimum, hm], by simp, ?_⟩
    intro p hp
    cases hp
  · obtain ⟨hmR, _⟩ := W.minSome m hm
    have hmdom := W.mid.str.rootsSub m hmR
    rcases hfm : h.hash_map.find? m with _ | n
    · rw [Store.find?_eq_none] at hfm
      exact absurd hmdom hfm
    · refine ⟨some (n.key, n.value), ?_, by simp, ?_⟩
      · simp [minimum, hm, hfm]
      · intro p hp
        exact ⟨m, n, rfl, hfm, by simpa using hp.symm⟩

theorem HeapWF.empty_iffs {h : FibonacciHeap K V} (W : HeapWF h) :
    (h.size = 0 ↔ h.min = none) ∧ (h.size = 0 ↔ h.roots = []) ∧
      (h.size = 0 ↔ h.hash_map = []) := by
  have hsz := W.sizeEq
  have hmap : h.size = 0 ↔ h.hash_map = [] := by
    constructor
    · intro h0
      rw [h0] at hsz
      have hl : h.hash_map.length = 0 := by exact_mod_cast hsz.symm
      exact List.length_eq_zero.1 hl
    · intro hnil
      rw [hsz, hnil]
      rfl
  have hmin : h.hash_map = [] ↔ h.min = none := by
    constructor
    · intro hnil
      rcases hm : h.min with _ | m
      · rfl
      · exfalso
        obtain ⟨hmR, _⟩ := W.minSome m hm
        have hd := W.mid.str.rootsSub m hmR
        rw [hnil] at hd
        simp [Store.domV] at hd
    · exact W.minNone
  have hroots : h.hash_map = [] ↔ h.roots = [] := by
    constructor
    · intro hnil
      rcases hR : h.roots with _ | ⟨r, rs⟩
      · rfl
      · exfalso
        have hr : r ∈ h.roots := by
          rw [hR]
          exact List.mem_cons_self _ _
        have hd := W.mid.str.rootsSub r hr
        rw [hnil] at hd
        simp [Store.domV] at hd
    · intro hRnil
      have Wm := W.mid
      rw [hRnil] at Wm
      exact no_roots_empty Wm
  exact ⟨hmap.trans hmin, hmap.trans hroots, hmap⟩

theorem runFrom_spec :
    ∀ (ops : List (Op K V)) (h : FibonacciHeap K V),
      HeapWF h → (insValues ops).Nodup →
      (∀ w ∈ h.hash_map.domV, w ∉ insValues ops) →
      ∃ outs h', runFrom h ops = some (outs, h') ∧ HeapWF h' ∧
        h'.size = h.size + (insCount ops : Int) - (popCount outs : Int) ∧
        (∀ w, w ∈ h'.hash_map.domV ↔
          ((w ∈ h.hash_map.domV ∨ w ∈ insValues ops) ∧ w ∉ poppedValues outs))
  | [], h, W, _, _ => ⟨[], h, rfl, W, by simp [insCount, popCount], by
      intro w
      simp [insValues, poppedValues]⟩
  | Op.ins k v :: ops, h, W, hnd, hfr => by
    have e1 : insValues (Op.ins k v :: ops) = v :: insValues ops := rfl
    have hvins : v ∈ insValues (Op.ins k v :: ops) := by
      rw [e1]
      exact List.mem_cons_self _ _
    have hvfresh : v ∉ h.hash_map.domV := fun hv => hfr v hv hvins
    obtain ⟨h1, heq1, W1, hmap1, hroots1, hsz1⟩ := insert_spec W k hvfresh
    have hdom1 : Store.domV h1.hash_map = h.hash_map.domV ++ [v] := by
      rw [hmap1]
      exact Store.domV_ins_of_fresh _ _ _ hvfresh
    rw [e1] at hnd
    have hnd' : (insValues ops).Nodup := (List.nodup_cons.1 hnd).2
    have hvnotin : v ∉ insValues ops := (List.nodup_cons.1 hnd).1
    have hfr' : ∀ w ∈ h1.hash_map.domV, w ∉ insValues ops := by
      intro w hw
      rw [hdom1] at hw
      rcases List.mem_append.1 hw with hw | hw
      · intro hcon
        exact hfr w hw (by rw [e1]; exact List.mem_cons_of_mem _ hcon)
      · simp only [List.mem_singleton] at hw
        subst hw
        exact hvnotin
    obtain ⟨outs, h', heq, W', hsz, hdomc⟩ := runFrom_spec ops h1 W1 hnd' hfr'
    refine ⟨Out.done :: outs, h', ?_, W', ?_, ?_⟩
    · simp [runFrom, stepOut, heq1, heq]
    · rw [hsz, hsz1]
      have e2 : insCount (Op.ins k v :: ops) = insCount ops + 1 := rfl
      have e3 : popCount (Out.done :: outs) = popCount outs := rfl
      rw [e2, e3]
      push_cast
      ring
    · intro w
      rw [hdomc w, hdom1]
      have e3 : poppedValues (Out.done :: outs) = poppedValues outs := rfl
      rw [e1, e3]
      simp only [List.mem_append, List.mem_singleton, List.mem_cons]
      tauto
  | Op.extr :: ops, h, W, hnd, hfr => by
    have e1 : insValues (Op.extr :: ops) = insValues ops := rfl
    rw [e1] at hnd
    have hfr0 : ∀ w ∈ h.hash_map.domV, w ∉ insValues ops := by
      intro w hw
      exact fun hc => hfr w hw (by rw [e1]; exact hc)
    obtain ⟨res, h1, heq1, W1, hcase⟩ := extract_min_spec W
    rcases hcase with ⟨hmin0, hres, hh1⟩ | ⟨zv, z, hmin0, hz, hres, hkeymin,
        hsz1, hzn, hkv1, hdom1, hdeg1⟩
    · subst hres
      subst hh1
      obtain ⟨outs, h', heq, W', hsz, hdomc⟩ := runFrom_spec ops h1 W1 hnd hfr0
      refine ⟨Out.popped none :: outs, h', ?_, W', ?_, ?_⟩
      · simp [runFrom, stepOut, heq1, heq]
      · rw [hsz]
        have e2 : insCount (Op.extr :: ops) = insCount ops := rfl
        have e3 : popCount (Out.popped none :: outs) = popCount outs := rfl
        rw [e2, e3]
      · intro w
        rw [hdomc w]
        have e3 : poppedValues (Out.popped none :: outs) = poppedValues outs := rfl
        rw [e1, e3]
    · subst hres
      have hzvdom : zv ∈ h.hash_map.domV := Store.mem_domV_of_find? hz
      have hfr1 : ∀ w ∈ h1.hash_map.domV, w ∉ insValues ops := by
        intro w hw
        exact hfr0 w ((hdom1 w).1 hw).1
      obtain ⟨outs, h', heq, W', hsz, hdomc⟩ := runFrom_spec ops h1 W1 hnd hfr1
      refine ⟨Out.popped (some (z.key, z.value)) :: outs, h', ?_, W', ?_, ?_⟩
      · simp [runFrom, stepOut, heq1, heq]
      · rw [hsz, hsz1]
        have e2 : insCount (Op.extr :: ops) = insCount ops := rfl
        have e3 : popCount (Out.popped (some (z.key, z.value)) :: outs) =
            popCount outs + 1 := rfl
        rw [e2, e3]
        push_cast
        ring
      · intro w
        rw [hdomc w]
        have hzval : z.value = zv := W.mid.str.valEq zv z hz
        have e3 : poppedValues (Out.popped (some (z.key, z.value)) :: outs) =
            z.value :: poppedValues outs := rfl
        rw [e1, e3, hzval]
        constructor
        · rintro ⟨hin, hnp⟩
          rcases hin with hin | hin
          · rcases (hdom1 w).1 hin with ⟨hdom, hwz⟩
            refine ⟨Or.inl hdom, ?_⟩
            simp only [List.mem_cons]
            rintro (hc | hc)
            · exact hwz hc
            · exact hnp hc
          · refine ⟨Or.inr hin, ?_⟩
            simp only [List.mem_cons]
            rintro (rfl | hc)
            · exact hfr0 w hzvdom hin
            · exact hnp hc
        · rintro ⟨hin, hnp⟩
          simp only [List.mem_cons] at hnp
          push_neg at hnp
          rcases hnp with ⟨hwzv, hnp⟩
          rcases hin with hin | hin
          · exact ⟨Or.inl ((hdom1 w).2 ⟨hin, hwzv⟩), hnp⟩
          · exact ⟨Or.inr hin, hnp⟩
  | Op.dec v k :: ops, h, W, hnd, hfr => by
    have e1 : insValues (Op.dec v k :: ops) = insValues ops := rfl
    rw [e1] at hnd
    have hfr0 : ∀ w ∈ h.hash_map.domV, w ∉ insValues ops := by
      intro w hw
      exact fun hc => hfr w hw (by rw [e1]; exact hc)
    obtain ⟨r, h1, heq1, W1, hiff, herr, hdom1, hsz1⟩ := decrease_key_spec W v k
    have hfr1 : ∀ w ∈ h1.hash_map.domV, w ∉ insValues ops := by
      intro w hw
      rw [hdom1] at hw
      exact hfr0 w hw
    obtain ⟨outs, h', heq, W', hsz, hdomc⟩ := runFrom_spec ops h1 W1 hnd hfr1
    refine ⟨Out.dres (r = DKResult.ok) :: outs, h', ?_, W', ?_, ?_⟩
    · simp [runFrom, stepOut, heq1, heq]
    · rw [hsz, hsz1]
      have e2 : insCount (Op.dec v k :: ops) = insCount ops := rfl
      have e3 : popCount (Out.dres (r = DKResult.ok) :: outs) = popCount outs := rfl
      rw [e2, e3]
    · intro w
      rw [hdomc w, hdom1]
      have e3 : poppedValues (Out.dres (r = DKResult.ok) :: outs) =
          poppedValues outs := rfl
      rw [e1, e3]
  | Op.peek :: ops, h, W, hnd, hfr => by
    have e1 : insValues (Op.peek :: ops) = insValues ops := rfl
    rw [e1] at hnd
    have hfr0 : ∀ w ∈ h.hash_map.domV, w ∉ insValues ops := by
      intro w hw
      exact fun hc => hfr w hw (by rw [e1]; exact hc)
    obtain ⟨res, heqm, _, _⟩ := minimum_total W
    obtain ⟨outs, h', heq, W', hsz, hdomc⟩ := runFrom_spec ops h W hnd hfr0
    refine ⟨Out.peeked res :: outs, h', ?_, W', ?_, ?_⟩
    · simp [runFrom, stepOut, heqm, heq]
    · rw [hsz]
      have e2 : insCount (Op.peek :: ops) = insCount ops := rfl
      have e3 : popCount (Out.peeked res :: outs) = popCount outs := rfl
      rw [e2, e3]
    · intro w
      rw [hdomc w]
      have e3 : poppedValues (Out.peeked res :: outs) = poppedValues outs := rfl
      rw [e1, e3]

theorem run_spec {ops : List (Op K V)} (hnd : (insValues ops).Nodup) :
    ∃ outs h', run ops = some (outs, h') ∧ HeapWF h' ∧
      h'.size = (insCount ops : Int) - (popCount outs : Int) ∧
      (∀ w, w ∈ h'.hash_map.domV ↔
        (w ∈ insValues ops ∧ w ∉ poppedValues outs)) := by
  obtain ⟨outs, h', heq, W', hsz, hdomc⟩ :=
    runFrom_spec ops (FibonacciHeap.new K V) HeapWF.new_WF hnd
      (by intro w hw; simp [FibonacciHeap.new, Store.domV] at hw)
  refine ⟨outs, h', heq, W', ?_, ?_⟩
  · rw [hsz]
    show (0 : Int) + _ - _ = _
    ring
  · intro w
    rw [hdomc w]
    have : w ∉ Store.domV (FibonacciHeap.new K V).hash_map := by
      simp [FibonacciHeap.new, Store.domV]
    simp [this]

theorem drain_spec :
    ∀ (fuel : Nat) (h : FibonacciHeap K V), HeapWF h →
      h.hash_map.length ≤ fuel →
      ∃ ps, drain fuel h = some ps ∧
        List.Pairwise (fun p q : K × V => p.1 ≤ q.1) ps ∧
        (∀ p ∈ ps, ∃ n, h.hash_map.find? p.2 = some n ∧ p = (n.key, n.value)) ∧
        (ps.map Prod.snd).Nodup ∧
        (∀ w, w ∈ ps.map Prod.snd ↔ w ∈ h.hash_map.domV)
  | 0, h, W, hlen => by
    have hnil : h.hash_map = [] :=
      List.length_eq_zero.1 (Nat.le_zero.1 hlen)
    have hmin : h.min = none := by
      obtain ⟨h1, _, _⟩ := W.empty_iffs
      exact h1.1 (by rw [W.sizeEq, hnil]; rfl)
    obtain ⟨res, h1, heq1, _, hcase⟩ := extract_min_spec W
    have hres : res = none := by
      rcases hcase with ⟨_, hres, _⟩ | ⟨zv, z, hmin2, _⟩
      · exact hres
      · rw [hmin] at hmin2
        cases hmin2
    subst hres
    refine ⟨[], ?_, List.Pairwise.nil, ?_, List.nodup_nil, ?_⟩
    · simp [drain, heq1]
    · intro p hp
      cases hp
    · intro w
      rw [hnil]
      simp [Store.domV]
  | fuel + 1, h, W, hlen => by
    obtain ⟨res, h1, heq1, W1, hcase⟩ := extract_min_spec W
    rcases hcase with ⟨hmin0, hres, hh1⟩ | ⟨zv, z, hmin0, hz, hres, hkeymin,
        hsz1, hzn, hkv1, hdom1, hdeg1⟩
    · subst hres
      have hmin1 : h1.min = none := by rw [hh1]; exact hmin0
      have hnil : h1.hash_map = [] := W1.minNone hmin1
      refine ⟨[], ?_, List.Pairwise.nil, ?_, List.nodup_nil, ?_⟩
      · simp [drain, heq1]
      · intro p hp
        cases hp
      · intro w
        rw [← hh1, hnil]
        simp [Store.domV]
    · subst hres
      have hzvdom : zv ∈ h.hash_map.domV := Store.mem_domV_of_find? hz
      have hzval : z.value = zv := W.mid.str.valEq zv z hz
      have hlen1 : h1.hash_map.length ≤ fuel := by
        have hs1 := W1.sizeEq
        have hs0 := W.sizeEq
        rw [hsz1, hs0] at hs1
        have : (h1.hash_map.length : Int) = (h.hash_map.length : Int) - 1 := by
          omega
        have hpos : 1 ≤ h.hash_map.length := by
          rcases hcl : h.hash_map with _ | e
          · rw [hcl] at hzvdom
            simp [Store.domV] at hzvdom
          · simp
        omega
      obtain ⟨ps', hrec, hsort, hfrom, hnd', hmem'⟩ := drain_spec fuel h1 W1 hlen1
      have hlift : ∀ p ∈ ps', ∃ n0, h.hash_map.find? p.2 = some n0 ∧
          p = (n0.key, n0.value) := by
        intro p hp
        rcases hfrom p hp with ⟨n1, hn1, hpn1⟩
        have hpdom : p.2 ∈ h1.hash_map.domV := Store.mem_domV_of_find? hn1
        have hpzv : ¬p.2 = zv := ((hdom1 p.2).1 hpdom).2
        have hkv := hkv1 p.2 hpzv
        rw [hn1] at hkv
        rcases Option.map_eq_some'.1 hkv.symm with ⟨n0, hn0, hkv0⟩
        refine ⟨n0, hn0, ?_⟩
        rw [hpn1]
        exact hkv0.symm
      refine ⟨(z.key, z.value) :: ps', ?_, ?_, ?_, ?_, ?_⟩
      · simp [drain, heq1, hrec]
      · refine List.Pairwise.cons ?_ hsort
        intro q hq
        rcases hlift q hq with ⟨n0, hn0, hqn0⟩
        have := hkeymin q.2 n0 hn0
        rw [hqn0]
        exact this
      · intro p hp
        rcases List.mem_cons.1 hp with rfl | hp
        · refine ⟨z, ?_, rfl⟩
          show h.hash_map.find? z.value = some z
          rw [hzval]
          exact hz
        · exact hlift p hp
      · refine List.nodup_cons.2 ⟨?_, hnd'⟩
        intro hmem
        simp only [List.map_cons] at hmem
        have : z.value ∈ ps'.map Prod.snd := hmem
        rw [hzval] at this
        have := ((hdom1 zv).1 ((hmem' zv).1 this)).2
        exact this rfl
      · intro w
        simp only [List.map_cons, List.mem_cons]
        constructor
        · rintro (rfl | hw)
          · rw [hzval]
            exact hzvdom
          · exact ((hdom1 w).1 ((hmem' w).1 hw)).1
        · intro hw
          by_cases hwz : w = zv
          · subst hwz
            exact Or.inl hzval.symm
          · exact Or.inr ((hmem' w).2 ((hdom1 w).2 ⟨hw, hwz⟩))

/-! ### The claims -/

/-- C4: in every heap state reachable from `new()` by the public
operations with pairwise-distinct inserted values, every node's key is
at most each of its children's keys, and this still holds globally after
any `decrease_key` call on such a state (in particular after one that
returns Ok). -/
theorem C4_min_heap_property {ops : List (Op K V)}
    (hnd : (insValues ops).Nodup) :
    ∃ outs h, run ops = some (outs, h) ∧
      (∀ v n, h.hash_map.find? v = some n → ∀ c ∈ n.children, ∀ cn,
        h.hash_map.find? c = some cn → n.key ≤ cn.key) ∧
      (∀ v k r h', decrease_key h v k = some (r, h') →
        ∀ v2 n, h'.hash_map.find? v2 = some n → ∀ c ∈ n.children, ∀ cn,
          h'.hash_map.find? c = some cn → n.key ≤ cn.key) := by
  obtain ⟨outs, h, hrun, W, _, _⟩ := run_spec hnd
  refine ⟨outs, h, hrun, ?_, ?_⟩
  · intro v n hv c hc cn hcn
    exact W.mid.ord v n hv (by simp) c hc cn hcn
  · intro v k r h' heq
    obtain ⟨r0, h'0, heq0, W'0, _, _, _, _⟩ := decrease_key_spec W v k
    rw [heq0] at heq
    have hpair : r0 = r ∧ h'0 = h' := by simpa using heq
    rcases hpair with ⟨_, rfl⟩
    intro v2 n hv c hc cn hcn
    exact W'0.mid.ord v2 n hv (by simp) c hc cn hcn

/-- C4 witness: the property holds for the concrete run of the worked
example from spec section 8. -/
theorem C4_witness : ∃ outs h, run opsW = some (outs, h) ∧
    (∀ v n, h.hash_map.find? v = some n → ∀ c ∈ n.children, ∀ cn,
      h.hash_map.find? c = some cn → n.key ≤ cn.key) ∧
    (∀ v k r h', decrease_key h v k = some (r, h') →
      ∀ v2 n, h'.hash_map.find? v2 = some n → ∀ c ∈ n.children, ∀ cn,
        h'.hash_map.find? c = some cn → n.key ≤ cn.key) :=
  C4_min_heap_property (by decide)

/-- C5: on every reachable heap, `decrease_key` returns an error exactly
when the value is absent or the new key is strictly greater than the
node's current key; calling it with the current key succeeds. -/
theorem C5_decrease_key_err_iff {ops : List (Op K V)}
    (hnd : (insValues ops).Nodup) :
    ∃ outs h, run ops = some (outs, h) ∧
      ∀ v k, ∃ r h', decrease_key h v k = some (r, h') ∧
        (r = DKResult.err ↔ (h.hash_map.find? v = none ∨
          ∃ x0, h.hash_map.find? v = some x0 ∧ x0.key < k)) ∧
        (∀ x0, h.hash_map.find? v = some x0 →
          ∃ h2, decrease_key h v x0.key = some (DKResult.ok, h2)) := by
  obtain ⟨outs, h, hrun, W, _, _⟩ := run_spec hnd
  refine ⟨outs, h, hrun, ?_⟩
  intro v k
  obtain ⟨r, h', heq, _, hiff, _, _, _⟩ := decrease_key_spec W v k
  refine ⟨r, h', heq, hiff, ?_⟩
  intro x0 hx0
  obtain ⟨r2, h2, heq2, _, hiff2, _, _, _⟩ := decrease_key_spec W v x0.key
  have hr2 : r2 = DKResult.ok := by
    cases r2 with
    | ok => rfl
    | err =>
      exfalso
      rcases hiff2.1 rfl with hnone | ⟨x1, hx1, hlt⟩
      · rw [hx0] at hnone
        cases hnone
      · rw [hx0] at hx1
        have : x1 = x0 := by simpa using hx1.symm
        subst this
        exact absurd hlt (lt_irrefl _)
  rw [hr2] at heq2
  exact ⟨h2, heq2⟩

/-- C5 witness: instantiated on the worked example of spec section 8. -/
theorem C5_witness : ∃ outs h, run opsW = some (outs, h) ∧
    ∀ v k, ∃ r h', decrease_key h v k = some (r, h') ∧
      (r = DKResult.err ↔ (h.hash_map.find? v = none ∨
        ∃ x0, h.hash_map.find? v = some x0 ∧ x0.key < k)) ∧
      (∀ x0, h.hash_map.find? v = some x0 →
        ∃ h2, decrease_key h v x0.key = some (DKResult.ok, h2)) :=
  C5_decrease_key_err_iff (by decide)

/-- C6: on every reachable heap, a failing `decrease_key` returns the
heap completely unchanged (the whole heap value, hence index, roots, min,
size and every node, is equal to the one before the call). -/
theorem C6_decrease_key_err_unchanged {ops : List (Op K V)}
    (hnd : (insValues ops).Nodup) :
    ∃ outs h, run ops = some (outs, h) ∧
      ∀ v k r h', decrease_key h v k = some (r, h') →
        r = DKResult.err → h' = h := by
  obtain ⟨outs, h, hrun, W, _, _⟩ := run_spec hnd
  refine ⟨outs, h, hrun, ?_⟩
  intro v k r h' heq hr
  obtain ⟨r0, h'0, heq0, _, _, herr, _, _⟩ := decrease_key_spec W v k
  rw [heq0] at heq
  have hpair : r0 = r ∧ h'0 = h' := by simpa using heq
  rcases hpair with ⟨rfl, rfl⟩
  exact herr hr

/-- C6 witness: instantiated on the worked example of spec section 8. -/
theorem C6_witness : ∃ outs h, run opsW = some (outs, h) ∧
    ∀ v k r h', decrease_key h v k = some (r, h') →
      r = DKResult.err → h' = h :=
  C6_decrease_key_err_unchanged (by decide)

/-- C8: in every reachable state, `size` equals the number of inserts
minus the number of extractions that returned a pair, and `size = 0`,
`min` empty, `roots` empty and an empty index all coincide. -/
theorem C8_size_bookkeeping {ops : List (Op K V)}
    (hnd : (insValues ops).Nodup) :
    ∃ outs h, run ops = some (outs, h) ∧
      h.size = (insCount ops : Int) - (popCount outs : Int) ∧
      (h.size = 0 ↔ h.min = none) ∧
      (h.size = 0 ↔ h.roots = []) ∧
      (h.size = 0 ↔ h.hash_map = []) := by
  obtain ⟨outs, h, hrun, W, hsz, _⟩ := run_spec hnd
  obtain ⟨h1, h2, h3⟩ := W.empty_iffs
  exact ⟨outs, h, hrun, hsz, h1, h2, h3⟩

/-- C8 witness: instantiated on the worked example of spec section 8. -/
theorem C8_witness : ∃ outs h, run opsW = some (outs, h) ∧
    h.size = (insCount opsW : Int) - (popCount outs : Int) ∧
    (h.size = 0 ↔ h.min = none) ∧
    (h.size = 0 ↔ h.roots = []) ∧
    (h.size = 0 ↔ h.hash_map = []) :=
  C8_size_bookkeeping (by decide)

/-- C10: on every reachable heap, `decrease_key` always returns a result
(Ok or Err) rather than aborting; in particular when the value is present
the heap's `min` is non-empty, so the model's `unwrap` of `min` never
yields `none`. -/
theorem C10_decrease_key_total {ops : List (Op K V)}
    (hnd : (insValues ops).Nodup) :
    ∃ outs h, run ops = some (outs, h) ∧
      ∀ v k, (∃ r h', decrease_key h v k = some (r, h') ∧
          (r = DKResult.ok ∨ r = DKResult.err)) ∧
        (∀ x0, h.hash_map.find? v = some x0 → ∃ m, h.min = some m) := by
  obtain ⟨outs, h, hrun, W, _, _⟩ := run_spec hnd
  refine ⟨outs, h, hrun, ?_⟩
  intro v k
  constructor
  · obtain ⟨r, h', heq, _, _, _, _, _⟩ := decrease_key_spec W v k
    refine ⟨r, h', heq, ?_⟩
    cases r with
    | ok => exact Or.inl rfl
    | err => exact Or.inr rfl
  · intro x0 hx0
    rcases hm : h.min with _ | m
    · exfalso
      have hnil : h.hash_map = [] := W.minNone hm
      rw [hnil] at hx0
      cases hx0
    · exact ⟨m, rfl⟩

/-- C10 witness: instantiated on the worked example of spec section 8. -/
theorem C10_witness : ∃ outs h, run opsW = some (outs, h) ∧
    ∀ v k, (∃ r h', decrease_key h v k = some (r, h') ∧
        (r = DKResult.ok ∨ r = DKResult.err)) ∧
      (∀ x0, h.hash_map.find? v = some x0 → ∃ m, h.min = some m) :=
  C10_decrease_key_total (by decide)

/-- C2: on every reachable heap, `minimum` returns (without mutating the
heap, as the peek step shows) a pair whose key is smallest among all
inserted-and-not-yet-extracted pairs, and returns empty exactly when no
such pair exists. -/
theorem C2_minimum_smallest {ops : List (Op K V)}
    (hnd : (insValues ops).Nodup) :
    ∃ outs h, run ops = some (outs, h) ∧
      ∃ res, minimum h = some res ∧
        stepOut h Op.peek = some (Out.peeked res, h) ∧
        (res = none ↔ ∀ v, ¬(v ∈ insValues ops ∧ v ∉ poppedValues outs)) ∧
        (∀ k v, res = some (k, v) →
          (v ∈ insValues ops ∧ v ∉ poppedValues outs) ∧
          ∃ n, h.hash_map.find? v = some n ∧ n.key = k ∧
            ∀ w nw, h.hash_map.find? w = some nw → k ≤ nw.key) := by
  obtain ⟨outs, h, hrun, W, _, hdom⟩ := run_spec hnd
  obtain ⟨res, hm, hnoneiff, hsome⟩ := minimum_total W
  refine ⟨outs, h, hrun, res, hm, ?_, ?_, ?_⟩
  · simp [stepOut, hm]
  · rw [hnoneiff]
    constructor
    · intro hmn v hv
      have hvdom : v ∈ h.hash_map.domV := (hdom v).2 hv
      have hnil : h.hash_map = [] := W.minNone hmn
      rw [hnil] at hvdom
      simp [Store.domV] at hvdom
    · intro hno
      rcases hmo : h.min with _ | m
      · rfl
      · exfalso
        obtain ⟨hmR, _⟩ := W.minSome m hmo
        have hmdom := W.mid.str.rootsSub m hmR
        exact hno m ((hdom m).1 hmdom)
  · intro k v hres
    rcases hsome (k, v) hres with ⟨m, n, hmo, hfm, hp⟩
    have hval : n.value = m := W.mid.str.valEq m n hfm
    have hk : k = n.key := by simpa using congrArg Prod.fst hp
    have hv : v = m := by
      have h1 : v = n.value := by simpa using congrArg Prod.snd hp
      rw [h1, hval]
    subst hv
    obtain ⟨hmR, hmin2⟩ := W.minSome v hmo
    refine ⟨(hdom v).1 (W.mid.str.rootsSub v hmR), n, hfm, hk.symm, ?_⟩
    intro w nw hw
    rcases hmin2 w nw hw with ⟨mn, hmn, hle⟩
    rw [hfm] at hmn
    have : mn = n := by simpa using hmn.symm
    subst this
    rw [hk]
    exact hle

/-- C2 witness: instantiated on the worked example of spec section 8. -/
theorem C2_witness : ∃ outs h, run opsW = some (outs, h) ∧
    ∃ res, minimum h = some res ∧
      stepOut h Op.peek = some (Out.peeked res, h) ∧
      (res = none ↔ ∀ v, ¬(v ∈ insValues opsW ∧ v ∉ poppedValues outs)) ∧
      (∀ k v, res = some (k, v) →
        (v ∈ insValues opsW ∧ v ∉ poppedValues outs) ∧
        ∃ n, h.hash_map.find? v = some n ∧ n.key = k ∧
          ∀ w nw, h.hash_map.find? w = some nw → k ≤ nw.key) :=
  C2_minimum_smallest (by decide)

/-- C7: after any `extract_min` on a reachable heap that leaves the heap
non-empty (its recomputed `min` is some root), no two roots share a
degree, and `min` is a root whose key is at most every root's key. -/
theorem C7_consolidate_invariants {ops : List (Op K V)}
    (hnd : (insValues ops).Nodup) :
    ∃ outs h, run ops = some (outs, h) ∧
      ∀ res h', extract_min h = some (res, h') → ∀ m, h'.min = some m →
        (m ∈ h'.roots ∧ ∃ mn, h'.hash_map.find? m = some mn ∧
          ∀ r ∈ h'.roots, ∀ rn, h'.hash_map.find? r = some rn →
            mn.key ≤ rn.key) ∧
        (∀ r ∈ h'.roots, ∀ rn, h'.hash_map.find? r = some rn →
          ∀ r2 ∈ h'.roots, ∀ rn2, h'.hash_map.find? r2 = some rn2 →
            ¬r = r2 → ¬rn.children.length = rn2.children.length) := by
  obtain ⟨outs, h, hrun, W, _, _⟩ := run_spec hnd
  refine ⟨outs, h, hrun, ?_⟩
  intro res h' heq m hm
  obtain ⟨res0, h'0, heq0, W', hcase⟩ := extract_min_spec W
  rw [heq0] at heq
  have hpair : res0 = res ∧ h'0 = h' := by simpa using heq
  rcases hpair with ⟨_, rfl⟩
  constructor
  · obtain ⟨hmR, hmin2⟩ := W'.minSome m hm
    rcases hfm : h'0.hash_map.find? m with _ | mn
    · exfalso
      rw [Store.find?_eq_none] at hfm
      exact hfm (W'.mid.str.rootsSub m hmR)
    · refine ⟨hmR, mn, rfl, ?_⟩
      intro r hr rn hrn
      rcases hmin2 r rn hrn with ⟨mn2, hmn2, hle⟩
      rw [hfm] at hmn2
      have : mn2 = mn := by simpa using hmn2.symm
      subst this
      exact hle
  · rcases hcase with ⟨hmin0, _, rfl⟩ | ⟨zv, z, h1, h2, h3, h4, h5, h6, h7, h8, hdeg⟩
    · rw [hmin0] at hm
      cases hm
    · exact hdeg

/-- C7 witness: instantiated on the worked example of spec section 8. -/
theorem C7_witness : ∃ outs h, run opsW = some (outs, h) ∧
    ∀ res h', extract_min h = some (res, h') → ∀ m, h'.min = some m →
      (m ∈ h'.roots ∧ ∃ mn, h'.hash_map.find? m = some mn ∧
        ∀ r ∈ h'.roots, ∀ rn, h'.hash_map.find? r = some rn →
          mn.key ≤ rn.key) ∧
      (∀ r ∈ h'.roots, ∀ rn, h'.hash_map.find? r = some rn →
        ∀ r2 ∈ h'.roots, ∀ rn2, h'.hash_map.find? r2 = some rn2 →
          ¬r = r2 → ¬rn.children.length = rn2.children.length) :=
  C7_consolidate_invariants (by decide)

/-- C9: on every reachable heap, `consolidate` run on the intermediate
state that `extract_min` builds (children of the minimum promoted, the
minimum removed from the roots, size still the pre-decrement size)
keeps every degree-array access in bounds.  The model turns any
out-of-bounds access into `none`, and the first conjunct returns a
result for every array length `L` that covers the achievable degrees,
i.e. whenever each degree `d` with `fib(d+2) ≤ size` satisfies `d < L`.
The source computes its length at fibonacci_heap.rs:159-160 as
`(self.size as f64).log(φ) as usize + 1` with `f64` arithmetic of
unspecified precision, so no single exact length can stand for it; the
second conjunct therefore locates every achievable degree `d ≥ 1` a
quarter below `log_φ(size)`: `φ^(4d+1) ≤ size^4`, i.e.
`d + 1/4 ≤ log_φ(size)`, for `size` in `i32` range as in the source.
Hence any length obtained by truncating an approximation of
`log_φ(size)` with error below `1/4` and adding one satisfies the first
conjunct's hypothesis (for `d = 0` because the length is positive) —
in particular the source's length, whose `f64` log error is far below
`1/4`, whether it truncates to the exact `floor(log_φ size)` or to one
less, and also the exact `floor(log_φ size) + 1` itself. -/
theorem C9_consolidate_in_bounds {ops : List (Op K V)}
    (hnd : (insValues ops).Nodup) :
    ∃ outs h, run ops = some (outs, h) ∧
      (∀ zv z, h.min = some zv → h.hash_map.find? zv = some z →
        ∀ L, (∀ d, Nat.fib (d + 2) ≤ h.size.toNat → d < L) →
          ∃ h2, consolidateWith L (midHeap h z zv) = some h2) ∧
      (∀ d, 1 ≤ d → Nat.fib (d + 2) ≤ h.size.toNat →
        h.size.toNat ≤ 2147483647 →
          phiPowLeB (4 * d + 1) (h.size.toNat ^ 4) = true) := by
  obtain ⟨outs, h, hrun, W, _, _⟩ := run_spec hnd
  refine ⟨outs, h, hrun, ?_, ?_⟩
  · intro zv z hmin hz L hL
    obtain ⟨hzvR, _⟩ := W.minSome zv hmin
    have Wm : MidWF (midHeap h z zv).hash_map (midHeap h z zv).roots [zv] :=
      promote_spec W.mid hz hzvR
    have hL2 : ∀ d, Nat.fib (d + 2) ≤ (midHeap h z zv).hash_map.length →
        d < L := by
      intro d hd
      have hlen : (midHeap h z zv).hash_map.length = h.hash_map.length := by
        show (z.children.foldl (fun s c => setParent s c none) h.hash_map).length = _
        rw [foldl_setParent_length]
      rw [hlen] at hd
      refine hL d ?_
      rw [W.sizeEq]
      simpa using hd
    obtain ⟨h2, heqc, _⟩ := consolidateWith_spec Wm hL2
    exact ⟨h2, heqc⟩
  · intro d h1 h2 h3
    exact phiPow_margin h1 h2 h3

/-- C9 witness: instantiated on the worked example of spec section 8. -/
theorem C9_witness : ∃ outs h, run opsW = some (outs, h) ∧
    (∀ zv z, h.min = some zv → h.hash_map.find? zv = some z →
      ∀ L, (∀ d, Nat.fib (d + 2) ≤ h.size.toNat → d < L) →
        ∃ h2, consolidateWith L (midHeap h z zv) = some h2) ∧
    (∀ d, 1 ≤ d → Nat.fib (d + 2) ≤ h.size.toNat →
      h.size.toNat ≤ 2147483647 →
        phiPowLeB (4 * d + 1) (h.size.toNat ^ 4) = true) :=
  C9_consolidate_in_bounds (by decide)

/-- C1: running any operation sequence with pairwise-distinct inserted
values and then repeatedly extracting until empty yields the remaining
pairs in non-decreasing key order, and the extracted values are a
permutation of the inserted-and-not-previously-extracted values. -/
theorem C1_drain_sorted_perm {ops : List (Op K V)}
    (hnd : (insValues ops).Nodup) :
    ∃ outs h, run ops = some (outs, h) ∧
      ∃ ps, drain h.hash_map.length h = some ps ∧
        List.Pairwise (fun p q : K × V => p.1 ≤ q.1) ps ∧
        (ps.map Prod.snd).Perm
          ((insValues ops).filter (fun v => v ∉ poppedValues outs)) := by
  obtain ⟨outs, h, hrun, W, _, hdom⟩ := run_spec hnd
  obtain ⟨ps, hdr, hsort, _, hndps, hmem⟩ :=
    drain_spec h.hash_map.length h W (le_refl _)
  refine ⟨outs, h, hrun, ps, hdr, hsort, ?_⟩
  refine (List.perm_ext_iff_of_nodup hndps (hnd.filter _)).2 ?_
  intro w
  rw [hmem w, hdom w, List.mem_filter]
  simp

/-- C1 witness: instantiated on the worked example of spec section 8. -/
theorem C1_witness : ∃ outs h, run opsW = some (outs, h) ∧
    ∃ ps, drain h.hash_map.length h = some ps ∧
      List.Pairwise (fun p q : Int × Nat => p.1 ≤ q.1) ps ∧
      (ps.map Prod.snd).Perm
        ((insValues opsW).filter (fun v => v ∉ poppedValues outs)) :=
  C1_drain_sorted_perm (by decide)

/-- C3 counterexample: after the reachable operation sequence `ops3`
(pairwise-distinct inserted values), the root set contains a node whose
mark bit is set, refuting "roots are never marked".  `extract_min`
promotes the children of the extracted minimum to roots without clearing
their marks, exactly as CLRS prescribes. -/
theorem C3_counterexample : C3check = true ∧ (insValues ops3).Nodup := by
  constructor
  · decide
  · decide

/-- C3: corrected.  Nodes enter the root set unmarked through `insert`
(a fresh node is created with `marked := false`) and through `cut`
(which clears the mark of the node it moves to the roots), but
`extract_min` promotes the extracted minimum's children to the root set
without touching their mark bits, so a reachable heap can have a marked
root: the spec's invariant "roots are never marked" does not hold. -/
theorem C3_marked_roots_reachable :
    (∀ (h : FibonacciHeap K V), HeapWF h → ∀ (k : K) (v : V),
      v ∉ h.hash_map.domV →
      ∃ h' n, insert h k v = some h' ∧ h'.hash_map.find? v = some n ∧
        n.marked = false) ∧
    (∀ (h : FibonacciHeap K V) (x y : V) (n : FibNode K V),
      (cut h x y).hash_map.find? x = some n →
      n.marked = false ∧ x ∈ (cut h x y).roots) ∧
    (∃ (outs : List (Out Int Nat)) (hf : FibonacciHeap Int Nat) (r : Nat)
      (n : FibNode Int Nat),
      run ops3 = some (outs, hf) ∧ (insValues ops3).Nodup ∧
      r ∈ hf.roots ∧ hf.hash_map.find? r = some n ∧ n.marked = true) := by
  refine ⟨?_, ?_, ?_⟩
  · intro h W k v hfresh
    obtain ⟨h', heq, _, hmap, _, _⟩ := insert_spec W k hfresh
    refine ⟨h', ⟨k, v, none, [], false⟩, heq, ?_, rfl⟩
    rw [hmap, Store.find?_ins, if_pos rfl]
  · intro h x y n hn
    constructor
    · have hf : (cut h x y).hash_map.find? x =
          ((setParent (removeChild h.hash_map y x) x none).find? x).map
            (fun m => { m with marked := false }) := by
        show (setMarked _ x false).find? x = _
        rw [find?_setMarked, if_pos rfl]
      rw [hf] at hn
      rcases Option.map_eq_some'.1 hn with ⟨n0, _, hn0⟩
      rw [← hn0]
    · exact insertRoot_mem.2 (Or.inr rfl)
  · have hch : C3check = true := by decide
    have hnd3 : (insValues ops3).Nodup := by decide
    rcases hrun : run ops3 with _ | ⟨outs, hf⟩
    · exfalso
      unfold C3check at hch
      rw [hrun] at hch
      cases hch
    · unfold C3check at hch
      rw [hrun] at hch
      rcases List.any_eq_true.1 hch with ⟨r, hr, hb⟩
      rcases hfr : hf.hash_map.find? r with _ | n
      · rw [hfr] at hb
        cases hb
      · rw [hfr] at hb
        exact ⟨outs, hf, r, n, rfl, hnd3, hr, hfr, hb⟩

/-- C3 witness: the insert clause applied at a concrete input: inserting
value 0 with key 0 into the empty heap yields an unmarked entry for 0. -/
theorem C3_witness :
    ∃ h' n, insert (FibonacciHeap.new Int Nat) 0 0 = some h' ∧
      h'.hash_map.find? 0 = some n ∧ n.marked = false :=
  C3_marked_roots_reachable.1 (FibonacciHeap.new Int Nat) HeapWF.new_WF 0 0
    (by simp [FibonacciHeap.new, Store.domV])
